import Mathlib

/-!
# The `reader` package of the Go `mal` implementation (impls/go2/reader/reader.go)

A shallow embedding of the tokenizer, the token cursor, the recursive-descent
form parser and the value model, followed by theorems about them.

Conventions of the embedding.

* A Go `string` scanned rune by rune (`for _, val := range s`, the regexp
  engine, `strings.TrimLeftFunc`) is a `List Char`; tokens and names that are
  only compared, stored or concatenated are `String`s.  Inputs are well-formed
  UTF-8.
* Go's `int` is an unbounded `Int`.  The 64-bit `int` of Go agrees with it
  below `2^63 - 1`, where `r.Position++` wraps to `-2^63`.  A token slice has
  fewer than `2^60` elements (a string header takes 16 bytes) and the cursor
  never moves more than two places past its end, so `Position + 1` never wraps
  on a run started by `ReadStr`; a statement about an arbitrary Reader keeps
  the position below `2^63 - 1` where it depends on the sum.
* A Go function returning `(value, error)` returns an `Outcome`: `ok v` for a
  nil error, `eof` for `*EOFError` (the only error the package creates), and
  `fault` for a run-time panic (index out of range, unhashable map key).  The
  value that accompanies a non-nil error is dropped: no caller in the package
  inspects it and `ReadStr` replaces it by `nil`.
* The recursion of the form parser is bounded by a fuel argument;
  `outOfFuel` is the outcome of a run that used its fuel up.
* The `*Reader` argument is passed and returned explicitly.
-/

namespace MalReader

/-! ## Value model -/

/-- The `MalType` interface with its six implementations.  A `MalHash` (a Go
map) is kept as an association list in order of first insertion. -/
inductive MalType where
  | MalList (elems : List MalType)
  | MalVec (elems : List MalType)
  | MalHash (pairs : List (MalType × MalType))
  | MalNumber (n : Int)
  | MalString (s : String)
  | MalSymbol (name : String)

/-- Outcome of a Go call that may return an error or panic. -/
inductive Outcome (α : Type) where
  | ok (a : α)
  | eof
  | fault
  | outOfFuel

/-- `strings.Join(elems, sep)` on rune lists. -/
def join (sep : List Char) : List (List Char) → List Char
  | [] => []
  | [x] => x
  | x :: y :: rest => x ++ sep ++ join sep (y :: rest)

/-- Decimal digits of a natural number, most significant first (the digit
loop of `strconv.Itoa`); the first argument bounds the number of digits. -/
def natDigits : Nat → Nat → List Char
  | 0, _ => []
  | fuel + 1, n =>
    if n < 10 then [Char.ofNat (48 + n)]
    else natDigits fuel (n / 10) ++ [Char.ofNat (48 + n % 10)]

/-- `strconv.Itoa`. -/
def Itoa (n : Int) : List Char :=
  if n < 0 then '-' :: natDigits (n.natAbs + 1) n.natAbs
  else natDigits (n.natAbs + 1) n.natAbs

mutual
/-- The `String()` methods of `MalList`, `MalVec`, `MalNumber`, `MalString`
and `MalSymbol`.  For a `MalHash` the pairs are rendered in the stored order,
one of the orders in which Go may range over the map (the order of a `range`
over a map is unspecified); nothing below depends on the rendering of a
mapping. -/
def MalType.render : MalType → List Char
  | .MalList elems => '(' :: join [' '] (renderAll elems) ++ [')']
  | .MalVec elems => '[' :: join [' '] (renderAll elems) ++ [']']
  | .MalHash pairs => '{' :: join [' '] (renderPairs pairs) ++ ['}']
  | .MalNumber n => Itoa n
  | .MalString s => s.data
  | .MalSymbol name => name.data
/-- Renderings of the elements of a list or vector (`res[idx] = val.String()`). -/
def renderAll : List MalType → List (List Char)
  | [] => []
  | x :: xs => x.render :: renderAll xs
/-- Renderings `key.String()+" "+value.String()` of the pairs of a mapping. -/
def renderPairs : List (MalType × MalType) → List (List Char)
  | [] => []
  | (k, v) :: ps => (k.render ++ ' ' :: v.render) :: renderPairs ps
end

/-- The `String()` method of a value, as a string. -/
def MalType.String (v : MalType) : String := String.mk v.render

/-! ## Map keys -/

/-- Whether the dynamic type of an interface value can be a map key: slices
(`MalList`, `MalVec`) and maps (`MalHash`) cannot, and hashing them panics. -/
def hashable : MalType → Bool
  | .MalNumber _ => true
  | .MalString _ => true
  | .MalSymbol _ => true
  | _ => false

/-- Go's `==` on two interface values of hashable dynamic type. -/
def keyEq : MalType → MalType → Bool
  | .MalNumber a, .MalNumber b => decide (a = b)
  | .MalString a, .MalString b => decide (a = b)
  | .MalSymbol a, .MalSymbol b => decide (a = b)
  | _, _ => false

/-- Replace the value stored under `k`, or append the pair when `k` is new. -/
def hashSet (k v : MalType) : List (MalType × MalType) → List (MalType × MalType)
  | [] => [(k, v)]
  | (k', v') :: rest =>
    if keyEq k' k then (k', v) :: rest else (k', v') :: hashSet k v rest

/-- The map assignment `res[k] = v`: `none` is the run-time panic on an
unhashable key. -/
def hashInsert (m : List (MalType × MalType)) (k v : MalType) :
    Option (List (MalType × MalType)) :=
  if hashable k then some (hashSet k v m) else none

/-- The map lookup `m[k]`. -/
def hashLookup (k : MalType) : List (MalType × MalType) → Option MalType
  | [] => none
  | (k', v') :: rest => if keyEq k' k then some v' else hashLookup k rest

/-! ## Character classes -/

/-- The Perl class `\s` of Go's `regexp`: `[\t\n\f\r ]`. -/
def isReSpace (c : Char) : Bool :=
  c = '\t' || c = '\n' || c = Char.ofNat 12 || c = '\r' || c = ' '

/-- The regexp class `[\s,]`. -/
def isSep (c : Char) : Bool := isReSpace c || c = ','

/-- The regexp class ``[\[\]{}()'`~^@]``. -/
def isSpecial (c : Char) : Bool :=
  c = '[' || c = ']' || c = '{' || c = '}' || c = '(' || c = ')' ||
  c = '\'' || c = '`' || c = '~' || c = '^' || c = '@'

/-- The regexp class ``[^\s\[\]{}('"`,;)]``. -/
def isBare (c : Char) : Bool :=
  !(isReSpace c || c = '[' || c = ']' || c = '{' || c = '}' || c = '(' ||
    c = '\'' || c = '"' || c = '`' || c = ',' || c = ';' || c = ')')

/-- Go's `unicode.IsSpace`: the Unicode White_Space property. -/
def isSpace (c : Char) : Bool :=
  let n := c.toNat
  (9 ≤ n && n ≤ 13) || n = 32 || n = 0x85 || n = 0xA0 || n = 0x1680 ||
  (0x2000 ≤ n && n ≤ 0x200a) || n = 0x2028 || n = 0x2029 || n = 0x202f ||
  n = 0x205f || n = 0x3000

/-! ## Tokenizer -/

/-- The part `(?:\\.|[^\\"])*"?` of the string alternative, after the opening
quote: returns the matched text and the rest.  `.` does not match a newline. -/
def scanString : List Char → List Char × List Char
  | [] => ([], [])
  | '\\' :: c :: rest =>
    if c = '\n' then ([], '\\' :: c :: rest)
    else
      let (m, r) := scanString rest
      ('\\' :: c :: m, r)
  | c :: rest =>
    if c = '\\' then ([], c :: rest)
    else if c = '"' then (['"'], rest)
    else
      let (m, r) := scanString rest
      (c :: m, r)

/-- The capture group of the tokenizer regexp, matched at the start of the
input with leftmost-first preference among the five alternatives. -/
def matchCapture : List Char → List Char × List Char
  | '~' :: '@' :: rest => (['~', '@'], rest)
  | c :: rest =>
    if isSpecial c then ([c], rest)
    else if c = '"' then
      let (m, r) := scanString rest
      ('"' :: m, r)
    else if c = ';' then
      (c :: rest.takeWhile (fun x => x ≠ '\n'), rest.dropWhile (fun x => x ≠ '\n'))
    else ((c :: rest).takeWhile isBare, (c :: rest).dropWhile isBare)
  | [] => ([], [])

/-- One match of the whole tokenizer regexp at the start of the input: the
greedy run `[\s,]*` followed by the capture group. -/
def matchToken (s : List Char) : List Char × List Char :=
  let (m, r) := matchCapture (s.dropWhile isSep)
  (s.takeWhile isSep ++ m, r)

/-- `strings.TrimLeftFunc(val, func(r) { unicode.IsSpace(r) || r == ',' })`. -/
def trimLeft (s : List Char) : List Char :=
  s.dropWhile (fun c => isSpace c || c = ',')

/-- The loop of `Regexp.FindAllString(s, -1)` with the trimming of `tokenize`
applied to every match.  `afterMatch` says that the previous match ended at
the current position (`prevMatchEnd == pos`): an empty match there is dropped.
After an empty match the scan moves one rune forward, or stops at the end. -/
def tokenizeLoop : Nat → List Char → Bool → List String
  | 0, _, _ => []
  | fuel + 1, s, afterMatch =>
    match matchToken s with
    | ([], rest) =>
      let out := if afterMatch then [] else [String.mk (trimLeft [])]
      match rest with
      | [] => out
      | _ :: rest' => out ++ tokenizeLoop fuel rest' false
    | (m, rest) =>
      String.mk (trimLeft m) :: tokenizeLoop fuel rest true

/-- The function `tokenize`.  Every iteration but the last consumes at least
one rune, so `s.length + 1` iterations are enough. -/
def tokenize (s : String) : List String :=
  tokenizeLoop (s.length + 1) s.data false

/-! ## String scans -/

/-- The loop of `balancedQuotes` over the remaining runes, with the loop
variables `prevEscape`, `quoteLevel`, `openAlready`. -/
def balancedQuotesLoop : Bool → Int → Bool → List Char → Bool
  | _, quoteLevel, _, [] => decide (quoteLevel = 0)
  | prevEscape, quoteLevel, openAlready, val :: rest =>
    if val = '"' then
      if prevEscape then balancedQuotesLoop false quoteLevel openAlready rest
      else if openAlready then balancedQuotesLoop prevEscape (quoteLevel - 1) false rest
      else balancedQuotesLoop prevEscape (quoteLevel + 1) true rest
    else if val = '\\' then
      if prevEscape then balancedQuotesLoop false quoteLevel openAlready rest
      else balancedQuotesLoop true quoteLevel openAlready rest
    else balancedQuotesLoop prevEscape quoteLevel openAlready rest

/-- The function `balancedQuotes`. -/
def balancedQuotes (s : String) : Bool :=
  balancedQuotesLoop false 0 false s.data

/-- The loop of `properlyQuotedString` over the remaining runes, with the loop
variables `prevEscape`, `init`, `closeQuoted`. -/
def properlyQuotedLoop : Bool → Bool → Bool → List Char → Bool
  | _, _, closeQuoted, [] => closeQuoted
  | prevEscape, init, closeQuoted, val :: rest =>
    if init then
      if val ≠ '"' then false
      else properlyQuotedLoop prevEscape false closeQuoted rest
    else if closeQuoted then false
    else if val = '\\' then
      if prevEscape then properlyQuotedLoop false init closeQuoted rest
      else properlyQuotedLoop true init closeQuoted rest
    else if prevEscape then properlyQuotedLoop false init closeQuoted rest
    else if val = '"' then properlyQuotedLoop prevEscape init true rest
    else properlyQuotedLoop prevEscape init closeQuoted rest

/-- The function `properlyQuotedString`. -/
def properlyQuotedString (s : String) : Bool :=
  properlyQuotedLoop false true false s.data

/-! ## Integer literals -/

/-- Whether a rune is an ASCII decimal digit. -/
def isDigit (c : Char) : Bool := 48 ≤ c.toNat && c.toNat ≤ 57

/-- The value of a run of decimal digits (`n = n*10 + int(ch - '0')`). -/
def digitsValue (ds : List Char) : Nat :=
  ds.foldl (fun n ch => n * 10 + (ch.toNat - 48)) 0

/-- `strconv.Atoi` on a platform with 64-bit `int`: an optional sign, then one
or more decimal digits, and the value must fit in 64 bits; `none` is a non-nil
error (syntax or range). -/
def Atoi (s : List Char) : Option Int :=
  let neg := s.head? = some '-'
  let ds := if s.head? = some '-' ∨ s.head? = some '+' then s.tail else s
  if ds = [] then none
  else if !ds.all isDigit then none
  else
    let n : Int := if neg then -(digitsValue ds : Int) else (digitsValue ds : Int)
    if -(2 ^ 63 : Int) ≤ n ∧ n < (2 ^ 63 : Int) then some n else none

/-! ## Cursor -/

/-- The struct `Reader`. -/
structure Reader where
  Tokens : List String
  Position : Int
  EOF : Int

/-- The function `Advance` (`r.Position++`).  The sum is that of Go for a
position below `2^63 - 1`; at `2^63 - 1` Go's `int` wraps to `-2^63`. -/
def Advance (r : Reader) : Reader := { r with Position := r.Position + 1 }

/-- The function `Peek`; indexing outside the slice panics. -/
def Peek (r : Reader) : Outcome String :=
  if r.Position < r.EOF then
    if 0 ≤ r.Position then
      match r.Tokens[r.Position.toNat]? with
      | some t => .ok t
      | none => .fault
    else .fault
  else .eof

/-- The function `Next`. -/
def Next (r : Reader) : Outcome String × Reader :=
  match Peek r with
  | .ok t => (.ok t, Advance r)
  | .eof => (.eof, r)
  | .fault => (.fault, r)
  | .outOfFuel => (.outOfFuel, r)

/-! ## Form parser -/

/-- The function `readAtom`. -/
def readAtom (r : Reader) : Outcome MalType × Reader :=
  match Next r with
  | (.ok val, r1) =>
    match Atoi val.data with
    | some s => (.ok (.MalNumber s), r1)
    | none =>
      if val.data.head? = some '"' then
        if !properlyQuotedString val then (.eof, r1)
        else (.ok (.MalString val), r1)
      else (.ok (.MalSymbol val), r1)
  | (.fault, r1) => (.fault, r1)
  | (_, r1) => (.eof, r1)

/-- The `for str != closing` loop of `readList`: `res` is the slice built so
far, the reader stands where the last `Peek` was made.  A failed `Peek` leaves
`str` empty. -/
def readListLoop (readForm : Reader → Outcome MalType × Reader) (closing : String) :
    Nat → List MalType → Reader → Outcome (List MalType) × Reader
  | 0, _, r => (.outOfFuel, r)
  | fuel + 1, res, r =>
    match Peek r with
    | .fault => (.fault, r)
    | .outOfFuel => (.outOfFuel, r)
    | .eof => if "" = closing then (.ok res, Advance r) else (.eof, r)
    | .ok str =>
      if str = closing then (.ok res, Advance r)
      else
        match readForm r with
        | (.ok tmp, r1) => readListLoop readForm closing fuel (res ++ [tmp]) r1
        | (.eof, r1) => (.eof, r1)
        | (.fault, r1) => (.fault, r1)
        | (.outOfFuel, r1) => (.outOfFuel, r1)

/-- The function `readList`. -/
def readList (readForm : Reader → Outcome MalType × Reader) (fuel : Nat)
    (r : Reader) (closing : String) : Outcome (List MalType) × Reader :=
  readListLoop readForm closing fuel [] (Advance r)

/-- The body of the `for str != "\x7d"` loop of `readHash`, from `readForm` of the
key to the `Peek` that ends the iteration; `next` is the rest of the loop. -/
def readHashBody (readForm : Reader → Outcome MalType × Reader)
    (next : List (MalType × MalType) → Reader → Outcome (List (MalType × MalType)) × Reader)
    (res : List (MalType × MalType)) (r : Reader) :
    Outcome (List (MalType × MalType)) × Reader :=
  match readForm r with
  | (.eof, r1) => (.eof, r1)
  | (.fault, r1) => (.fault, r1)
  | (.outOfFuel, r1) => (.outOfFuel, r1)
  | (.ok tmp1, r1) =>
    match Peek r1 with
    | .fault => (.fault, r1)
    | .outOfFuel => (.outOfFuel, r1)
    | .eof => (.eof, r1)
    | .ok str =>
      if str = "\x7d" then (.eof, r1)
      else
        match readForm r1 with
        | (.eof, r2) => (.eof, r2)
        | (.fault, r2) => (.fault, r2)
        | (.outOfFuel, r2) => (.outOfFuel, r2)
        | (.ok tmp2, r2) =>
          match hashInsert res tmp1 tmp2 with
          | none => (.fault, r2)
          | some res' =>
            match Peek r2 with
            | .fault => (.fault, r2)
            | .outOfFuel => (.outOfFuel, r2)
            | .eof => (.eof, r2)
            | .ok _ => next res' r2

/-- The `for str != "\x7d"` loop of `readHash`: `res` is the map built so far,
the reader stands where the last `Peek` was made.  A failed `Peek` leaves
`str` empty, so the body runs. -/
def readHashLoop (readForm : Reader → Outcome MalType × Reader) :
    Nat → List (MalType × MalType) → Reader →
      Outcome (List (MalType × MalType)) × Reader
  | 0, _, r => (.outOfFuel, r)
  | fuel + 1, res, r =>
    match Peek r with
    | .fault => (.fault, r)
    | .outOfFuel => (.outOfFuel, r)
    | .eof => readHashBody readForm (readHashLoop readForm fuel) res r
    | .ok str =>
      if str = "\x7d" then (.ok res, Advance r)
      else readHashBody readForm (readHashLoop readForm fuel) res r

/-- The function `readHash`. -/
def readHash (readForm : Reader → Outcome MalType × Reader) (fuel : Nat)
    (r : Reader) : Outcome (List (MalType × MalType)) × Reader :=
  readHashLoop readForm fuel [] (Advance r)

/-- The function `readQuote`. -/
def readQuote (readForm : Reader → Outcome MalType × Reader) (r : Reader)
    (quote : String) : Outcome (List MalType) × Reader :=
  match readForm (Advance r) with
  | (.ok tmp, r1) => (.ok [.MalSymbol quote, tmp], r1)
  | (.eof, r1) => (.eof, r1)
  | (.fault, r1) => (.fault, r1)
  | (.outOfFuel, r1) => (.outOfFuel, r1)

/-- The function `readMetaData`. -/
def readMetaData (readForm : Reader → Outcome MalType × Reader) (fuel : Nat)
    (r : Reader) : Outcome (List MalType) × Reader :=
  match readHash readForm fuel (Advance r) with
  | (.eof, r1) => (.eof, r1)
  | (.fault, r1) => (.fault, r1)
  | (.outOfFuel, r1) => (.outOfFuel, r1)
  | (.ok mm, r1) =>
    match readForm r1 with
    | (.ok ma, r2) => (.ok [.MalSymbol "with-meta", ma, .MalHash mm], r2)
    | (.eof, r2) => (.eof, r2)
    | (.fault, r2) => (.fault, r2)
    | (.outOfFuel, r2) => (.outOfFuel, r2)

/-- Conversion of a sub-reader's `(MalList, error)` result to `(MalType, error)`. -/
def asValue {α : Type} (f : α → MalType) :
    Outcome α × Reader → Outcome MalType × Reader
  | (.ok a, r) => (.ok (f a), r)
  | (.eof, r) => (.eof, r)
  | (.fault, r) => (.fault, r)
  | (.outOfFuel, r) => (.outOfFuel, r)

/-- The `switch res` statement of `readForm`, with the recursive calls made
through `readForm`. -/
def readFormSwitch (readForm : Reader → Outcome MalType × Reader) (fuel : Nat)
    (r : Reader) (res : String) : Outcome MalType × Reader :=
  if res = "(" then asValue MalType.MalList (readList readForm fuel r ")")
  else if res = "[" then asValue MalType.MalVec (readList readForm fuel r "]")
  else if res = "\x7b" then asValue MalType.MalHash (readHash readForm fuel r)
  else if res = "'" then asValue MalType.MalList (readQuote readForm r "quote")
  else if res = "`" then asValue MalType.MalList (readQuote readForm r "quasiquote")
  else if res = "~" then asValue MalType.MalList (readQuote readForm r "unquote")
  else if res = "~@" then asValue MalType.MalList (readQuote readForm r "splice-unquote")
  else if res = "@" then asValue MalType.MalList (readQuote readForm r "deref")
  else if res = "^" then asValue MalType.MalList (readMetaData readForm fuel r)
  else readAtom r

/-- The function `readForm`.  The fuel bounds the nesting depth and the number
of iterations of each loop. -/
def readForm : Nat → Reader → Outcome MalType × Reader
  | 0, r => (.outOfFuel, r)
  | fuel + 1, r =>
    match Peek r with
    | .eof => (.eof, r)
    | .fault => (.fault, r)
    | .outOfFuel => (.outOfFuel, r)
    | .ok res => readFormSwitch (readForm fuel) fuel r res

/-- The reader `Reader{Tokens: tokens, Position: 0, EOF: len(tokens)}`. -/
def mkReader (tokens : List String) : Reader :=
  { Tokens := tokens, Position := 0, EOF := tokens.length }

/-- The form parser run on a fresh reader over `tokens`, with fuel that no
run uses up. -/
def parseTokens (tokens : List String) : Outcome MalType × Reader :=
  readForm (tokens.length + 2) (mkReader tokens)

/-- The function `ReadStr`. -/
def ReadStr (s : String) : Outcome MalType :=
  (parseTokens (tokenize s)).1

/-! ## Notions used in the statements and proofs -/

/-- An item of a string literal body, in the words of the specification: an
escaped pair (a backslash and any one character) or a single character other
than the quote and the backslash. -/
def IsItem (it : List Char) : Prop :=
  (∃ c, it = ['\\', c]) ∨ (∃ c, it = [c] ∧ c ≠ '"' ∧ c ≠ '\\')

/-- A string literal in the words of the specification: a quote, a sequence of
items, one closing quote and nothing after it. -/
def IsQuotedLiteral (s : List Char) : Prop :=
  ∃ items : List (List Char), (∀ it ∈ items, IsItem it) ∧ s = '"' :: items.flatten ++ ['"']

/-- Whether the character at index `i` is escaped, in the words of the
specification: it is immediately preceded by a backslash that is not itself
escaped. -/
def isEscaped (s : List Char) : Nat → Bool
  | 0 => false
  | i + 1 => decide (s[i]? = some '\\') && !isEscaped s i

/-- The number of unescaped quote characters of a string. -/
def unescapedQuotes (s : List Char) : Nat :=
  ((List.range s.length).filter
    (fun i => decide (s[i]? = some '"') && !isEscaped s i)).length

/-- A decimal integer literal in the words of the specification: an optional
sign followed by one or more decimal digits that denote `n`, with `n`
representable as a 64-bit signed integer. -/
def IsDecimalInt (t : List Char) (n : Int) : Prop :=
  ∃ sign ds : List Char, t = sign ++ ds ∧ (sign = [] ∨ sign = ['+'] ∨ sign = ['-']) ∧
    ds ≠ [] ∧ (∀ c ∈ ds, isDigit c = true) ∧
    n = (if sign = ['-'] then -1 else 1) *
      ((Nat.ofDigits 10 (ds.reverse.map (fun c => c.toNat - 48)) : Nat) : Int) ∧
    -(2 ^ 63 : Int) ≤ n ∧ n < 2 ^ 63

/-- The part of `Atoi` that follows the removal of the sign. -/
def atoiCore (neg : Bool) (ds : List Char) : Option Int :=
  if ds = [] then none
  else if !ds.all isDigit then none
  else
    let n : Int := if neg then -(digitsValue ds : Int) else (digitsValue ds : Int)
    if -(2 ^ 63 : Int) ≤ n ∧ n < (2 ^ 63 : Int) then some n else none

/-- The branches of the `switch` of `readForm`. -/
inductive Branch where
  | list
  | vec
  | hash
  | quote (name : String)
  | metadata
  | atom

/-- The branch that the `switch` of `readForm` takes on a token. -/
def branchOf (t : String) : Branch :=
  if t = "(" then .list
  else if t = "[" then .vec
  else if t = "\x7b" then .hash
  else if t = "'" then .quote "quote"
  else if t = "`" then .quote "quasiquote"
  else if t = "~" then .quote "unquote"
  else if t = "~@" then .quote "splice-unquote"
  else if t = "@" then .quote "deref"
  else if t = "^" then .metadata
  else .atom

/-- What each branch of the `switch` of `readForm` runs. -/
def runBranch (rf : Reader → Outcome MalType × Reader) (fuel : Nat) (r : Reader) :
    Branch → Outcome MalType × Reader
  | .list => asValue MalType.MalList (readList rf fuel r ")")
  | .vec => asValue MalType.MalVec (readList rf fuel r "]")
  | .hash => asValue MalType.MalHash (readHash rf fuel r)
  | .quote name => asValue MalType.MalList (readQuote rf r name)
  | .metadata => asValue MalType.MalList (readMetaData rf fuel r)
  | .atom => readAtom r

/-- A run from `r` keeps the tokens and the end mark, never moves the cursor
back, and on success has moved it forward without passing the end mark. -/
def Steady {α : Type} (r : Reader) (res : Outcome α × Reader) : Prop :=
  res.2.Tokens = r.Tokens ∧ res.2.EOF = r.EOF ∧ r.Position ≤ res.2.Position ∧
  (∀ v, res.1 = .ok v → r.Position < res.2.Position ∧ res.2.Position ≤ r.EOF)

/-- The reader `rf'` agrees with `rf` wherever `rf` does not run out of fuel. -/
def Extends (rf rf' : Reader → Outcome MalType × Reader) : Prop :=
  ∀ r, (rf r).1 ≠ .outOfFuel → rf' r = rf r

/-- The reader `r` seen inside a longer token sequence: `pre` is put before
its tokens and `post` after them. -/
def embed (pre post : List String) (r : Reader) : Reader :=
  { Tokens := pre ++ r.Tokens ++ post
    Position := r.Position + pre.length
    EOF := r.EOF + pre.length + post.length }

/-- A successful run of `rf` is not changed by tokens put before and after. -/
def Framed (pre post : List String) (rf : Reader → Outcome MalType × Reader) : Prop :=
  ∀ r v r', rf r = (.ok v, r') → rf (embed pre post r) = (.ok v, embed pre post r')

/-- The number of tokens between the cursor and the end mark. -/
def remaining (r : Reader) : Nat := (r.EOF - r.Position).toNat

/-- The reader `r` runs over the token sequence `ts` with the end mark at its
length and a cursor that is not negative, as every reader reached from
`ReadStr` does. -/
def Over (ts : List String) (r : Reader) : Prop :=
  r.Tokens = ts ∧ r.EOF = ts.length ∧ 0 ≤ r.Position

/-! ## Notions used for the tokenizer -/

/-- The tokens of a rune list: `tokenizeLoop` with the fuel `tokenize` gives it. -/
def tokensOf (s : List Char) (afterMatch : Bool) : List String :=
  tokenizeLoop (s.length + 1) s afterMatch

/-- A character of a bare word, in the words of the specification: not
whitespace and none of ``[ ] { } ( ) ' " ` , ;``. -/
def isWordChar (c : Char) : Bool :=
  !isSpace c &&
  !(c = '[' || c = ']' || c = '{' || c = '}' || c = '(' || c = ')' ||
    c = '\'' || c = '"' || c = '`' || c = ',' || c = ';')

/-- A bare word: a non-empty run of word characters that does not begin with
`~`, `^` or `@`. -/
def IsWord (w : List Char) : Prop :=
  w ≠ [] ∧ (∀ c ∈ w, isWordChar c = true) ∧
  w.head? ≠ some '~' ∧ w.head? ≠ some '^' ∧ w.head? ≠ some '@'

/-- One of the six bracket characters. -/
def isBracket (c : Char) : Bool :=
  c = '(' || c = ')' || c = '[' || c = ']' || c = '{' || c = '}'

/-- The text that follows a token is empty or begins with a character that
cannot continue a bare word. -/
def Delimited (rest : List Char) : Prop :=
  ∀ c, rest.head? = some c → isBare c = false

/-- The text `block` is cut into exactly the tokens `toks`, whatever separators
stand before it and whatever delimited text follows it. -/
def Lexes (block : List Char) (toks : List String) : Prop :=
  ∀ (sep rest : List Char) (b : Bool), (∀ c ∈ sep, isSep c = true) → Delimited rest →
    tokensOf (sep ++ block ++ rest) b = toks ++ tokensOf rest true

/-- The reader over `ts` with the cursor at index `p`. -/
def readerAt (ts : List String) (p : Nat) : Reader :=
  { Tokens := ts, Position := p, EOF := ts.length }

/-- The value `readAtom` gives for a token that does not begin with a quote:
a Number when `Atoi` succeeds, the Symbol named by the token otherwise. -/
def atomOf (t : String) : MalType :=
  match Atoi t.data with
  | some n => .MalNumber n
  | none => .MalSymbol t

/-- Consecutive elements taken two by two as key and value. -/
def pairUp : List MalType → List (MalType × MalType)
  | k :: v :: rest => (k, v) :: pairUp rest
  | _ => []

/-- The map obtained from `res` by the assignments `res[k] = v` for the pairs
in order. -/
def assignAll (pairs : List (MalType × MalType)) (res : List (MalType × MalType)) :
    List (MalType × MalType) :=
  pairs.foldl (fun m p => hashSet p.1 p.2 m) res

/-- The text `{a1 a2 ... an}`. -/
def mappingText (atoms : List (List Char)) : String :=
  String.mk ('{' :: join [' '] atoms ++ ['}'])

instance instDecidableIsWord (w : List Char) : Decidable (IsWord w) := by
  unfold IsWord
  infer_instance

/-! ## Notions used for the round trip -/

mutual
/-- The tokens of the rendering of a value. -/
def MalType.toks : MalType → List String
  | .MalList elems => "(" :: toksAll elems ++ [")"]
  | .MalVec elems => "[" :: toksAll elems ++ ["]"]
  | .MalHash _ => []
  | .MalNumber n => [String.mk (Itoa n)]
  | .MalString s => [s]
  | .MalSymbol name => [name]
/-- The tokens of the renderings of the elements of a list or vector. -/
def toksAll : List MalType → List String
  | [] => []
  | x :: xs => x.toks ++ toksAll xs
end

mutual
/-- A value built only from List, Vector, Number and Symbol nodes, where every
Number fits the 64-bit `int` and every Symbol name is a bare word that `Atoi`
does not accept. -/
def MalType.Plain : MalType → Prop
  | .MalList elems => allPlain elems
  | .MalVec elems => allPlain elems
  | .MalHash _ => False
  | .MalNumber n => -(2 ^ 63 : Int) ≤ n ∧ n < 2 ^ 63
  | .MalString _ => False
  | .MalSymbol name => IsWord name.data ∧ Atoi name.data = none
/-- Every element of the list is `Plain`. -/
def allPlain : List MalType → Prop
  | [] => True
  | x :: xs => x.Plain ∧ allPlain xs
end

/-! ## Notions used for the items of an input -/

/-- An item of the body of a string literal that the tokenizer keeps whole:
an escaped pair whose second character is not a newline, or a single
character other than the quote and the backslash. -/
def isLexItem : List Char → Bool
  | [a, c] => decide (a = '\\') && decide (c ≠ '\n')
  | [c] => decide (c ≠ '"') && decide (c ≠ '\\')
  | _ => false

/-- A closed quoted string: a quote, items that the tokenizer keeps whole, and
a closing quote. -/
def IsClosedString (s : List Char) : Prop :=
  ∃ items : List (List Char), (∀ it ∈ items, isLexItem it = true) ∧
    s = '"' :: items.flatten ++ ['"']

/-- The text `block` is cut into exactly the tokens `toks`, whatever separators
stand before it and whatever text follows it. -/
def LexesAny (block : List Char) (toks : List String) : Prop :=
  ∀ (sep rest : List Char) (b : Bool), (∀ c ∈ sep, isSep c = true) →
    tokensOf (sep ++ block ++ rest) b = toks ++ tokensOf rest true

/-- An item of an input: a bare word, a closed quoted string or a bracket. -/
inductive Item where
  | word (w : List Char)
  | str (s : List Char)
  | bracket (c : Char)

/-- The text of an item. -/
def Item.text : Item → List Char
  | .word w => w
  | .str s => s
  | .bracket c => [c]

/-- The item is what its kind says. -/
def Item.Valid : Item → Prop
  | .word w => IsWord w
  | .str s => IsClosedString s
  | .bracket c => isBracket c = true

/-- Whether the item is a bare word. -/
def Item.isWord : Item → Bool
  | .word _ => true
  | _ => false

/-- The input made of the items in order, each after its run of separators. -/
def layout : List (List Char × Item) → List Char
  | [] => []
  | (sep, it) :: rest => sep ++ it.text ++ layout rest

/-- Two adjacent bare words have at least one separator between them. -/
def Separated : List (List Char × Item) → Prop
  | (_, a) :: (sep, b) :: rest =>
    (a.isWord = true → b.isWord = true → sep ≠ []) ∧ Separated ((sep, b) :: rest)
  | _ => True

/-! ## Notions used for counting runs -/

/-- A separator in the words of the specification: a whitespace character or
a comma. -/
def isSeparator (c : Char) : Bool := isSpace c || decide (c = ',')

/-- The number of maximal runs of non-separator characters; the flag says that
the character before the list was not a separator. -/
def countRuns : Bool → List Char → Nat
  | _, [] => 0
  | inRun, c :: rest =>
    if isSeparator c then countRuns false rest
    else (if inRun then 0 else 1) + countRuns true rest

/-- No maximal run of non-separator characters begins with `~`, `^` or `@`;
the flag says that the character before the list was not a separator. -/
def noSigilStart : Bool → List Char → Bool
  | _, [] => true
  | inRun, c :: rest =>
    if isSeparator c then noSigilStart false rest
    else (inRun || !(decide (c = '~') || decide (c = '^') || decide (c = '@'))) &&
      noSigilStart true rest

/-! ## The string scans -/

theorem properlyQuotedLoop_closed (pe : Bool) (l : List Char) :
    properlyQuotedLoop pe false true l = true ↔ l = [] := by
  cases l <;> simp [properlyQuotedLoop]

theorem properlyQuotedLoop_escape (c : Char) (l : List Char) :
    properlyQuotedLoop true false false (c :: l) = properlyQuotedLoop false false false l := by
  by_cases h : c = '\\' <;> simp [properlyQuotedLoop, h]

theorem items_head {items : List (List Char)} (h : ∀ it ∈ items, IsItem it)
    {c : Char} {rest : List Char} (e : c :: rest = items.flatten ++ ['"']) :
    (items = [] ∧ c = '"' ∧ rest = []) ∨
    (∃ c2 rest2 its, items = ['\\', c2] :: its ∧ c = '\\' ∧ rest = c2 :: rest2 ∧
        rest2 = its.flatten ++ ['"']) ∨
    (∃ its, items = [c] :: its ∧ c ≠ '"' ∧ c ≠ '\\' ∧ rest = its.flatten ++ ['"']) := by
  cases items with
  | nil =>
    left
    simp at e
    exact ⟨rfl, e.1, e.2⟩
  | cons it its =>
    right
    rcases h it (List.mem_cons_self _ _) with ⟨c2, rfl⟩ | ⟨c2, rfl, h1, h2⟩
    · left
      simp at e
      exact ⟨c2, its.flatten ++ ['"'], its, rfl, e.1, by simp [e.2], rfl⟩
    · right
      simp at e
      refine ⟨its, ?_, ?_, ?_, e.2⟩
      · rw [e.1]
      · rw [e.1]; exact h1
      · rw [e.1]; exact h2

theorem properlyQuotedLoop_body (n : Nat) : ∀ l : List Char, l.length ≤ n →
    (properlyQuotedLoop false false false l = true ↔
      ∃ items : List (List Char), (∀ it ∈ items, IsItem it) ∧ l = items.flatten ++ ['"']) := by
  induction n using Nat.strong_induction_on with
  | _ n ih =>
    intro l hl
    cases l with
    | nil => simp [properlyQuotedLoop]
    | cons c rest =>
      by_cases hb : c = '\\'
      · subst hb
        cases rest with
        | nil =>
          simp only [properlyQuotedLoop]
          constructor
          · intro h; simp at h
          · rintro ⟨items, hi, e⟩
            rcases items_head hi e with ⟨_, h, _⟩ | ⟨c2, rest2, its, _, _, h, _⟩ | ⟨its, _, _, h, _⟩
            · exact absurd h (by decide)
            · exact absurd h (by simp)
            · exact absurd rfl h
        | cons c2 rest2 =>
          have hstep : properlyQuotedLoop false false false ('\\' :: c2 :: rest2) =
              properlyQuotedLoop false false false rest2 := by
            rw [← properlyQuotedLoop_escape c2 rest2]
            simp [properlyQuotedLoop]
          rw [hstep, ih (rest2.length) (by simp at hl ⊢; omega) rest2 (le_refl _)]
          constructor
          · rintro ⟨items, hi, e⟩
            refine ⟨['\\', c2] :: items, ?_, by simp [e]⟩
            intro it hit
            rcases List.mem_cons.1 hit with rfl | h
            · exact Or.inl ⟨c2, rfl⟩
            · exact hi it h
          · rintro ⟨items, hi, e⟩
            rcases items_head hi e with ⟨_, h, _⟩ | ⟨c3, rest3, its, rfl, _, h, h2⟩ | ⟨its, _, _, h, _⟩
            · exact absurd h (by decide)
            · simp at h
              refine ⟨its, fun it hit => hi it (List.mem_cons_of_mem _ hit), ?_⟩
              rw [h.2, h2]
            · exact absurd rfl h
      · by_cases hq : c = '"'
        · subst hq
          have hstep : properlyQuotedLoop false false false ('"' :: rest) =
              properlyQuotedLoop false false true rest := by
            simp [properlyQuotedLoop]
          rw [hstep, properlyQuotedLoop_closed]
          constructor
          · rintro rfl
            exact ⟨[], by simp, by simp⟩
          · rintro ⟨items, hi, e⟩
            rcases items_head hi e with ⟨_, _, h⟩ | ⟨c2, rest2, its, _, h, _, _⟩ | ⟨its, _, h, _, _⟩
            · exact h
            · exact absurd h (by decide)
            · exact absurd rfl h
        · have hstep : properlyQuotedLoop false false false (c :: rest) =
              properlyQuotedLoop false false false rest := by
            simp [properlyQuotedLoop, hb, hq]
          rw [hstep, ih (rest.length) (by simp at hl ⊢; omega) rest (le_refl _)]
          constructor
          · rintro ⟨items, hi, e⟩
            refine ⟨[c] :: items, ?_, by simp [e]⟩
            intro it hit
            rcases List.mem_cons.1 hit with rfl | h
            · exact Or.inr ⟨c, rfl, hq, hb⟩
            · exact hi it h
          · rintro ⟨items, hi, e⟩
            rcases items_head hi e with ⟨_, h, _⟩ | ⟨c2, rest2, its, _, h, _, _⟩ | ⟨its, rfl, _, _, h⟩
            · exact absurd h hq
            · exact absurd h hb
            · exact ⟨its, fun it hit => hi it (List.mem_cons_of_mem _ hit), h⟩

/-! ## Integer literals -/

theorem digitsValue_eq_ofDigits (ds : List Char) :
    digitsValue ds = Nat.ofDigits 10 (ds.reverse.map (fun c => c.toNat - 48)) := by
  unfold digitsValue
  rw [Nat.ofDigits_eq_foldr, List.foldr_map, List.foldr_reverse]
  congr 1
  funext n ch
  simp
  ring

theorem isDigit_ne_sign {c : Char} (h : isDigit c = true) : c ≠ '-' ∧ c ≠ '+' := by
  constructor <;> rintro rfl <;> exact absurd h (by decide)

theorem Atoi_cons (c : Char) (rest : List Char) :
    Atoi (c :: rest) =
      if c = '-' then atoiCore true rest
      else if c = '+' then atoiCore false rest
      else atoiCore false (c :: rest) := by
  by_cases h1 : c = '-'
  · subst h1; simp [Atoi, atoiCore]
  · by_cases h2 : c = '+'
    · subst h2; simp [Atoi, atoiCore]
    · simp [Atoi, atoiCore, h1, h2]

theorem atoiCore_eq_some_iff (neg : Bool) (ds : List Char) (n : Int) :
    atoiCore neg ds = some n ↔
      ds ≠ [] ∧ (∀ c ∈ ds, isDigit c = true) ∧
      n = (if neg then -1 else 1) * (digitsValue ds : Int) ∧
      -(2 ^ 63 : Int) ≤ n ∧ n < 2 ^ 63 := by
  unfold atoiCore
  by_cases h1 : ds = []
  · simp [h1]
  · by_cases h2 : ds.all isDigit = true
    · have h2' : ∀ c ∈ ds, isDigit c = true := by simpa using h2
      have hv : (if neg = true then -(digitsValue ds : Int) else (digitsValue ds : Int)) =
          (if neg = true then -1 else 1) * (digitsValue ds : Int) := by
        cases neg <;> simp
      simp only [h1, h2, if_false, Bool.not_true, Bool.false_eq_true, hv]
      generalize (if neg = true then (-1 : Int) else 1) * (digitsValue ds : Int) = m
      by_cases hr : -(2 ^ 63 : Int) ≤ m ∧ m < 2 ^ 63
      · rw [if_pos hr]
        constructor
        · intro h
          have h' := Option.some.inj h
          subst h'
          exact ⟨h1, h2', rfl, hr.1, hr.2⟩
        · rintro ⟨_, _, rfl, _⟩
          rfl
      · rw [if_neg hr]
        constructor
        · intro h
          exact absurd h (by simp)
        · rintro ⟨_, _, rfl, hr1, hr2⟩
          exact absurd ⟨hr1, hr2⟩ hr
    · have h2' : ¬ ∀ c ∈ ds, isDigit c = true := by simpa using h2
      simp [h1, h2]
      intro h
      exact absurd h h2'

theorem Atoi_eq_some_iff (t : List Char) (n : Int) :
    Atoi t = some n ↔ IsDecimalInt t n := by
  unfold IsDecimalInt
  cases t with
  | nil =>
    constructor
    · intro h; simp [Atoi] at h
    · rintro ⟨sign, ds, e, _, hne, _⟩
      have := List.append_eq_nil.1 e.symm
      exact absurd this.2 hne
  | cons c rest =>
    rw [Atoi_cons]
    constructor
    · intro h
      split at h
      · rename_i hc
        rw [atoiCore_eq_some_iff] at h
        obtain ⟨h1, h2, h3, h4⟩ := h
        refine ⟨['-'], rest, by simp [hc], by simp, h1, h2, ?_, h4⟩
        rw [h3, digitsValue_eq_ofDigits]; simp
      · split at h
        · rename_i hc
          rw [atoiCore_eq_some_iff] at h
          obtain ⟨h1, h2, h3, h4⟩ := h
          refine ⟨['+'], rest, by simp [hc], by simp, h1, h2, ?_, h4⟩
          rw [h3, digitsValue_eq_ofDigits]; simp
        · rw [atoiCore_eq_some_iff] at h
          obtain ⟨h1, h2, h3, h4⟩ := h
          refine ⟨[], c :: rest, by simp, by simp, h1, h2, ?_, h4⟩
          rw [h3, digitsValue_eq_ofDigits]; simp
    · rintro ⟨sign, ds, e, hs, hne, hd, hn, hr⟩
      rcases hs with rfl | rfl | rfl
      · simp at e
        subst e
        have hc := isDigit_ne_sign (hd c (List.mem_cons_self _ _))
        rw [if_neg hc.1, if_neg hc.2, atoiCore_eq_some_iff]
        refine ⟨hne, hd, ?_, hr⟩
        rw [hn, digitsValue_eq_ofDigits]; simp
      · simp at e
        obtain ⟨rfl, rfl⟩ := e
        rw [if_neg (by decide), if_pos rfl, atoiCore_eq_some_iff]
        refine ⟨hne, hd, ?_, hr⟩
        rw [hn, digitsValue_eq_ofDigits]; simp
      · simp at e
        obtain ⟨rfl, rfl⟩ := e
        rw [if_pos rfl, atoiCore_eq_some_iff]
        refine ⟨hne, hd, ?_, hr⟩
        rw [hn, digitsValue_eq_ofDigits]; simp

theorem Peek_Next {r : Reader} {t : String} (h : Peek r = .ok t) :
    Next r = (.ok t, Advance r) := by
  simp [Next, h]

/-! ## Claims about the string scans and the atom reader -/

theorem properlyQuotedString_iff_literal (s : String) :
    properlyQuotedString s = true ↔ IsQuotedLiteral s.data := by
  unfold properlyQuotedString IsQuotedLiteral
  cases hs : s.data with
  | nil => simp [properlyQuotedLoop]
  | cons c rest =>
    by_cases hq : c = '"'
    · subst hq
      have hstep : properlyQuotedLoop false true false ('"' :: rest) =
          properlyQuotedLoop false false false rest := by
        simp [properlyQuotedLoop]
      rw [hstep, properlyQuotedLoop_body rest.length rest (le_refl _)]
      constructor
      · rintro ⟨items, hi, e⟩
        exact ⟨items, hi, by simp [e]⟩
      · rintro ⟨items, hi, e⟩
        exact ⟨items, hi, by simpa using e⟩
    · have hstep : properlyQuotedLoop false true false (c :: rest) = false := by
        simp [properlyQuotedLoop, hq]
      rw [hstep]
      constructor
      · intro h; simp at h
      · rintro ⟨items, hi, e⟩
        simp at e
        exact absurd e.1 hq


/-- C9: `properlyQuotedString` accepts exactly the string literals of the
specification: an opening quote, a sequence of escaped pairs and of plain
characters, and one closing quote with nothing after it.  It accepts
`"Testing"`, `"Testing\\""` and `"\\n"`, and rejects `Testing`, a lone
quote, `"Testing` and `"Testing"test`. -/
theorem properlyQuotedString_spec :
    (∀ s : String, properlyQuotedString s = true ↔ IsQuotedLiteral s.data) ∧
    properlyQuotedString "\"Testing\"" = true ∧
    properlyQuotedString "\"Testing\\\"\"" = true ∧
    properlyQuotedString "\"\\n\"" = true ∧
    properlyQuotedString "Testing" = false ∧
    properlyQuotedString "\"" = false ∧
    properlyQuotedString "\"Testing" = false ∧
    properlyQuotedString "\"Testing\"test" = false :=
  ⟨properlyQuotedString_iff_literal, by decide, by decide, by decide, by decide, by decide,
    by decide, by decide⟩

/-- C10: `balancedQuotes` does not count unescaped quotes.  On the three
characters backslash, `a`, quote the only quote is unescaped (it follows `a`),
so the count is odd, yet `balancedQuotes` answers true: the escape flag set by
the backslash is cleared only by a quote or a backslash, while
`properlyQuotedString` clears it on any character.  The six strings of the
test suite are answered as the test expects. -/
theorem balancedQuotes_stale_escape :
    balancedQuotes "\\a\"" = true ∧ unescapedQuotes "\\a\"".data = 1 ∧
    isEscaped "\\a\"".data 2 = false ∧
    properlyQuotedLoop false false false "\\a\"".data = true ∧
    balancedQuotes "awefawef" = true ∧ balancedQuotes "\"awefawef\"" = true ∧
    balancedQuotes "\"awefawef\" \"waef\"" = true ∧
    balancedQuotes "\"awefawef \\\"waef\"" = true ∧
    balancedQuotes "\"awefawef\" \\\"waef\"" = false ∧ balancedQuotes "\"" = false := by
  decide

/-- C8: the atom reader consumes the current token `t` and classifies it: a
signed decimal literal that fits 64 bits gives a Number; otherwise a token
that begins with a quote gives a String holding `t` unchanged when
`properlyQuotedString t` holds and the end-of-stream failure when it does not;
otherwise the result is the Symbol named `t`. -/
theorem readAtom_classifies (r : Reader) (t : String) (h : Peek r = .ok t) :
    (∀ n, IsDecimalInt t.data n → readAtom r = (.ok (.MalNumber n), Advance r)) ∧
    ((¬ ∃ n, IsDecimalInt t.data n) → t.data.head? = some '"' →
      readAtom r =
        (if properlyQuotedString t = true then .ok (.MalString t) else .eof, Advance r)) ∧
    ((¬ ∃ n, IsDecimalInt t.data n) → t.data.head? ≠ some '"' →
      readAtom r = (.ok (.MalSymbol t), Advance r)) := by
  have hnone : (¬ ∃ n, IsDecimalInt t.data n) → Atoi t.data = none := by
    intro hn
    cases ha : Atoi t.data with
    | none => rfl
    | some n => exact absurd ⟨n, (Atoi_eq_some_iff _ _).1 ha⟩ hn
  refine ⟨?_, ?_, ?_⟩
  · intro n hn
    have ha := (Atoi_eq_some_iff _ _).2 hn
    simp [readAtom, Peek_Next h, ha]
  · intro hn hq
    simp only [readAtom, Peek_Next h, hnone hn, hq]
    by_cases hp : properlyQuotedString t = true
    · simp [hp]
    · simp [hp]
  · intro hn hq
    simp [readAtom, Peek_Next h, hnone hn, hq]

theorem readAtom_classifies_witness :
    Peek (mkReader ["-12", "x"]) = .ok "-12" ∧
    (∀ n, IsDecimalInt "-12".data n →
      readAtom (mkReader ["-12", "x"]) = (.ok (.MalNumber n), Advance (mkReader ["-12", "x"]))) :=
  ⟨rfl, (readAtom_classifies (mkReader ["-12", "x"]) "-12" rfl).1⟩

/-! ## Cursor lemmas -/

@[simp] theorem Advance_Tokens (r : Reader) : (Advance r).Tokens = r.Tokens := rfl
@[simp] theorem Advance_EOF (r : Reader) : (Advance r).EOF = r.EOF := rfl
@[simp] theorem Advance_Position (r : Reader) : (Advance r).Position = r.Position + 1 := rfl

theorem Peek_ne_outOfFuel (r : Reader) : Peek r ≠ .outOfFuel := by
  unfold Peek
  split
  · split
    · split <;> simp
    · simp
  · simp

theorem Peek_ok_iff (r : Reader) (t : String) :
    Peek r = .ok t ↔
      0 ≤ r.Position ∧ r.Position < r.EOF ∧ r.Tokens[r.Position.toNat]? = some t := by
  unfold Peek
  by_cases h1 : r.Position < r.EOF
  · by_cases h2 : 0 ≤ r.Position
    · simp only [h1, h2, if_true, true_and]
      cases h : r.Tokens[r.Position.toNat]? with
      | none => simp
      | some t' => simp
    · simp [h1, h2]
  · simp [h1]

theorem Peek_eof_iff (r : Reader) : Peek r = .eof ↔ r.EOF ≤ r.Position := by
  unfold Peek
  by_cases h1 : r.Position < r.EOF
  · by_cases h2 : 0 ≤ r.Position
    · simp only [h1, h2, if_true]
      cases h : r.Tokens[r.Position.toNat]? with
      | none => simp; omega
      | some t' => simp; omega
    · simp [h1, h2]
  · simp [h1]; omega

/-! ## What a run does to the cursor -/

theorem Steady_fail {α : Type} (r : Reader) {o : Outcome α} (h : ∀ v, o ≠ .ok v) :
    Steady r (o, r) :=
  ⟨rfl, rfl, le_refl _, fun v hv => absurd hv (h v)⟩

theorem Steady_after {α β : Type} {r r1 : Reader} {o1 : Outcome β} {res : Outcome α × Reader}
    (h1 : Steady r (o1, r1)) (h2 : Steady r1 res) : Steady r res := by
  obtain ⟨a1, a2, a3, -⟩ := h1
  obtain ⟨b1, b2, b3, b4⟩ := h2
  simp only at a1 a2 a3
  refine ⟨by rw [b1, a1], by rw [b2, a2], by omega, ?_⟩
  intro v hv
  have := b4 v hv
  rw [a2] at this
  omega

theorem Steady_advance {α : Type} {r : Reader} {res : Outcome α × Reader}
    (h : Steady (Advance r) res) : Steady r res := by
  obtain ⟨b1, b2, b3, b4⟩ := h
  simp only [Advance_Tokens, Advance_EOF, Advance_Position] at b1 b2 b3 b4
  refine ⟨b1, b2, by omega, ?_⟩
  intro v hv
  have := b4 v hv
  omega

theorem Steady_weaken {α β : Type} {r r1 : Reader} {o : Outcome α} {o' : Outcome β}
    (h : Steady r (o, r1)) (h' : ∀ v, o' ≠ .ok v) : Steady r (o', r1) := by
  obtain ⟨b1, b2, b3, -⟩ := h
  exact ⟨b1, b2, b3, fun v hv => absurd hv (h' v)⟩

theorem Steady_ok_map {α β : Type} {r r1 : Reader} {a : α} (b : β)
    (h : Steady r (Outcome.ok a, r1)) : Steady r (Outcome.ok b, r1) := by
  obtain ⟨b1, b2, b3, b4⟩ := h
  exact ⟨b1, b2, b3, fun v _ => b4 a rfl⟩

theorem Steady_peek_advance {α : Type} {r : Reader} {t : String} (h : Peek r = .ok t)
    (o : Outcome α) : Steady r (o, Advance r) := by
  have := (Peek_ok_iff r t).1 h
  refine ⟨rfl, rfl, by simp, fun v _ => ?_⟩
  simp only [Advance_Position]
  omega

theorem readAtom_steady (r : Reader) : Steady r (readAtom r) := by
  unfold readAtom Next
  cases h : Peek r with
  | ok t =>
    simp only
    split
    · exact Steady_peek_advance h _
    · split
      · split
        · exact Steady_peek_advance h _
        · exact Steady_peek_advance h _
      · exact Steady_peek_advance h _
  | eof => exact Steady_fail r (by simp)
  | fault => exact Steady_fail r (by simp)
  | outOfFuel => exact Steady_fail r (by simp)

theorem readListLoop_steady {rf : Reader → Outcome MalType × Reader}
    (h : ∀ r, Steady r (rf r)) {closing : String} (hc : "" ≠ closing) :
    ∀ (fuel : Nat) (res : List MalType) (r : Reader),
      Steady r (readListLoop rf closing fuel res r) := by
  intro fuel
  induction fuel with
  | zero => intro res r; exact Steady_fail r (by simp)
  | succ fuel ih =>
    intro res r
    unfold readListLoop
    cases hp : Peek r with
    | ok t =>
      simp only
      split
      · exact Steady_peek_advance hp _
      · have hs := h r
        rcases hrf : rf r with ⟨o, r1⟩
        rw [hrf] at hs
        cases o with
        | ok tmp => exact Steady_after hs (ih _ r1)
        | eof => exact Steady_weaken hs (by simp)
        | fault => exact Steady_weaken hs (by simp)
        | outOfFuel => exact Steady_weaken hs (by simp)
    | eof => simp only [if_neg hc]; exact Steady_fail r (by simp)
    | fault => exact Steady_fail r (by simp)
    | outOfFuel => exact Steady_fail r (by simp)

theorem readHashBody_steady {rf : Reader → Outcome MalType × Reader}
    (h : ∀ r, Steady r (rf r))
    {next : List (MalType × MalType) → Reader → Outcome (List (MalType × MalType)) × Reader}
    (hn : ∀ res r, Steady r (next res r)) (res : List (MalType × MalType)) (r : Reader) :
    Steady r (readHashBody rf next res r) := by
  unfold readHashBody
  have hs := h r
  rcases hrf : rf r with ⟨o, r1⟩
  rw [hrf] at hs
  cases o with
  | eof => exact Steady_weaken hs (by simp)
  | fault => exact Steady_weaken hs (by simp)
  | outOfFuel => exact Steady_weaken hs (by simp)
  | ok tmp1 =>
    simp only
    cases hp : Peek r1 with
    | eof => exact Steady_weaken hs (by simp)
    | fault => exact Steady_weaken hs (by simp)
    | outOfFuel => exact Steady_weaken hs (by simp)
    | ok str =>
      simp only
      split
      · exact Steady_weaken hs (by simp)
      · have hs2 := h r1
        rcases hrf2 : rf r1 with ⟨o2, r2⟩
        rw [hrf2] at hs2
        have hs3 := Steady_after hs hs2
        cases o2 with
        | eof => exact Steady_weaken hs3 (by simp)
        | fault => exact Steady_weaken hs3 (by simp)
        | outOfFuel => exact Steady_weaken hs3 (by simp)
        | ok tmp2 =>
          simp only
          cases hashInsert res tmp1 tmp2 with
          | none => exact Steady_weaken hs3 (by simp)
          | some res' =>
            simp only
            cases hp2 : Peek r2 with
            | eof => exact Steady_weaken hs3 (by simp)
            | fault => exact Steady_weaken hs3 (by simp)
            | outOfFuel => exact Steady_weaken hs3 (by simp)
            | ok str2 => exact Steady_after hs3 (hn res' r2)

theorem readHashLoop_steady {rf : Reader → Outcome MalType × Reader}
    (h : ∀ r, Steady r (rf r)) :
    ∀ (fuel : Nat) (res : List (MalType × MalType)) (r : Reader),
      Steady r (readHashLoop rf fuel res r) := by
  intro fuel
  induction fuel with
  | zero => intro res r; exact Steady_fail r (by simp)
  | succ fuel ih =>
    intro res r
    unfold readHashLoop
    cases hp : Peek r with
    | ok t =>
      simp only
      split
      · exact Steady_peek_advance hp _
      · exact readHashBody_steady h ih res r
    | eof => exact readHashBody_steady h ih res r
    | fault => exact Steady_fail r (by simp)
    | outOfFuel => exact Steady_fail r (by simp)

theorem asValue_steady {α : Type} (f : α → MalType) {r : Reader}
    {res : Outcome α × Reader} (h : Steady r res) : Steady r (asValue f res) := by
  rcases res with ⟨o, r1⟩
  cases o with
  | ok a => exact Steady_ok_map _ h
  | eof => exact Steady_weaken h (by simp)
  | fault => exact Steady_weaken h (by simp)
  | outOfFuel => exact Steady_weaken h (by simp)

theorem readQuote_steady {rf : Reader → Outcome MalType × Reader}
    (h : ∀ r, Steady r (rf r)) (r : Reader) (quote : String) :
    Steady r (readQuote rf r quote) := by
  unfold readQuote
  have hs := h (Advance r)
  rcases hrf : rf (Advance r) with ⟨o, r1⟩
  rw [hrf] at hs
  cases o with
  | ok a => exact Steady_advance (Steady_ok_map _ hs)
  | eof => exact Steady_advance (Steady_weaken hs (by simp))
  | fault => exact Steady_advance (Steady_weaken hs (by simp))
  | outOfFuel => exact Steady_advance (Steady_weaken hs (by simp))

theorem readList_steady {rf : Reader → Outcome MalType × Reader}
    (h : ∀ r, Steady r (rf r)) {closing : String} (hc : "" ≠ closing)
    (fuel : Nat) (r : Reader) : Steady r (readList rf fuel r closing) :=
  Steady_advance (readListLoop_steady h hc fuel [] (Advance r))

theorem readHash_steady {rf : Reader → Outcome MalType × Reader}
    (h : ∀ r, Steady r (rf r)) (fuel : Nat) (r : Reader) :
    Steady r (readHash rf fuel r) :=
  Steady_advance (readHashLoop_steady h fuel [] (Advance r))

theorem readMetaData_steady {rf : Reader → Outcome MalType × Reader}
    (h : ∀ r, Steady r (rf r)) (fuel : Nat) (r : Reader) :
    Steady r (readMetaData rf fuel r) := by
  unfold readMetaData
  have hs := Steady_advance (readHash_steady h fuel (Advance r))
  rcases hrh : readHash rf fuel (Advance r) with ⟨o, r1⟩
  rw [hrh] at hs
  cases o with
  | eof => exact Steady_weaken hs (by simp)
  | fault => exact Steady_weaken hs (by simp)
  | outOfFuel => exact Steady_weaken hs (by simp)
  | ok mm =>
    simp only
    have hs2 := Steady_after hs (h r1)
    rcases hrf : rf r1 with ⟨o2, r2⟩
    rw [hrf] at hs2
    cases o2 with
    | ok a => exact Steady_ok_map _ hs2
    | eof => exact Steady_weaken hs2 (by simp)
    | fault => exact Steady_weaken hs2 (by simp)
    | outOfFuel => exact Steady_weaken hs2 (by simp)

theorem readFormSwitch_eq (rf : Reader → Outcome MalType × Reader) (fuel : Nat)
    (r : Reader) (t : String) :
    readFormSwitch rf fuel r t = runBranch rf fuel r (branchOf t) := by
  unfold readFormSwitch branchOf
  by_cases h1 : t = "("
  · rw [if_pos h1, if_pos h1]; rfl
  rw [if_neg h1, if_neg h1]
  by_cases h2 : t = "["
  · rw [if_pos h2, if_pos h2]; rfl
  rw [if_neg h2, if_neg h2]
  by_cases h3 : t = "\x7b"
  · rw [if_pos h3, if_pos h3]; rfl
  rw [if_neg h3, if_neg h3]
  by_cases h4 : t = "'"
  · rw [if_pos h4, if_pos h4]; rfl
  rw [if_neg h4, if_neg h4]
  by_cases h5 : t = "`"
  · rw [if_pos h5, if_pos h5]; rfl
  rw [if_neg h5, if_neg h5]
  by_cases h6 : t = "~"
  · rw [if_pos h6, if_pos h6]; rfl
  rw [if_neg h6, if_neg h6]
  by_cases h7 : t = "~@"
  · rw [if_pos h7, if_pos h7]; rfl
  rw [if_neg h7, if_neg h7]
  by_cases h8 : t = "@"
  · rw [if_pos h8, if_pos h8]; rfl
  rw [if_neg h8, if_neg h8]
  by_cases h9 : t = "^"
  · rw [if_pos h9, if_pos h9]; rfl
  rw [if_neg h9, if_neg h9]
  rfl


theorem readFormSwitch_steady {rf : Reader → Outcome MalType × Reader}
    (h : ∀ r, Steady r (rf r)) (fuel : Nat) (r : Reader) (t : String) :
    Steady r (readFormSwitch rf fuel r t) := by
  rw [readFormSwitch_eq]
  cases branchOf t with
  | list => exact asValue_steady _ (readList_steady h (by decide) fuel r)
  | vec => exact asValue_steady _ (readList_steady h (by decide) fuel r)
  | hash => exact asValue_steady _ (readHash_steady h fuel r)
  | quote name => exact asValue_steady _ (readQuote_steady h r _)
  | metadata => exact asValue_steady _ (readMetaData_steady h fuel r)
  | atom => exact readAtom_steady r

theorem readForm_succ (n : Nat) (r : Reader) :
    readForm (n + 1) r =
      match Peek r with
      | .eof => (.eof, r)
      | .fault => (.fault, r)
      | .outOfFuel => (.outOfFuel, r)
      | .ok res => readFormSwitch (readForm n) n r res := rfl

theorem readForm_of_peek {n : Nat} {r : Reader} {t : String} (hp : Peek r = .ok t) :
    readForm (n + 1) r = readFormSwitch (readForm n) n r t := by
  rw [readForm_succ, hp]

theorem readForm_steady : ∀ (n : Nat) (r : Reader), Steady r (readForm n r) := by
  intro n
  induction n with
  | zero => intro r; exact Steady_fail r (by simp)
  | succ n ih =>
    intro r
    rw [readForm_succ]
    cases hp : Peek r with
    | eof => exact Steady_fail r (by simp)
    | fault => exact Steady_fail r (by simp)
    | outOfFuel => exact Steady_fail r (by simp)
    | ok t => exact readFormSwitch_steady ih n r t

/-! ## More fuel does not change a finished run -/

theorem readAtom_ne_outOfFuel (r : Reader) : (readAtom r).1 ≠ .outOfFuel := by
  unfold readAtom Next
  cases h : Peek r with
  | ok t =>
    simp only
    split
    · simp
    · split
      · split <;> simp
      · simp
  | eof => simp
  | fault => simp
  | outOfFuel => simp

theorem readListLoop_mono {rf rf' : Reader → Outcome MalType × Reader}
    (h : Extends rf rf') (closing : String) :
    ∀ (fuel fuel' : Nat) (res : List MalType) (r : Reader), fuel ≤ fuel' →
      (readListLoop rf closing fuel res r).1 ≠ .outOfFuel →
      readListLoop rf' closing fuel' res r = readListLoop rf closing fuel res r := by
  intro fuel
  induction fuel with
  | zero => intro fuel' res r _ hne; exact absurd rfl hne
  | succ fuel ih =>
    intro fuel' res r hle hne
    obtain ⟨k, rfl⟩ : ∃ k, fuel' = k + 1 := ⟨fuel' - 1, by omega⟩
    unfold readListLoop at hne ⊢
    cases hp : Peek r with
    | ok t =>
      simp only [hp] at hne ⊢
      by_cases hc : t = closing
      · simp only [hc, if_true]
      · simp only [hc, if_false] at hne ⊢
        have he := h r
        rcases hrf : rf r with ⟨o, r1⟩
        rw [hrf] at he hne
        cases o with
        | ok tmp =>
          rw [he (by simp)]
          simp only at hne ⊢
          exact ih k _ r1 (by omega) hne
        | eof => rw [he (by simp)]
        | fault => rw [he (by simp)]
        | outOfFuel => exact absurd rfl hne
    | eof => rfl
    | fault => rfl
    | outOfFuel => rfl

theorem readHashBody_mono {rf rf' : Reader → Outcome MalType × Reader}
    (h : Extends rf rf')
    {next next' : List (MalType × MalType) → Reader →
      Outcome (List (MalType × MalType)) × Reader}
    (hn : ∀ res r, (next res r).1 ≠ .outOfFuel → next' res r = next res r)
    (res : List (MalType × MalType)) (r : Reader)
    (hne : (readHashBody rf next res r).1 ≠ .outOfFuel) :
    readHashBody rf' next' res r = readHashBody rf next res r := by
  unfold readHashBody at hne ⊢
  have he := h r
  rcases hrf : rf r with ⟨o, r1⟩
  rw [hrf] at he hne
  cases o with
  | eof => rw [he (by simp)]
  | fault => rw [he (by simp)]
  | outOfFuel => exact absurd rfl hne
  | ok tmp1 =>
    rw [he (by simp)]
    simp only at hne ⊢
    cases hp : Peek r1 with
    | eof => rfl
    | fault => rfl
    | outOfFuel => rfl
    | ok str =>
      simp only [hp] at hne ⊢
      by_cases hc : str = "\x7d"
      · simp only [hc, if_true]
      · simp only [hc, if_false] at hne ⊢
        have he2 := h r1
        rcases hrf2 : rf r1 with ⟨o2, r2⟩
        rw [hrf2] at he2 hne
        cases o2 with
        | eof => rw [he2 (by simp)]
        | fault => rw [he2 (by simp)]
        | outOfFuel => exact absurd rfl hne
        | ok tmp2 =>
          rw [he2 (by simp)]
          simp only at hne ⊢
          cases hi : hashInsert res tmp1 tmp2 with
          | none => rfl
          | some res' =>
            simp only [hi] at hne ⊢
            cases hp2 : Peek r2 with
            | eof => rfl
            | fault => rfl
            | outOfFuel => rfl
            | ok str2 =>
              simp only [hp2] at hne ⊢
              exact hn res' r2 hne

theorem readHashLoop_mono {rf rf' : Reader → Outcome MalType × Reader}
    (h : Extends rf rf') :
    ∀ (fuel fuel' : Nat) (res : List (MalType × MalType)) (r : Reader), fuel ≤ fuel' →
      (readHashLoop rf fuel res r).1 ≠ .outOfFuel →
      readHashLoop rf' fuel' res r = readHashLoop rf fuel res r := by
  intro fuel
  induction fuel with
  | zero => intro fuel' res r _ hne; exact absurd rfl hne
  | succ fuel ih =>
    intro fuel' res r hle hne
    obtain ⟨k, rfl⟩ : ∃ k, fuel' = k + 1 := ⟨fuel' - 1, by omega⟩
    unfold readHashLoop at hne ⊢
    have hb : ∀ res r, (readHashLoop rf fuel res r).1 ≠ .outOfFuel →
        readHashLoop rf' k res r = readHashLoop rf fuel res r :=
      fun res r hne => ih k res r (by omega) hne
    cases hp : Peek r with
    | ok t =>
      simp only [hp] at hne ⊢
      by_cases hc : t = "\x7d"
      · simp only [hc, if_true]
      · simp only [hc, if_false] at hne ⊢
        exact readHashBody_mono h hb res r hne
    | eof =>
      simp only [hp] at hne ⊢
      exact readHashBody_mono h hb res r hne
    | fault => rfl
    | outOfFuel => rfl

theorem readList_mono {rf rf' : Reader → Outcome MalType × Reader}
    (h : Extends rf rf') (fuel fuel' : Nat) (hle : fuel ≤ fuel') (r : Reader)
    (closing : String) (hne : (readList rf fuel r closing).1 ≠ .outOfFuel) :
    readList rf' fuel' r closing = readList rf fuel r closing :=
  readListLoop_mono h closing fuel fuel' [] (Advance r) hle hne

theorem readHash_mono {rf rf' : Reader → Outcome MalType × Reader}
    (h : Extends rf rf') (fuel fuel' : Nat) (hle : fuel ≤ fuel') (r : Reader)
    (hne : (readHash rf fuel r).1 ≠ .outOfFuel) :
    readHash rf' fuel' r = readHash rf fuel r :=
  readHashLoop_mono h fuel fuel' [] (Advance r) hle hne

theorem asValue_ne_outOfFuel {α : Type} (f : α → MalType) (res : Outcome α × Reader) :
    (asValue f res).1 ≠ .outOfFuel ↔ res.1 ≠ .outOfFuel := by
  rcases res with ⟨o, r⟩
  cases o <;> simp [asValue]

theorem readQuote_mono {rf rf' : Reader → Outcome MalType × Reader}
    (h : Extends rf rf') (r : Reader) (quote : String)
    (hne : (readQuote rf r quote).1 ≠ .outOfFuel) :
    readQuote rf' r quote = readQuote rf r quote := by
  unfold readQuote at hne ⊢
  have he := h (Advance r)
  rcases hrf : rf (Advance r) with ⟨o, r1⟩
  rw [hrf] at he hne
  cases o with
  | ok tmp => rw [he (by simp)]
  | eof => rw [he (by simp)]
  | fault => rw [he (by simp)]
  | outOfFuel => exact absurd rfl hne

theorem readMetaData_mono {rf rf' : Reader → Outcome MalType × Reader}
    (h : Extends rf rf') (fuel fuel' : Nat) (hle : fuel ≤ fuel') (r : Reader)
    (hne : (readMetaData rf fuel r).1 ≠ .outOfFuel) :
    readMetaData rf' fuel' r = readMetaData rf fuel r := by
  unfold readMetaData at hne ⊢
  have he := readHash_mono h fuel fuel' hle (Advance r)
  rcases hrh : readHash rf fuel (Advance r) with ⟨o, r1⟩
  rw [hrh] at he hne
  cases o with
  | eof => rw [he (by simp)]
  | fault => rw [he (by simp)]
  | outOfFuel => exact absurd rfl hne
  | ok mm =>
    rw [he (by simp)]
    simp only at hne ⊢
    have he2 := h r1
    rcases hrf : rf r1 with ⟨o2, r2⟩
    rw [hrf] at he2 hne
    cases o2 with
    | ok tmp => rw [he2 (by simp)]
    | eof => rw [he2 (by simp)]
    | fault => rw [he2 (by simp)]
    | outOfFuel => exact absurd rfl hne

theorem readFormSwitch_mono {rf rf' : Reader → Outcome MalType × Reader}
    (h : Extends rf rf') (fuel fuel' : Nat) (hle : fuel ≤ fuel') (r : Reader) (t : String)
    (hne : (readFormSwitch rf fuel r t).1 ≠ .outOfFuel) :
    readFormSwitch rf' fuel' r t = readFormSwitch rf fuel r t := by
  rw [readFormSwitch_eq] at hne ⊢
  rw [readFormSwitch_eq]
  cases hb : branchOf t with
  | list =>
    rw [hb] at hne
    simp only [runBranch] at hne ⊢
    rw [asValue_ne_outOfFuel] at hne
    rw [readList_mono h fuel fuel' hle r ")" hne]
  | vec =>
    rw [hb] at hne
    simp only [runBranch] at hne ⊢
    rw [asValue_ne_outOfFuel] at hne
    rw [readList_mono h fuel fuel' hle r "]" hne]
  | hash =>
    rw [hb] at hne
    simp only [runBranch] at hne ⊢
    rw [asValue_ne_outOfFuel] at hne
    rw [readHash_mono h fuel fuel' hle r hne]
  | quote name =>
    rw [hb] at hne
    simp only [runBranch] at hne ⊢
    rw [asValue_ne_outOfFuel] at hne
    rw [readQuote_mono h _ _ hne]
  | metadata =>
    rw [hb] at hne
    simp only [runBranch] at hne ⊢
    rw [asValue_ne_outOfFuel] at hne
    rw [readMetaData_mono h fuel fuel' hle _ hne]
  | atom => rfl

theorem readForm_succ_mono : ∀ (n : Nat), Extends (readForm n) (readForm (n + 1)) := by
  intro n
  induction n with
  | zero => intro r hne; exact absurd rfl hne
  | succ n ih =>
    intro r hne
    rw [readForm_succ] at hne
    rw [readForm_succ (n + 1), readForm_succ n]
    cases hp : Peek r with
    | eof => rfl
    | fault => rfl
    | outOfFuel => rfl
    | ok t =>
      simp only [hp] at hne ⊢
      exact readFormSwitch_mono ih n (n + 1) (by omega) r t hne

theorem readForm_mono {n m : Nat} (hle : n ≤ m) : Extends (readForm n) (readForm m) := by
  induction m with
  | zero =>
    have : n = 0 := by omega
    subst this
    intro r _; rfl
  | succ m ih =>
    by_cases h : n = m + 1
    · subst h; intro r _; rfl
    · intro r hne
      have h1 := ih (by omega) r hne
      rw [← h1] at hne
      rw [readForm_succ_mono m r hne, h1]

/-! ## A successful run does not depend on the surrounding tokens -/

theorem Advance_embed (pre post : List String) (r : Reader) :
    Advance (embed pre post r) = embed pre post (Advance r) := by
  simp only [Advance, embed, Reader.mk.injEq, true_and, and_true]
  omega

theorem Peek_embed (pre post : List String) {r : Reader} {t : String}
    (h : Peek r = .ok t) : Peek (embed pre post r) = .ok t := by
  obtain ⟨h0, h1, h2⟩ := (Peek_ok_iff r t).1 h
  rw [Peek_ok_iff]
  have hlt : r.Position.toNat < r.Tokens.length := by
    by_contra hge
    rw [List.getElem?_eq_none (by omega)] at h2
    exact absurd h2 (by simp)
  refine ⟨?_, ?_, ?_⟩
  · simp only [embed]; omega
  · simp only [embed]; omega
  · simp only [embed]
    have e : (r.Position + (pre.length : Int)).toNat = pre.length + r.Position.toNat := by
      omega
    rw [e, List.append_assoc, List.getElem?_append_right (by omega),
      List.getElem?_append_left (by omega)]
    simpa using h2

theorem readAtom_frame (pre post : List String) : Framed pre post readAtom := by
  intro r v r' h
  unfold readAtom Next at h ⊢
  cases hp : Peek r with
  | ok t =>
    rw [Peek_embed pre post hp]
    rw [hp] at h
    simp only at h ⊢
    rw [Advance_embed]
    cases ha : Atoi t.data with
    | some n =>
      rw [ha] at h
      cases h
      rfl
    | none =>
      rw [ha] at h
      simp only at h ⊢
      by_cases hq : t.data.head? = some '"'
      · simp only [hq, if_true] at h ⊢
        by_cases hpq : properlyQuotedString t = true
        · simp only [hpq, Bool.not_true, Bool.false_eq_true, if_false] at h ⊢
          cases h
          rfl
        · simp only [hpq, Bool.not_false, if_true] at h
          exact absurd (congrArg Prod.fst h) (by simp)
      · simp only [hq, if_false] at h ⊢
        cases h
        rfl
  | eof => rw [hp] at h; exact absurd (congrArg Prod.fst h) (by simp)
  | fault => rw [hp] at h; exact absurd (congrArg Prod.fst h) (by simp)
  | outOfFuel => rw [hp] at h; exact absurd (congrArg Prod.fst h) (by simp)

theorem readListLoop_frame {pre post : List String}
    {rf : Reader → Outcome MalType × Reader} (h : Framed pre post rf)
    {closing : String} (hc : "" ≠ closing) :
    ∀ (fuel : Nat) (res : List MalType) (r : Reader) (v : List MalType) (r' : Reader),
      readListLoop rf closing fuel res r = (.ok v, r') →
      readListLoop rf closing fuel res (embed pre post r) = (.ok v, embed pre post r') := by
  intro fuel
  induction fuel with
  | zero => intro res r v r' hr; exact absurd (congrArg Prod.fst hr) (by simp [readListLoop])
  | succ fuel ih =>
    intro res r v r' hr
    unfold readListLoop at hr ⊢
    cases hp : Peek r with
    | ok t =>
      rw [Peek_embed pre post hp]
      rw [hp] at hr
      simp only at hr ⊢
      by_cases hcl : t = closing
      · simp only [hcl, if_true, Prod.mk.injEq, Outcome.ok.injEq] at hr ⊢
        exact ⟨hr.1, by rw [Advance_embed, hr.2]⟩
      · simp only [hcl, if_false] at hr ⊢
        rcases hrf : rf r with ⟨o, r1⟩
        rw [hrf] at hr
        cases o with
        | ok tmp =>
          rw [h r tmp r1 hrf]
          exact ih _ r1 v r' hr
        | eof => exact absurd (congrArg Prod.fst hr) (by simp)
        | fault => exact absurd (congrArg Prod.fst hr) (by simp)
        | outOfFuel => exact absurd (congrArg Prod.fst hr) (by simp)
    | eof =>
      rw [hp] at hr
      simp only [if_neg hc] at hr
      exact absurd (congrArg Prod.fst hr) (by simp)
    | fault => rw [hp] at hr; exact absurd (congrArg Prod.fst hr) (by simp)
    | outOfFuel => rw [hp] at hr; exact absurd (congrArg Prod.fst hr) (by simp)

theorem readHashBody_frame {pre post : List String}
    {rf : Reader → Outcome MalType × Reader} (h : Framed pre post rf)
    {next : List (MalType × MalType) → Reader → Outcome (List (MalType × MalType)) × Reader}
    (hn : ∀ res r v r', next res r = (.ok v, r') →
      next res (embed pre post r) = (.ok v, embed pre post r'))
    (res : List (MalType × MalType)) (r : Reader) (v : List (MalType × MalType))
    (r' : Reader) (hr : readHashBody rf next res r = (.ok v, r')) :
    readHashBody rf next res (embed pre post r) = (.ok v, embed pre post r') := by
  unfold readHashBody at hr ⊢
  rcases hrf : rf r with ⟨o, r1⟩
  rw [hrf] at hr
  cases o with
  | eof => exact absurd (congrArg Prod.fst hr) (by simp)
  | fault => exact absurd (congrArg Prod.fst hr) (by simp)
  | outOfFuel => exact absurd (congrArg Prod.fst hr) (by simp)
  | ok tmp1 =>
    rw [h r tmp1 r1 hrf]
    simp only at hr ⊢
    cases hp : Peek r1 with
    | eof => rw [hp] at hr; exact absurd (congrArg Prod.fst hr) (by simp)
    | fault => rw [hp] at hr; exact absurd (congrArg Prod.fst hr) (by simp)
    | outOfFuel => rw [hp] at hr; exact absurd (congrArg Prod.fst hr) (by simp)
    | ok str =>
      rw [Peek_embed pre post hp]
      rw [hp] at hr
      simp only at hr ⊢
      by_cases hcl : str = "\x7d"
      · simp only [hcl, if_true] at hr
        exact absurd (congrArg Prod.fst hr) (by simp)
      · simp only [hcl, if_false] at hr ⊢
        rcases hrf2 : rf r1 with ⟨o2, r2⟩
        rw [hrf2] at hr
        cases o2 with
        | eof => exact absurd (congrArg Prod.fst hr) (by simp)
        | fault => exact absurd (congrArg Prod.fst hr) (by simp)
        | outOfFuel => exact absurd (congrArg Prod.fst hr) (by simp)
        | ok tmp2 =>
          rw [h r1 tmp2 r2 hrf2]
          simp only at hr ⊢
          cases hi : hashInsert res tmp1 tmp2 with
          | none => rw [hi] at hr; exact absurd (congrArg Prod.fst hr) (by simp)
          | some res' =>
            rw [hi] at hr
            simp only at hr ⊢
            cases hp2 : Peek r2 with
            | eof => rw [hp2] at hr; exact absurd (congrArg Prod.fst hr) (by simp)
            | fault => rw [hp2] at hr; exact absurd (congrArg Prod.fst hr) (by simp)
            | outOfFuel => rw [hp2] at hr; exact absurd (congrArg Prod.fst hr) (by simp)
            | ok str2 =>
              rw [Peek_embed pre post hp2]
              rw [hp2] at hr
              exact hn res' r2 v r' hr

theorem readHashBody_at_end {rf : Reader → Outcome MalType × Reader}
    (hs : ∀ r, Steady r (rf r))
    {next : List (MalType × MalType) → Reader → Outcome (List (MalType × MalType)) × Reader}
    {res : List (MalType × MalType)} {r : Reader} (hp : Peek r = .eof) :
    ∀ v r', readHashBody rf next res r ≠ (.ok v, r') := by
  intro v r' hr
  unfold readHashBody at hr
  have hst := hs r
  rcases hrf : rf r with ⟨o, r1⟩
  rw [hrf] at hr hst
  cases o with
  | eof => exact absurd (congrArg Prod.fst hr) (by simp)
  | fault => exact absurd (congrArg Prod.fst hr) (by simp)
  | outOfFuel => exact absurd (congrArg Prod.fst hr) (by simp)
  | ok tmp1 =>
    have h1 := hst.2.2.2 tmp1 rfl
    have h2 := (Peek_eof_iff r).1 hp
    simp only at h1
    omega

theorem readHashLoop_frame {pre post : List String}
    {rf : Reader → Outcome MalType × Reader} (h : Framed pre post rf)
    (hs : ∀ r, Steady r (rf r)) :
    ∀ (fuel : Nat) (res : List (MalType × MalType)) (r : Reader)
      (v : List (MalType × MalType)) (r' : Reader),
      readHashLoop rf fuel res r = (.ok v, r') →
      readHashLoop rf fuel res (embed pre post r) = (.ok v, embed pre post r') := by
  intro fuel
  induction fuel with
  | zero => intro res r v r' hr; exact absurd (congrArg Prod.fst hr) (by simp [readHashLoop])
  | succ fuel ih =>
    intro res r v r' hr
    unfold readHashLoop at hr ⊢
    cases hp : Peek r with
    | ok t =>
      rw [Peek_embed pre post hp]
      rw [hp] at hr
      simp only at hr ⊢
      by_cases hcl : t = "\x7d"
      · simp only [hcl, if_true, Prod.mk.injEq, Outcome.ok.injEq] at hr ⊢
        exact ⟨hr.1, by rw [Advance_embed, hr.2]⟩
      · simp only [hcl, if_false] at hr ⊢
        exact readHashBody_frame h ih res r v r' hr
    | eof =>
      rw [hp] at hr
      exact absurd hr (readHashBody_at_end hs hp v r')
    | fault => rw [hp] at hr; exact absurd (congrArg Prod.fst hr) (by simp)
    | outOfFuel => rw [hp] at hr; exact absurd (congrArg Prod.fst hr) (by simp)

theorem asValue_ok {α : Type} {f : α → MalType} {res : Outcome α × Reader} {v : MalType}
    {r' : Reader} (h : asValue f res = (.ok v, r')) : ∃ a, res = (.ok a, r') ∧ v = f a := by
  rcases res with ⟨o, r1⟩
  cases o with
  | ok a =>
    simp only [asValue, Prod.mk.injEq, Outcome.ok.injEq] at h
    exact ⟨a, by rw [h.2], h.1.symm⟩
  | eof => exact absurd (congrArg Prod.fst h) (by simp [asValue])
  | fault => exact absurd (congrArg Prod.fst h) (by simp [asValue])
  | outOfFuel => exact absurd (congrArg Prod.fst h) (by simp [asValue])

theorem readList_frame {pre post : List String}
    {rf : Reader → Outcome MalType × Reader} (h : Framed pre post rf)
    {closing : String} (hc : "" ≠ closing) (fuel : Nat) (r : Reader) (v : List MalType)
    (r' : Reader) (hr : readList rf fuel r closing = (.ok v, r')) :
    readList rf fuel (embed pre post r) closing = (.ok v, embed pre post r') := by
  unfold readList at hr ⊢
  rw [Advance_embed]
  exact readListLoop_frame h hc fuel [] _ v r' hr

theorem readHash_frame {pre post : List String}
    {rf : Reader → Outcome MalType × Reader} (h : Framed pre post rf)
    (hs : ∀ r, Steady r (rf r)) (fuel : Nat) (r : Reader) (v : List (MalType × MalType))
    (r' : Reader) (hr : readHash rf fuel r = (.ok v, r')) :
    readHash rf fuel (embed pre post r) = (.ok v, embed pre post r') := by
  unfold readHash at hr ⊢
  rw [Advance_embed]
  exact readHashLoop_frame h hs fuel [] _ v r' hr

theorem readQuote_frame {pre post : List String}
    {rf : Reader → Outcome MalType × Reader} (h : Framed pre post rf)
    (r : Reader) (quote : String) (v : List MalType) (r' : Reader)
    (hr : readQuote rf r quote = (.ok v, r')) :
    readQuote rf (embed pre post r) quote = (.ok v, embed pre post r') := by
  unfold readQuote at hr ⊢
  rw [Advance_embed]
  rcases hrf : rf (Advance r) with ⟨o, r1⟩
  rw [hrf] at hr
  cases o with
  | ok tmp =>
    rw [h _ tmp r1 hrf]
    simp only [Prod.mk.injEq, Outcome.ok.injEq] at hr ⊢
    exact ⟨hr.1, by rw [hr.2]⟩
  | eof => exact absurd (congrArg Prod.fst hr) (by simp)
  | fault => exact absurd (congrArg Prod.fst hr) (by simp)
  | outOfFuel => exact absurd (congrArg Prod.fst hr) (by simp)

theorem readMetaData_frame {pre post : List String}
    {rf : Reader → Outcome MalType × Reader} (h : Framed pre post rf)
    (hs : ∀ r, Steady r (rf r)) (fuel : Nat) (r : Reader) (v : List MalType) (r' : Reader)
    (hr : readMetaData rf fuel r = (.ok v, r')) :
    readMetaData rf fuel (embed pre post r) = (.ok v, embed pre post r') := by
  unfold readMetaData at hr ⊢
  rw [Advance_embed]
  rcases hrh : readHash rf fuel (Advance r) with ⟨o, r1⟩
  rw [hrh] at hr
  cases o with
  | eof => exact absurd (congrArg Prod.fst hr) (by simp)
  | fault => exact absurd (congrArg Prod.fst hr) (by simp)
  | outOfFuel => exact absurd (congrArg Prod.fst hr) (by simp)
  | ok mm =>
    rw [readHash_frame h hs fuel _ mm r1 hrh]
    simp only at hr ⊢
    rcases hrf : rf r1 with ⟨o2, r2⟩
    rw [hrf] at hr
    cases o2 with
    | ok tmp =>
      rw [h _ tmp r2 hrf]
      simp only [Prod.mk.injEq, Outcome.ok.injEq] at hr ⊢
      exact ⟨hr.1, by rw [hr.2]⟩
    | eof => exact absurd (congrArg Prod.fst hr) (by simp)
    | fault => exact absurd (congrArg Prod.fst hr) (by simp)
    | outOfFuel => exact absurd (congrArg Prod.fst hr) (by simp)

theorem asValue_frame {α : Type} {pre post : List String} (f : α → MalType)
    (run : Reader → Outcome α × Reader) {r : Reader}
    (h : ∀ a r', run r = (.ok a, r') → run (embed pre post r) = (.ok a, embed pre post r'))
    {v : MalType} {r' : Reader} (hr : asValue f (run r) = (.ok v, r')) :
    asValue f (run (embed pre post r)) = (.ok v, embed pre post r') := by
  obtain ⟨a, ha, rfl⟩ := asValue_ok hr
  rw [h a r' ha]
  rfl

theorem readFormSwitch_frame {pre post : List String}
    {rf : Reader → Outcome MalType × Reader} (h : Framed pre post rf)
    (hs : ∀ r, Steady r (rf r)) (fuel : Nat) (r : Reader) (t : String) (v : MalType)
    (r' : Reader) (hr : readFormSwitch rf fuel r t = (.ok v, r')) :
    readFormSwitch rf fuel (embed pre post r) t = (.ok v, embed pre post r') := by
  rw [readFormSwitch_eq] at hr ⊢
  cases hb : branchOf t with
  | list =>
    rw [hb] at hr
    exact asValue_frame _ (fun r => readList rf fuel r ")")
      (fun a r' => readList_frame h (by decide) fuel r a r') hr
  | vec =>
    rw [hb] at hr
    exact asValue_frame _ (fun r => readList rf fuel r "]")
      (fun a r' => readList_frame h (by decide) fuel r a r') hr
  | hash =>
    rw [hb] at hr
    exact asValue_frame _ (fun r => readHash rf fuel r)
      (fun a r' => readHash_frame h hs fuel r a r') hr
  | quote name =>
    rw [hb] at hr
    exact asValue_frame _ (fun r => readQuote rf r name)
      (fun a r' => readQuote_frame h r name a r') hr
  | metadata =>
    rw [hb] at hr
    exact asValue_frame _ (fun r => readMetaData rf fuel r)
      (fun a r' => readMetaData_frame h hs fuel r a r') hr
  | atom =>
    rw [hb] at hr
    exact readAtom_frame pre post r v r' hr

theorem readForm_frame (pre post : List String) :
    ∀ n : Nat, Framed pre post (readForm n) := by
  intro n
  induction n with
  | zero => intro r v r' hr; exact absurd (congrArg Prod.fst hr) (by simp [readForm])
  | succ n ih =>
    intro r v r' hr
    rw [readForm_succ] at hr ⊢
    cases hp : Peek r with
    | ok t =>
      rw [Peek_embed pre post hp]
      rw [hp] at hr
      exact readFormSwitch_frame ih (readForm_steady n) n r t v r' hr
    | eof => rw [hp] at hr; exact absurd (congrArg Prod.fst hr) (by simp)
    | fault => rw [hp] at hr; exact absurd (congrArg Prod.fst hr) (by simp)
    | outOfFuel => rw [hp] at hr; exact absurd (congrArg Prod.fst hr) (by simp)

/-! ## Fuel that no run uses up -/

theorem remaining_advance (r : Reader) : remaining (Advance r) ≤ remaining r := by
  simp only [remaining, Advance_EOF, Advance_Position]
  omega

theorem remaining_advance_of_peek {r : Reader} {t : String} (h : Peek r = .ok t) :
    remaining (Advance r) + 1 = remaining r := by
  obtain ⟨h0, h1, -⟩ := (Peek_ok_iff r t).1 h
  simp only [remaining, Advance_EOF, Advance_Position]
  omega

theorem remaining_of_ok {α : Type} {r r1 : Reader} {a : α}
    (h : Steady r (Outcome.ok a, r1)) : remaining r1 < remaining r := by
  obtain ⟨-, h2, -, h4⟩ := h
  have := h4 a rfl
  simp only at h2 this
  simp only [remaining, h2]
  omega

theorem remaining_of_steady {α : Type} {r r1 : Reader} {o : Outcome α}
    (h : Steady r (o, r1)) : remaining r1 ≤ remaining r := by
  obtain ⟨-, h2, h3, -⟩ := h
  simp only at h2 h3
  simp only [remaining, h2]
  omega

theorem readListLoop_total {rf : Reader → Outcome MalType × Reader}
    (hs : ∀ r, Steady r (rf r)) {k : Nat}
    (ht : ∀ r, remaining r ≤ k → (rf r).1 ≠ .outOfFuel) (closing : String) :
    ∀ (fuel : Nat) (res : List MalType) (r : Reader), remaining r ≤ k →
      remaining r < fuel → (readListLoop rf closing fuel res r).1 ≠ .outOfFuel := by
  intro fuel
  induction fuel with
  | zero => intro res r _ h; omega
  | succ fuel ih =>
    intro res r hk hf
    unfold readListLoop
    cases hp : Peek r with
    | ok t =>
      simp only
      split
      · simp
      · have hst := hs r
        have htt := ht r hk
        rcases hrf : rf r with ⟨o, r1⟩
        rw [hrf] at hst htt
        cases o with
        | ok tmp =>
          have := remaining_of_ok hst
          exact ih _ r1 (by omega) (by omega)
        | eof => simp
        | fault => simp
        | outOfFuel => exact absurd rfl htt
    | eof => simp only; split <;> simp
    | fault => simp
    | outOfFuel => exact absurd hp (Peek_ne_outOfFuel r)

theorem readHashBody_total {rf : Reader → Outcome MalType × Reader}
    (hs : ∀ r, Steady r (rf r)) {k : Nat}
    (ht : ∀ r, remaining r ≤ k → (rf r).1 ≠ .outOfFuel)
    {next : List (MalType × MalType) → Reader → Outcome (List (MalType × MalType)) × Reader}
    (res : List (MalType × MalType)) (r : Reader) (hk : remaining r ≤ k)
    (hn : ∀ res' r2, remaining r2 < remaining r → (next res' r2).1 ≠ .outOfFuel) :
    (readHashBody rf next res r).1 ≠ .outOfFuel := by
  unfold readHashBody
  have hst := hs r
  have htt := ht r hk
  rcases hrf : rf r with ⟨o, r1⟩
  rw [hrf] at hst htt
  cases o with
  | eof => simp
  | fault => simp
  | outOfFuel => exact absurd rfl htt
  | ok tmp1 =>
    simp only
    have hr1 := remaining_of_ok hst
    cases hp : Peek r1 with
    | eof => simp
    | fault => simp
    | outOfFuel => exact absurd hp (Peek_ne_outOfFuel r1)
    | ok str =>
      simp only
      split
      · simp
      · have hst2 := hs r1
        have htt2 := ht r1 (by omega)
        rcases hrf2 : rf r1 with ⟨o2, r2⟩
        rw [hrf2] at hst2 htt2
        cases o2 with
        | eof => simp
        | fault => simp
        | outOfFuel => exact absurd rfl htt2
        | ok tmp2 =>
          simp only
          have hr2 := remaining_of_ok hst2
          cases hashInsert res tmp1 tmp2 with
          | none => simp
          | some res' =>
            simp only
            cases hp2 : Peek r2 with
            | eof => simp
            | fault => simp
            | outOfFuel => exact absurd hp2 (Peek_ne_outOfFuel r2)
            | ok str2 => exact hn res' r2 (by omega)

theorem readHashLoop_total {rf : Reader → Outcome MalType × Reader}
    (hs : ∀ r, Steady r (rf r)) {k : Nat}
    (ht : ∀ r, remaining r ≤ k → (rf r).1 ≠ .outOfFuel) :
    ∀ (fuel : Nat) (res : List (MalType × MalType)) (r : Reader), remaining r ≤ k →
      remaining r < fuel → (readHashLoop rf fuel res r).1 ≠ .outOfFuel := by
  intro fuel
  induction fuel with
  | zero => intro res r _ h; omega
  | succ fuel ih =>
    intro res r hk hf
    unfold readHashLoop
    have hb : (readHashBody rf (readHashLoop rf fuel) res r).1 ≠ .outOfFuel :=
      readHashBody_total hs ht res r hk (fun res' r2 h2 => ih res' r2 (by omega) (by omega))
    cases hp : Peek r with
    | ok t =>
      simp only
      split
      · simp
      · exact hb
    | eof => exact hb
    | fault => simp
    | outOfFuel => exact absurd hp (Peek_ne_outOfFuel r)

theorem readList_total {rf : Reader → Outcome MalType × Reader}
    (hs : ∀ r, Steady r (rf r)) {k : Nat}
    (ht : ∀ r, remaining r ≤ k → (rf r).1 ≠ .outOfFuel) (closing : String)
    (fuel : Nat) (r : Reader) (hk : remaining (Advance r) ≤ k)
    (hf : remaining (Advance r) < fuel) :
    (readList rf fuel r closing).1 ≠ .outOfFuel :=
  readListLoop_total hs ht closing fuel [] (Advance r) hk hf

theorem readHash_total {rf : Reader → Outcome MalType × Reader}
    (hs : ∀ r, Steady r (rf r)) {k : Nat}
    (ht : ∀ r, remaining r ≤ k → (rf r).1 ≠ .outOfFuel)
    (fuel : Nat) (r : Reader) (hk : remaining (Advance r) ≤ k)
    (hf : remaining (Advance r) < fuel) :
    (readHash rf fuel r).1 ≠ .outOfFuel :=
  readHashLoop_total hs ht fuel [] (Advance r) hk hf

theorem readQuote_total {rf : Reader → Outcome MalType × Reader} {k : Nat}
    (ht : ∀ r, remaining r ≤ k → (rf r).1 ≠ .outOfFuel)
    (r : Reader) (quote : String) (hk : remaining (Advance r) ≤ k) :
    (readQuote rf r quote).1 ≠ .outOfFuel := by
  unfold readQuote
  have htt := ht (Advance r) hk
  rcases hrf : rf (Advance r) with ⟨o, r1⟩
  rw [hrf] at htt
  cases o with
  | ok tmp => simp
  | eof => simp
  | fault => simp
  | outOfFuel => exact absurd rfl htt

theorem readMetaData_total {rf : Reader → Outcome MalType × Reader}
    (hs : ∀ r, Steady r (rf r)) {k : Nat}
    (ht : ∀ r, remaining r ≤ k → (rf r).1 ≠ .outOfFuel)
    (fuel : Nat) (r : Reader) (hk : remaining (Advance r) ≤ k)
    (hf : remaining (Advance r) < fuel) :
    (readMetaData rf fuel r).1 ≠ .outOfFuel := by
  unfold readMetaData
  have h1 := remaining_advance (Advance r)
  have hst := readHash_steady hs fuel (Advance r)
  have htt := readHash_total hs ht fuel (Advance r) (by omega) (by omega)
  rcases hrh : readHash rf fuel (Advance r) with ⟨o, r1⟩
  rw [hrh] at hst htt
  cases o with
  | eof => simp
  | fault => simp
  | outOfFuel => exact absurd rfl htt
  | ok mm =>
    simp only
    have hr1 := remaining_of_steady hst
    have htt2 := ht r1 (by omega)
    rcases hrf : rf r1 with ⟨o2, r2⟩
    rw [hrf] at htt2
    cases o2 with
    | ok tmp => simp
    | eof => simp
    | fault => simp
    | outOfFuel => exact absurd rfl htt2

theorem readFormSwitch_total {rf : Reader → Outcome MalType × Reader}
    (hs : ∀ r, Steady r (rf r)) {k : Nat}
    (ht : ∀ r, remaining r ≤ k → (rf r).1 ≠ .outOfFuel)
    (fuel : Nat) (r : Reader) (t : String) (hk : remaining (Advance r) ≤ k)
    (hf : remaining (Advance r) < fuel) :
    (readFormSwitch rf fuel r t).1 ≠ .outOfFuel := by
  rw [readFormSwitch_eq]
  cases branchOf t with
  | list =>
    simp only [runBranch, ne_eq, asValue_ne_outOfFuel]
    exact readList_total hs ht _ fuel r hk hf
  | vec =>
    simp only [runBranch, ne_eq, asValue_ne_outOfFuel]
    exact readList_total hs ht _ fuel r hk hf
  | hash =>
    simp only [runBranch, ne_eq, asValue_ne_outOfFuel]
    exact readHash_total hs ht fuel r hk hf
  | quote name =>
    simp only [runBranch, ne_eq, asValue_ne_outOfFuel]
    exact readQuote_total ht r name hk
  | metadata =>
    simp only [runBranch, ne_eq, asValue_ne_outOfFuel]
    exact readMetaData_total hs ht fuel r hk hf
  | atom => exact readAtom_ne_outOfFuel r

theorem readForm_total : ∀ (n : Nat) (r : Reader), remaining r + 2 ≤ n →
    (readForm n r).1 ≠ .outOfFuel := by
  intro n
  induction n with
  | zero => intro r h; omega
  | succ n ih =>
    intro r hn
    rw [readForm_succ]
    cases hp : Peek r with
    | eof => simp
    | fault => simp
    | outOfFuel => exact absurd hp (Peek_ne_outOfFuel r)
    | ok t =>
      have h1 := remaining_advance_of_peek hp
      exact @readFormSwitch_total _ (readForm_steady n) (n - 2)
        (fun r' hr' => ih r' (by omega)) n r t (by omega) (by omega)

theorem parseTokens_ne_outOfFuel (tokens : List String) :
    (parseTokens tokens).1 ≠ .outOfFuel := by
  unfold parseTokens
  apply readForm_total
  simp only [remaining, mkReader, sub_zero, Int.toNat_ofNat]
  omega

/-! ## Reader macros -/

theorem mkReader_peek_cons (t : String) (ts : List String) :
    Peek (mkReader (t :: ts)) = .ok t := by
  rw [Peek_ok_iff]
  simp only [mkReader, List.length_cons, Nat.cast_add, Nat.cast_one]
  refine ⟨le_refl _, by omega, by simp⟩

theorem Advance_mkReader_cons (t : String) (ts post : List String) :
    Advance (mkReader (t :: (ts ++ post))) = embed [t] post (mkReader ts) := by
  simp only [Advance, mkReader, embed, Reader.mk.injEq, List.length_cons, List.length_append,
    List.singleton_append, List.cons_append, List.length_singleton, List.length_nil,
    Nat.cast_add, Nat.cast_one, true_and, Nat.cast_zero]
  exact ⟨by simp, by omega, by omega⟩

theorem parseTokens_cons (t : String) (ts : List String) :
    parseTokens (t :: ts) =
      runBranch (readForm (ts.length + 2)) (ts.length + 2) (mkReader (t :: ts)) (branchOf t) := by
  unfold parseTokens
  rw [List.length_cons, readForm_of_peek (mkReader_peek_cons t ts), readFormSwitch_eq]

theorem readAtom_not_hash {r r' : Reader} {m : List (MalType × MalType)} :
    readAtom r ≠ (.ok (.MalHash m), r') := by
  intro h
  unfold readAtom at h
  rcases hn : Next r with ⟨o, r1⟩
  rw [hn] at h
  cases o with
  | ok val =>
    simp only at h
    cases ha : Atoi val.data with
    | some n => rw [ha] at h; cases h
    | none =>
      rw [ha] at h
      simp only at h
      split at h
      · split at h
        · cases h
        · cases h
      · cases h
  | eof => cases h
  | fault => cases h
  | outOfFuel => cases h

theorem runBranch_hash {rf : Reader → Outcome MalType × Reader} {fuel : Nat} {r r' : Reader}
    {b : Branch} {m : List (MalType × MalType)}
    (h : runBranch rf fuel r b = (.ok (.MalHash m), r')) :
    readHash rf fuel r = (.ok m, r') := by
  cases b with
  | list => obtain ⟨a, -, ha⟩ := asValue_ok h; cases ha
  | vec => obtain ⟨a, -, ha⟩ := asValue_ok h; cases ha
  | hash => obtain ⟨a, h1, ha⟩ := asValue_ok h; cases ha; exact h1
  | quote name => obtain ⟨a, -, ha⟩ := asValue_ok h; cases ha
  | metadata => obtain ⟨a, -, ha⟩ := asValue_ok h; cases ha
  | atom => exact absurd h readAtom_not_hash

theorem reader_eq_of_steady {α : Type} {ts : List String} {o : Outcome α} {r' : Reader}
    (h : Steady (mkReader ts) (o, r')) (hend : r'.Position = ts.length) :
    r' = { Tokens := ts, Position := ts.length, EOF := ts.length } := by
  obtain ⟨h1, h2, -, -⟩ := h
  rcases r' with ⟨a, b, c⟩
  simp only [mkReader] at h1 h2 hend
  simp only [Reader.mk.injEq]
  exact ⟨h1, hend, h2⟩

/-- C6: for each of the five pairs of sigil and name (quote, quasiquote,
unquote, splice-unquote, deref), when the form parser succeeds on `ts` with
value `f` and consumes all of `ts`, it succeeds on `sigil :: ts`, consumes all
tokens, and returns the two-element List of the Symbol `name` and `f`. -/
theorem readQuote_wraps (sigil name : String)
    (hs : (sigil, name) ∈ [("'", "quote"), ("`", "quasiquote"), ("~", "unquote"),
      ("~@", "splice-unquote"), ("@", "deref")])
    (ts : List String) (f : MalType) (r' : Reader)
    (h : parseTokens ts = (.ok f, r')) (hend : r'.Position = ts.length) :
    ∃ r'', parseTokens (sigil :: ts) = (.ok (.MalList [.MalSymbol name, f]), r'') ∧
      r''.Position = (sigil :: ts).length ∧ r''.Tokens = sigil :: ts := by
  have hb : branchOf sigil = .quote name := by
    simp only [List.mem_cons, Prod.mk.injEq, List.mem_singleton, List.not_mem_nil,
      or_false] at hs
    rcases hs with ⟨rfl, rfl⟩ | ⟨rfl, rfl⟩ | ⟨rfl, rfl⟩ | ⟨rfl, rfl⟩ | ⟨rfl, rfl⟩ <;> rfl
  have hst : Steady (mkReader ts) (Outcome.ok f, r') := by
    have := readForm_steady (ts.length + 2) (mkReader ts)
    unfold parseTokens at h
    rwa [h] at this
  have hr' := reader_eq_of_steady hst hend
  refine ⟨embed [sigil] [] r', ?_, ?_, ?_⟩
  · rw [parseTokens_cons, hb]
    simp only [runBranch, readQuote]
    have ha := Advance_mkReader_cons sigil ts []
    rw [List.append_nil] at ha
    rw [ha, readForm_frame [sigil] [] (ts.length + 2) (mkReader ts) f r' h]
    rfl
  · rw [hr']
    simp [embed]
  · rw [hr']
    simp [embed]

theorem readQuote_wraps_witness :
    parseTokens ["x"] = (.ok (.MalSymbol "x"), { Tokens := ["x"], Position := 1, EOF := 1 }) ∧
    ReadStr "'x" = .ok (.MalList [.MalSymbol "quote", .MalSymbol "x"]) ∧
    ReadStr "~@x" = .ok (.MalList [.MalSymbol "splice-unquote", .MalSymbol "x"]) ∧
    ∃ r'', parseTokens ["~@", "x"] =
        (.ok (.MalList [.MalSymbol "splice-unquote", .MalSymbol "x"]), r'') ∧
      r''.Position = ["~@", "x"].length ∧ r''.Tokens = ["~@", "x"] :=
  ⟨rfl, rfl, rfl, readQuote_wraps "~@" "splice-unquote" (by decide) ["x"] (.MalSymbol "x")
    { Tokens := ["x"], Position := 1, EOF := 1 } rfl rfl⟩

/-! ## Metadata -/

/-- C7: when `ms` parses as the Mapping `m` (all of `ms` consumed) and `fs`
parses as the form `f`, the form parser on `^ :: ms ++ fs` returns the List of
the Symbol `with-meta`, then `f`, then `m`: the mapping is read first and
placed last. -/
theorem readMetaData_order (ms fs : List String) (m : List (MalType × MalType))
    (f : MalType) (rm rf : Reader)
    (hm : parseTokens ms = (.ok (.MalHash m), rm)) (hmend : rm.Position = ms.length)
    (hf : parseTokens fs = (.ok f, rf)) :
    parseTokens ("^" :: ms ++ fs) =
      (.ok (.MalList [.MalSymbol "with-meta", f, .MalHash m]), embed ("^" :: ms) [] rf) := by
  have hst : Steady (mkReader ms) (Outcome.ok (MalType.MalHash m), rm) := by
    have := readForm_steady (ms.length + 2) (mkReader ms)
    unfold parseTokens at hm
    rwa [hm] at this
  have hrm := reader_eq_of_steady hst hmend
  -- the mapping reader on `ms` alone
  have hh : readHash (readForm (ms.length + 1)) (ms.length + 1) (mkReader ms) = (.ok m, rm) := by
    cases ms with
    | nil => exact absurd (congrArg Prod.fst hm) (by simp [parseTokens, readForm_succ, mkReader, Peek])
    | cons t ts =>
      have h1 := hm
      unfold parseTokens at h1
      rw [List.length_cons] at h1 ⊢
      rw [readForm_of_peek (mkReader_peek_cons t ts), readFormSwitch_eq] at h1
      exact runBranch_hash h1
  set N := (ms ++ fs).length + 2 with hN
  have hNm : ms.length + 1 ≤ N := by simp only [hN, List.length_append]; omega
  have hNf : fs.length + 2 ≤ N := by simp only [hN, List.length_append]; omega
  have hh2 : readHash (readForm N) N (mkReader ms) = (.ok m, rm) := by
    rw [readHash_mono (readForm_mono hNm) _ N hNm _ (by rw [hh]; simp), hh]
  have hf2 : readForm N (mkReader fs) = (.ok f, rf) := by
    unfold parseTokens at hf
    rw [readForm_mono hNf _ (by rw [hf]; simp), hf]
  have e1 : embed ["^"] fs rm = embed ("^" :: ms) [] (mkReader fs) := by
    rw [hrm]
    simp only [embed, mkReader, Reader.mk.injEq, List.length_cons, List.length_singleton,
      List.length_nil, List.append_nil, List.singleton_append, List.cons_append,
      Nat.cast_add, Nat.cast_one, Nat.cast_zero, List.nil_append, true_and]
    omega
  rw [List.cons_append, parseTokens_cons]
  have hbr : branchOf "^" = .metadata := rfl
  rw [hbr, ← hN]
  simp only [runBranch, readMetaData]
  rw [Advance_mkReader_cons "^" ms fs, readHash_frame (readForm_frame _ _ N) (readForm_steady N)
    N _ m rm hh2]
  simp only
  rw [e1, readForm_frame ("^" :: ms) [] N (mkReader fs) f rf hf2]
  rfl

theorem readMetaData_order_witness :
    parseTokens ["\x7b", "a", "1", "\x7d"] =
      (.ok (.MalHash [(.MalSymbol "a", .MalNumber 1)]),
        { Tokens := ["\x7b", "a", "1", "\x7d"], Position := 4, EOF := 4 }) ∧
    parseTokens ["x"] = (.ok (.MalSymbol "x"), { Tokens := ["x"], Position := 1, EOF := 1 }) ∧
    parseTokens ("^" :: ["\x7b", "a", "1", "\x7d"] ++ ["x"]) =
      (.ok (.MalList [.MalSymbol "with-meta", .MalSymbol "x", .MalHash [(.MalSymbol "a", .MalNumber 1)]]),
        embed ("^" :: ["\x7b", "a", "1", "\x7d"]) []
          { Tokens := ["x"], Position := 1, EOF := 1 }) :=
  ⟨rfl, rfl, readMetaData_order ["\x7b", "a", "1", "\x7d"] ["x"] [(.MalSymbol "a", .MalNumber 1)]
    (.MalSymbol "x") { Tokens := ["\x7b", "a", "1", "\x7d"], Position := 4, EOF := 4 }
    { Tokens := ["x"], Position := 1, EOF := 1 } rfl rfl rfl⟩

/-! ## Unmatched opening brackets -/

theorem Over_advance {ts : List String} {r : Reader} (h : Over ts r) : Over ts (Advance r) := by
  obtain ⟨h1, h2, h3⟩ := h
  exact ⟨h1, h2, by simp only [Advance_Position]; omega⟩

theorem Over_of_steady {α : Type} {ts : List String} {r r1 : Reader} {o : Outcome α}
    (h : Over ts r) (hs : Steady r (o, r1)) : Over ts r1 := by
  obtain ⟨h1, h2, h3⟩ := h
  obtain ⟨s1, s2, s3, -⟩ := hs
  simp only at s1 s2 s3
  exact ⟨by rw [s1, h1], by rw [s2, h2], by omega⟩

theorem Over_mkReader (ts : List String) : Over ts (mkReader ts) :=
  ⟨rfl, rfl, le_refl _⟩

theorem Over_peek {ts : List String} {r : Reader} (h : Over ts r) :
    Peek r = .eof ∨ ∃ t, Peek r = .ok t ∧ t ∈ ts := by
  obtain ⟨h1, h2, h3⟩ := h
  by_cases hlt : r.Position < r.EOF
  · right
    have hi : r.Position.toNat < r.Tokens.length := by rw [h1]; omega
    refine ⟨r.Tokens[r.Position.toNat], ?_, ?_⟩
    · rw [Peek_ok_iff]
      exact ⟨h3, hlt, List.getElem?_eq_getElem hi⟩
    · rw [← h1]
      exact List.getElem_mem _
  · left
    rw [Peek_eof_iff]
    omega

theorem readAtom_ne_fault {ts : List String} {r : Reader} (h : Over ts r) :
    (readAtom r).1 ≠ .fault := by
  unfold readAtom Next
  rcases Over_peek h with hp | ⟨t, hp, -⟩
  · rw [hp]; simp
  · rw [hp]
    simp only
    split
    · simp
    · split
      · split <;> simp
      · simp

theorem readListLoop_ne_fault {ts : List String} {rf : Reader → Outcome MalType × Reader}
    (hs : ∀ r, Steady r (rf r)) (hf : ∀ r, Over ts r → (rf r).1 ≠ .fault)
    (closing : String) :
    ∀ (fuel : Nat) (res : List MalType) (r : Reader), Over ts r →
      (readListLoop rf closing fuel res r).1 ≠ .fault := by
  intro fuel
  induction fuel with
  | zero => intro res r _; simp [readListLoop]
  | succ fuel ih =>
    intro res r ho
    unfold readListLoop
    rcases Over_peek ho with hp | ⟨t, hp, -⟩
    · rw [hp]; simp only; split <;> simp
    · rw [hp]
      simp only
      split
      · simp
      · have hst := hs r
        have hff := hf r ho
        rcases hrf : rf r with ⟨o, r1⟩
        rw [hrf] at hst hff
        cases o with
        | ok tmp => exact ih _ r1 (Over_of_steady ho hst)
        | eof => simp
        | fault => exact absurd rfl hff
        | outOfFuel => simp

theorem readListLoop_ne_ok {ts : List String} {rf : Reader → Outcome MalType × Reader}
    (hs : ∀ r, Steady r (rf r)) {closing : String} (hc : closing ∉ ts)
    (hne : "" ≠ closing) :
    ∀ (fuel : Nat) (res : List MalType) (r : Reader), Over ts r →
      ∀ v, (readListLoop rf closing fuel res r).1 ≠ .ok v := by
  intro fuel
  induction fuel with
  | zero => intro res r _ v; simp [readListLoop]
  | succ fuel ih =>
    intro res r ho v
    unfold readListLoop
    rcases Over_peek ho with hp | ⟨t, hp, ht⟩
    · rw [hp]; simp only [if_neg hne]; simp
    · rw [hp]
      simp only
      have htc : t ≠ closing := fun e => hc (e ▸ ht)
      rw [if_neg htc]
      have hst := hs r
      rcases hrf : rf r with ⟨o, r1⟩
      rw [hrf] at hst
      cases o with
      | ok tmp => exact ih _ r1 (Over_of_steady ho hst) v
      | eof => simp
      | fault => simp
      | outOfFuel => simp

theorem asValue_ne_fault {α : Type} (f : α → MalType) (res : Outcome α × Reader) :
    (asValue f res).1 ≠ .fault ↔ res.1 ≠ .fault := by
  rcases res with ⟨o, r⟩
  cases o <;> simp [asValue]

theorem readQuote_ne_fault {ts : List String} {rf : Reader → Outcome MalType × Reader}
    (hf : ∀ r, Over ts r → (rf r).1 ≠ .fault) {r : Reader} (ho : Over ts r)
    (quote : String) : (readQuote rf r quote).1 ≠ .fault := by
  unfold readQuote
  have hff := hf _ (Over_advance ho)
  rcases hrf : rf (Advance r) with ⟨o, r1⟩
  rw [hrf] at hff
  cases o with
  | ok tmp => simp
  | eof => simp
  | fault => exact absurd rfl hff
  | outOfFuel => simp

theorem branchOf_hash {t : String} (h : branchOf t = .hash) : t = "\x7b" := by
  unfold branchOf at h
  by_cases h1 : t = "("
  · rw [if_pos h1] at h; cases h
  rw [if_neg h1] at h
  by_cases h2 : t = "["
  · rw [if_pos h2] at h; cases h
  rw [if_neg h2] at h
  by_cases h3 : t = "\x7b"
  · exact h3
  rw [if_neg h3] at h
  by_cases h4 : t = "'"
  · rw [if_pos h4] at h; cases h
  rw [if_neg h4] at h
  by_cases h5 : t = "`"
  · rw [if_pos h5] at h; cases h
  rw [if_neg h5] at h
  by_cases h6 : t = "~"
  · rw [if_pos h6] at h; cases h
  rw [if_neg h6] at h
  by_cases h7 : t = "~@"
  · rw [if_pos h7] at h; cases h
  rw [if_neg h7] at h
  by_cases h8 : t = "@"
  · rw [if_pos h8] at h; cases h
  rw [if_neg h8] at h
  by_cases h9 : t = "^"
  · rw [if_pos h9] at h; cases h
  rw [if_neg h9] at h
  cases h

theorem branchOf_metadata {t : String} (h : branchOf t = .metadata) : t = "^" := by
  unfold branchOf at h
  by_cases h1 : t = "("
  · rw [if_pos h1] at h; cases h
  rw [if_neg h1] at h
  by_cases h2 : t = "["
  · rw [if_pos h2] at h; cases h
  rw [if_neg h2] at h
  by_cases h3 : t = "\x7b"
  · rw [if_pos h3] at h; cases h
  rw [if_neg h3] at h
  by_cases h4 : t = "'"
  · rw [if_pos h4] at h; cases h
  rw [if_neg h4] at h
  by_cases h5 : t = "`"
  · rw [if_pos h5] at h; cases h
  rw [if_neg h5] at h
  by_cases h6 : t = "~"
  · rw [if_pos h6] at h; cases h
  rw [if_neg h6] at h
  by_cases h7 : t = "~@"
  · rw [if_pos h7] at h; cases h
  rw [if_neg h7] at h
  by_cases h8 : t = "@"
  · rw [if_pos h8] at h; cases h
  rw [if_neg h8] at h
  by_cases h9 : t = "^"
  · exact h9
  rw [if_neg h9] at h
  cases h

theorem readForm_ne_fault {ts : List String} (h1 : "\x7b" ∉ ts) (h2 : "^" ∉ ts) :
    ∀ (n : Nat) (r : Reader), Over ts r → (readForm n r).1 ≠ .fault := by
  intro n
  induction n with
  | zero => intro r _; simp [readForm]
  | succ n ih =>
    intro r ho
    rw [readForm_succ]
    rcases Over_peek ho with hp | ⟨t, hp, ht⟩
    · rw [hp]; simp
    · rw [hp]
      simp only
      rw [readFormSwitch_eq]
      cases hb : branchOf t with
      | list =>
        simp only [runBranch, ne_eq, asValue_ne_fault]
        exact readListLoop_ne_fault (readForm_steady n) ih _ n [] _ (Over_advance ho)
      | vec =>
        simp only [runBranch, ne_eq, asValue_ne_fault]
        exact readListLoop_ne_fault (readForm_steady n) ih _ n [] _ (Over_advance ho)
      | hash => exact absurd (branchOf_hash hb ▸ ht) h1
      | quote name =>
        simp only [runBranch, ne_eq, asValue_ne_fault]
        exact readQuote_ne_fault ih ho name
      | metadata => exact absurd (branchOf_metadata hb ▸ ht) h2
      | atom => exact readAtom_ne_fault ho

theorem readList_unmatched {ts : List String} {closing : String} (hc : closing ∉ ts)
    (hne : "" ≠ closing) (h1 : "\x7b" ∉ ts) (h2 : "^" ∉ ts) (t : String) (rest : List String)
    (hts : ts = t :: rest) :
    (readList (readForm (rest.length + 2)) (rest.length + 2) (mkReader ts) closing).1 = .eof := by
  have ho : Over ts (Advance (mkReader ts)) := Over_advance (Over_mkReader ts)
  have hrem : remaining (Advance (mkReader ts)) = rest.length := by
    simp only [remaining, Advance_EOF, Advance_Position, mkReader, hts, List.length_cons,
      Nat.cast_add, Nat.cast_one]
    omega
  have hok := readListLoop_ne_ok (readForm_steady (rest.length + 2)) hc hne
    (rest.length + 2) [] _ ho
  have hfa := readListLoop_ne_fault (readForm_steady (rest.length + 2))
    (readForm_ne_fault h1 h2 (rest.length + 2)) closing (rest.length + 2) [] _ ho
  have hfu := @readListLoop_total _ (readForm_steady (rest.length + 2)) rest.length
    (fun r hr => readForm_total (rest.length + 2) r (by omega)) closing (rest.length + 2) []
    (Advance (mkReader ts)) (by omega) (by omega)
  unfold readList
  rcases hrl : readListLoop (readForm (rest.length + 2)) closing (rest.length + 2) []
    (Advance (mkReader ts)) with ⟨o, r1⟩
  rw [hrl] at hok hfa hfu
  cases o with
  | ok v => exact absurd rfl (hok v)
  | eof => rfl
  | fault => exact absurd rfl hfa
  | outOfFuel => exact absurd rfl hfu

/-- C2: when the first token of the input is `(` (respectively `[`) and no
token is `)` (respectively `]`), `{` or `^`, `ReadStr` returns the
end-of-stream failure: no value, no partial list. -/
theorem ReadStr_unmatched (s : String) (opening closing : String)
    (hp : (opening, closing) ∈ [("(", ")"), ("[", "]")])
    (hfirst : (tokenize s).head? = some opening) (hc : closing ∉ tokenize s)
    (h1 : "\x7b" ∉ tokenize s) (h2 : "^" ∉ tokenize s) : ReadStr s = .eof := by
  unfold ReadStr
  generalize tokenize s = ts at hfirst hc h1 h2
  cases ts with
  | nil => cases hfirst
  | cons t rest =>
    simp only [List.head?_cons, Option.some.injEq] at hfirst
    subst hfirst
    rw [parseTokens_cons]
    simp only [List.mem_cons, Prod.mk.injEq, List.mem_singleton, List.not_mem_nil,
      or_false] at hp
    rcases hp with ⟨rfl, rfl⟩ | ⟨rfl, rfl⟩
    · have hb : branchOf "(" = .list := rfl
      have := readList_unmatched hc (by decide) h1 h2 "(" rest rfl
      rw [hb]
      simp only [runBranch]
      rcases hrl : readList (readForm (rest.length + 2)) (rest.length + 2)
        (mkReader ("(" :: rest)) ")" with ⟨o, r1⟩
      rw [hrl] at this
      simp only at this
      subst this
      rfl
    · have hb : branchOf "[" = .vec := rfl
      have := readList_unmatched hc (by decide) h1 h2 "[" rest rfl
      rw [hb]
      simp only [runBranch]
      rcases hrl : readList (readForm (rest.length + 2)) (rest.length + 2)
        (mkReader ("[" :: rest)) "]" with ⟨o, r1⟩
      rw [hrl] at this
      simp only at this
      subst this
      rfl

theorem ReadStr_unmatched_witness :
    tokenize "(awef" = ["(", "awef"] ∧ ReadStr "(awef" = .eof :=
  ⟨by decide, ReadStr_unmatched "(awef" "(" ")" (by decide) (by decide) (by decide)
    (by decide) (by decide)⟩

/-! ## The tokenizer loop -/

theorem scanString_escape (c : Char) (rest : List Char) :
    scanString ('\\' :: c :: rest) =
      if c = '\n' then ([], '\\' :: c :: rest)
      else ('\\' :: c :: (scanString rest).1, (scanString rest).2) := by
  rw [scanString]

theorem scanString_backslash_end : scanString ['\\'] = ([], ['\\']) := by
  rw [scanString]
  · simp
  · intro c rest _ h; cases h

theorem scanString_plain {c : Char} (hc : c ≠ '\\') (rest : List Char) :
    scanString (c :: rest) =
      if c = '"' then (['"'], rest)
      else (c :: (scanString rest).1, (scanString rest).2) := by
  rw [scanString]
  · simp only [hc, if_false]
  · intro c2 rest2 h
    cases h
    exact absurd rfl hc

theorem scanString_append (n : Nat) : ∀ l : List Char, l.length ≤ n →
    (scanString l).1 ++ (scanString l).2 = l := by
  induction n using Nat.strong_induction_on with
  | _ n ih =>
    intro l hl
    cases l with
    | nil => rfl
    | cons c rest =>
      by_cases hc : c = '\\'
      · subst hc
        cases rest with
        | nil => rw [scanString_backslash_end]; rfl
        | cons c2 rest2 =>
          rw [scanString_escape]
          split
          · rfl
          · simp only [List.cons_append]
            rw [ih rest2.length (by simp at hl ⊢; omega) rest2 (le_refl _)]
      · rw [scanString_plain hc]
        split
        · rename_i h; subst h; rfl
        · simp only [List.cons_append]
          rw [ih rest.length (by simp at hl ⊢; omega) rest (le_refl _)]

theorem matchCapture_append (s : List Char) :
    (matchCapture s).1 ++ (matchCapture s).2 = s := by
  unfold matchCapture
  split
  · rfl
  · rename_i c rest _
    split
    · rfl
    · split
      · rename_i h; subst h
        simp only [List.cons_append]
        rw [scanString_append rest.length rest (le_refl _)]
      · split
        · simp only [List.cons_append, List.takeWhile_append_dropWhile]
        · exact List.takeWhile_append_dropWhile _ _
  · rfl

theorem matchToken_append (s : List Char) :
    (matchToken s).1 ++ (matchToken s).2 = s := by
  unfold matchToken
  simp only [List.append_assoc]
  rw [matchCapture_append, List.takeWhile_append_dropWhile]

theorem matchToken_length {s m rest : List Char} (h : matchToken s = (m, rest)) :
    m.length + rest.length = s.length := by
  have := matchToken_append s
  rw [h] at this
  rw [← this, List.length_append]

theorem tokenizeLoop_fuel : ∀ (fuel1 fuel2 : Nat) (s : List Char) (b : Bool),
    s.length < fuel1 → s.length < fuel2 →
    tokenizeLoop fuel1 s b = tokenizeLoop fuel2 s b := by
  intro fuel1
  induction fuel1 with
  | zero => intro fuel2 s b h; omega
  | succ fuel1 ih =>
    intro fuel2 s b h1 h2
    obtain ⟨k, rfl⟩ : ∃ k, fuel2 = k + 1 := ⟨fuel2 - 1, by omega⟩
    unfold tokenizeLoop
    rcases hm : matchToken s with ⟨m, rest⟩
    have hlen := matchToken_length hm
    cases m with
    | nil =>
      simp only
      cases rest with
      | nil => rfl
      | cons c rest' =>
        simp only
        simp only [List.length_nil, List.length_cons, zero_add] at hlen
        rw [ih k rest' false (by omega) (by omega)]
    | cons c m' =>
      simp only
      simp only [List.length_cons] at hlen
      rw [ih k rest true (by omega) (by omega)]

theorem tokensOf_step {s m rest : List Char} (b : Bool) (h : matchToken s = (m, rest))
    (hne : m ≠ []) : tokensOf s b = String.mk (trimLeft m) :: tokensOf rest true := by
  have hlen := matchToken_length h
  unfold tokensOf
  rw [tokenizeLoop, h]
  cases m with
  | nil => exact absurd rfl hne
  | cons c m' =>
    simp only
    simp only [List.length_cons] at hlen
    rw [tokenizeLoop_fuel s.length (rest.length + 1) rest true (by omega) (by omega)]

theorem tokensOf_nil : tokensOf [] true = [] := rfl

theorem tokenize_eq (s : String) : tokenize s = tokensOf s.data false := rfl

/-! ## Bare words and brackets -/

theorem isSpace_of_isReSpace {c : Char} (h : isReSpace c = true) : isSpace c = true := by
  simp only [isReSpace, Bool.or_eq_true, decide_eq_true_eq] at h
  rcases h with (((h | h) | h) | h) | h <;> subst h <;> decide

theorem isSep_trim {c : Char} (h : isSep c = true) : (isSpace c || decide (c = ',')) = true := by
  simp only [isSep, Bool.or_eq_true, decide_eq_true_eq] at h
  rcases h with h | h
  · simp [isSpace_of_isReSpace h]
  · simp [h]

theorem isWordChar_isBare {c : Char} (h : isWordChar c = true) : isBare c = true := by
  have hs : isReSpace c = false := by
    cases hr : isReSpace c with
    | false => rfl
    | true =>
      have := isSpace_of_isReSpace hr
      simp [isWordChar, this] at h
  simp only [isWordChar, Bool.and_eq_true, Bool.not_eq_true', Bool.or_eq_false_iff,
    decide_eq_false_iff_not] at h
  simp only [isBare, hs, Bool.false_or, Bool.not_eq_true', Bool.or_eq_false_iff,
    decide_eq_false_iff_not]
  tauto

theorem isWordChar_not_sep {c : Char} (h : isWordChar c = true) : isSep c = false := by
  have hb := isWordChar_isBare h
  simp only [isBare, Bool.not_eq_true', Bool.or_eq_false_iff, decide_eq_false_iff_not] at hb
  simp only [isSep, Bool.or_eq_false_iff, decide_eq_false_iff_not]
  tauto

theorem isWordChar_not_trim {c : Char} (h : isWordChar c = true) :
    (isSpace c || decide (c = ',')) = false := by
  simp only [isWordChar, Bool.and_eq_true, Bool.not_eq_true', Bool.or_eq_false_iff,
    decide_eq_false_iff_not] at h
  simp only [Bool.or_eq_false_iff, decide_eq_false_iff_not]
  tauto

theorem isWordChar_facts {c : Char} (h : isWordChar c = true) :
    c ≠ '"' ∧ c ≠ ';' ∧ c ≠ '[' ∧ c ≠ ']' ∧ c ≠ '{' ∧ c ≠ '}' ∧ c ≠ '(' ∧ c ≠ ')' ∧
    c ≠ '\'' ∧ c ≠ '`' := by
  simp only [isWordChar, Bool.and_eq_true, Bool.not_eq_true', Bool.or_eq_false_iff,
    decide_eq_false_iff_not] at h
  tauto

theorem isBracket_facts {c : Char} (h : isBracket c = true) :
    isSpecial c = true ∧ c ≠ '~' ∧ isBare c = false ∧ (isSpace c || decide (c = ',')) = false := by
  simp only [isBracket, Bool.or_eq_true, decide_eq_true_eq] at h
  rcases h with ((((h | h) | h) | h) | h) | h <;> subst h <;> decide

theorem takeWhile_sep_append {p : Char → Bool} {sep l : List Char}
    (hsep : ∀ c ∈ sep, p c = true) (hl : ∀ c, l.head? = some c → p c = false) :
    (sep ++ l).takeWhile p = sep ∧ (sep ++ l).dropWhile p = l := by
  have h1 : l.takeWhile p = [] ∧ l.dropWhile p = l := by
    cases l with
    | nil => exact ⟨rfl, rfl⟩
    | cons c l' =>
      have := hl c rfl
      simp [List.takeWhile, List.dropWhile, this]
  rw [List.takeWhile_append_of_pos hsep, List.dropWhile_append_of_pos hsep, h1.1, h1.2]
  simp

theorem matchCapture_word {w rest : List Char} (hw : IsWord w) (hr : Delimited rest) :
    matchCapture (w ++ rest) = (w, rest) := by
  obtain ⟨hne, hall, h1, h2, h3⟩ := hw
  cases w with
  | nil => exact absurd rfl hne
  | cons c w' =>
    have hc := hall c (List.mem_cons_self _ _)
    have hf := isWordChar_facts hc
    have hc1 : c ≠ '~' := fun e => h1 (by rw [e]; rfl)
    have hc2 : c ≠ '^' := fun e => h2 (by rw [e]; rfl)
    have hc3 : c ≠ '@' := fun e => h3 (by rw [e]; rfl)
    have hsp : isSpecial c = false := by
      simp only [isSpecial, Bool.or_eq_false_iff, decide_eq_false_iff_not]
      tauto
    have htd := @takeWhile_sep_append isBare (c :: w') rest
      (fun x hx => isWordChar_isBare (hall x hx)) hr
    simp only [List.cons_append] at htd ⊢
    unfold matchCapture
    split
    · rename_i heq
      simp only [List.cons.injEq] at heq
      exact absurd heq.1 hc1
    · rename_i c' rest' _ heq
      simp only [List.cons.injEq] at heq
      obtain ⟨rfl, rfl⟩ := heq
      simp only [hsp, Bool.false_eq_true, if_false, hf.1, hf.2.1]
      rw [htd.1, htd.2]
    · rename_i heq
      cases heq

theorem matchCapture_bracket {c : Char} (hc : isBracket c = true) (rest : List Char) :
    matchCapture (c :: rest) = ([c], rest) := by
  have hf := isBracket_facts hc
  unfold matchCapture
  split
  · rename_i heq
    simp only [List.cons.injEq] at heq
    exact absurd heq.1 hf.2.1
  · rename_i c' rest' _ heq
    simp only [List.cons.injEq] at heq
    obtain ⟨rfl, rfl⟩ := heq
    simp only [hf.1, if_true]
  · rename_i heq
    cases heq

theorem trimLeft_sep_append {sep l : List Char} (hsep : ∀ c ∈ sep, isSep c = true)
    (hl : ∀ c, l.head? = some c → (isSpace c || decide (c = ',')) = false) :
    trimLeft (sep ++ l) = l := by
  unfold trimLeft
  exact (takeWhile_sep_append (p := fun c => isSpace c || decide (c = ','))
    (fun c hc => isSep_trim (hsep c hc)) hl).2

theorem Lexes_word {w : List Char} (hw : IsWord w) : Lexes w [String.mk w] := by
  intro sep rest b hsep hr
  have hhead : ∀ c, (w ++ rest).head? = some c → isSep c = false := by
    intro c hc
    obtain ⟨hne, hall, -⟩ := hw
    cases w with
    | nil => exact absurd rfl hne
    | cons c' w' =>
      simp only [List.cons_append, List.head?_cons, Option.some.injEq] at hc
      subst hc
      exact isWordChar_not_sep (hall _ (List.mem_cons_self _ _))
  have htd := takeWhile_sep_append (p := isSep) hsep hhead
  have hm : matchToken (sep ++ w ++ rest) = (sep ++ w, rest) := by
    unfold matchToken
    rw [List.append_assoc, htd.1, htd.2, matchCapture_word hw hr]
  have htrim : trimLeft (sep ++ w) = w := by
    apply trimLeft_sep_append hsep
    intro c hc
    obtain ⟨hne, hall, -⟩ := hw
    cases w with
    | nil => exact absurd rfl hne
    | cons c' w' =>
      simp only [List.head?_cons, Option.some.injEq] at hc
      subst hc
      exact isWordChar_not_trim (hall _ (List.mem_cons_self _ _))
  rw [tokensOf_step b hm (by
    intro h
    have := List.append_eq_nil.1 h
    exact hw.1 this.2), htrim]
  rfl

theorem tokensOf_bracket {c : Char} (hc : isBracket c = true) {sep : List Char}
    (hsep : ∀ x ∈ sep, isSep x = true) (rest : List Char) (b : Bool) :
    tokensOf (sep ++ c :: rest) b = String.mk [c] :: tokensOf rest true := by
  have hf := isBracket_facts hc
  have hcs : isSep c = false := by
    have := hf.2.2.1
    simp only [isBare, Bool.not_eq_false', Bool.or_eq_true, decide_eq_true_eq] at this
    simp only [isBracket, Bool.or_eq_true, decide_eq_true_eq] at hc
    rcases hc with ((((h | h) | h) | h) | h) | h <;> subst h <;> decide
  have htd := takeWhile_sep_append (p := isSep) (l := c :: rest) hsep
    (by intro x hx; simp only [List.head?_cons, Option.some.injEq] at hx; subst hx; exact hcs)
  have hm : matchToken (sep ++ c :: rest) = (sep ++ [c], rest) := by
    unfold matchToken
    rw [htd.1, htd.2, matchCapture_bracket hc]
  have htrim : trimLeft (sep ++ [c]) = [c] := by
    apply trimLeft_sep_append hsep
    intro x hx
    simp only [List.head?_cons, Option.some.injEq] at hx
    subst hx
    exact hf.2.2.2
  rw [tokensOf_step b hm (by simp), htrim]

/-! ## Space-joined blocks between brackets -/

theorem Delimited_cons {c : Char} (h : isBare c = false) (rest : List Char) :
    Delimited (c :: rest) := by
  intro x hx
  simp only [List.head?_cons, Option.some.injEq] at hx
  subst hx
  exact h

theorem Delimited_nil : Delimited [] := by
  intro x hx
  cases hx

theorem Lexes_join : ∀ (blocks : List (List Char × List String)),
    (∀ p ∈ blocks, Lexes p.1 p.2) → blocks ≠ [] →
    ∀ (sep : List Char) (c : Char) (rest : List Char) (b : Bool),
      (∀ x ∈ sep, isSep x = true) → isBare c = false →
      tokensOf (sep ++ join [' '] (blocks.map Prod.fst) ++ c :: rest) b =
        (blocks.map Prod.snd).flatten ++ tokensOf (c :: rest) true := by
  intro blocks
  induction blocks with
  | nil => intro _ h; exact absurd rfl h
  | cons p more ih =>
    intro h _ sep c rest b hsep hc
    have hp := h p (List.mem_cons_self _ _)
    cases more with
    | nil =>
      simp only [List.map_cons, List.map_nil, join, List.flatten_cons, List.flatten_nil,
        List.append_nil]
      exact hp sep (c :: rest) b hsep (Delimited_cons hc rest)
    | cons q more' =>
      have hrest := ih (fun x hx => h x (List.mem_cons_of_mem _ hx)) (by simp) [' '] c rest true
        (by intro x hx; simp only [List.mem_singleton] at hx; subst hx; decide) hc
      simp only [List.map_cons, join, List.flatten_cons, List.append_assoc] at hrest ⊢
      have h1 := hp sep (' ' :: (join [' '] (q.1 :: List.map Prod.fst more') ++ c :: rest)) b
        hsep (Delimited_cons (by decide) _)
      simp only [List.append_assoc, List.singleton_append, List.cons_append,
        List.nil_append] at h1 hrest ⊢
      rw [h1, hrest]

theorem Lexes_bracketed {o c : Char} (ho : isBracket o = true) (hc : isBracket c = true)
    (blocks : List (List Char × List String)) (h : ∀ p ∈ blocks, Lexes p.1 p.2) :
    Lexes (o :: join [' '] (blocks.map Prod.fst) ++ [c])
      (String.mk [o] :: (blocks.map Prod.snd).flatten ++ [String.mk [c]]) := by
  intro sep rest b hsep _
  have hcb := (isBracket_facts hc).2.2.1
  have e : sep ++ (o :: join [' '] (blocks.map Prod.fst) ++ [c]) ++ rest =
      sep ++ o :: ([] ++ join [' '] (blocks.map Prod.fst) ++ c :: rest) := by
    simp
  rw [e, tokensOf_bracket ho hsep]
  have hclose : tokensOf (c :: rest) true = String.mk [c] :: tokensOf rest true :=
    @tokensOf_bracket c hc [] (by simp) rest true
  by_cases hb : blocks = []
  · subst hb
    simp only [List.map_nil, join, List.nil_append, List.flatten_nil, List.cons_append]
    rw [hclose]
  · rw [Lexes_join blocks h hb [] c rest true (by simp) hcb, hclose]
    simp

theorem tokenize_of_Lexes {block : List Char} {toks : List String} (h : Lexes block toks) :
    tokenize (String.mk block) = toks := by
  have := h [] [] false (by simp) Delimited_nil
  simp only [List.nil_append, List.append_nil, tokensOf_nil] at this
  rw [tokenize_eq]
  exact this

theorem tokenize_mappingText (atoms : List (List Char)) (h : ∀ w ∈ atoms, IsWord w) :
    tokenize (mappingText atoms) = "\x7b" :: atoms.map String.mk ++ ["\x7d"] := by
  have hl := Lexes_bracketed (o := '{') (c := '}') (by decide) (by decide)
    (atoms.map (fun w => (w, [String.mk w])))
    (by
      intro p hp
      obtain ⟨w, hw, rfl⟩ := List.mem_map.1 hp
      exact Lexes_word (h w hw))
  have e1 : (atoms.map (fun w => (w, [String.mk w]))).map Prod.fst = atoms := by
    simp [List.map_map, Function.comp_def]
  have e2 : ∀ l : List (List Char),
      ((l.map (fun w => (w, [String.mk w]))).map Prod.snd).flatten = l.map String.mk := by
    intro l
    induction l with
    | nil => rfl
    | cons a as ih =>
      simp only [List.map_cons, List.flatten_cons, List.singleton_append, List.cons.injEq,
        true_and]
      exact ih
  rw [e1, e2] at hl
  exact tokenize_of_Lexes hl

/-! ## Reading a run of atom tokens -/

theorem Advance_readerAt (ts : List String) (p : Nat) :
    Advance (readerAt ts p) = readerAt ts (p + 1) := by
  simp only [Advance, readerAt, Reader.mk.injEq, Nat.cast_add, Nat.cast_one, true_and, and_true]

theorem mkReader_eq_readerAt (ts : List String) : mkReader ts = readerAt ts 0 := rfl

theorem Peek_readerAt (pre : List String) (t : String) (post : List String) :
    Peek (readerAt (pre ++ t :: post) pre.length) = .ok t := by
  rw [Peek_ok_iff]
  simp only [readerAt, List.length_append, List.length_cons, Nat.cast_add, Nat.cast_one,
    Int.toNat_ofNat]
  refine ⟨by omega, by omega, ?_⟩
  rw [List.getElem?_append_right (le_refl _)]
  simp

theorem word_ne_special {t : String} (hw : IsWord t.data) :
    t ≠ "(" ∧ t ≠ ")" ∧ t ≠ "[" ∧ t ≠ "]" ∧ t ≠ "\x7b" ∧ t ≠ "\x7d" ∧ t ≠ "'" ∧ t ≠ "`" ∧
    t ≠ "~" ∧ t ≠ "~@" ∧ t ≠ "@" ∧ t ≠ "^" := by
  obtain ⟨hne, hall, h1, h2, h3⟩ := hw
  refine ⟨?_, ?_, ?_, ?_, ?_, ?_, ?_, ?_, ?_, ?_, ?_, ?_⟩ <;> rintro rfl
  · exact absurd (hall '(' (by decide)) (by decide)
  · exact absurd (hall ')' (by decide)) (by decide)
  · exact absurd (hall '[' (by decide)) (by decide)
  · exact absurd (hall ']' (by decide)) (by decide)
  · exact absurd (hall '{' (by decide)) (by decide)
  · exact absurd (hall '}' (by decide)) (by decide)
  · exact absurd (hall '\'' (by decide)) (by decide)
  · exact absurd (hall '`' (by decide)) (by decide)
  · exact h1 rfl
  · exact h1 rfl
  · exact h3 rfl
  · exact h2 rfl

theorem branchOf_word {t : String} (hw : IsWord t.data) : branchOf t = .atom := by
  obtain ⟨h1, -, h2, -, h3, -, h4, h5, h6, h7, h8, h9⟩ := word_ne_special hw
  unfold branchOf
  rw [if_neg h1, if_neg h2, if_neg h3, if_neg h4, if_neg h5, if_neg h6, if_neg h7, if_neg h8,
    if_neg h9]

theorem readAtom_word {r : Reader} {t : String} (hp : Peek r = .ok t) (hw : IsWord t.data) :
    readAtom r = (.ok (atomOf t), Advance r) := by
  have hq : t.data.head? ≠ some '"' := by
    obtain ⟨hne, hall, -⟩ := hw
    cases hd : t.data with
    | nil => simp
    | cons c rest =>
      rw [hd] at hall
      have := (isWordChar_facts (hall c (List.mem_cons_self _ _))).1
      simpa using this
  unfold readAtom atomOf
  rw [Peek_Next hp]
  simp only
  cases Atoi t.data with
  | some n => rfl
  | none => simp only [hq, if_false]

theorem readForm_word {r : Reader} {t : String} (hp : Peek r = .ok t) (hw : IsWord t.data)
    (n : Nat) : readForm (n + 1) r = (.ok (atomOf t), Advance r) := by
  rw [readForm_of_peek hp, readFormSwitch_eq, branchOf_word hw]
  exact readAtom_word hp hw

theorem hashable_atomOf (t : String) : hashable (atomOf t) = true := by
  unfold atomOf
  cases Atoi t.data <;> rfl

theorem readHashLoop_atoms (n : Nat) (post : List String) :
    ∀ (k : Nat) (ws : List String), ws.length ≤ k → (∀ w ∈ ws, IsWord w.data) →
    ∀ (pre : List String) (res : List (MalType × MalType)) (fuel : Nat), ws.length < fuel →
      (readHashLoop (readForm (n + 1)) fuel res
        (readerAt (pre ++ ws ++ "\x7d" :: post) pre.length)).1 =
      if ws.length % 2 = 0 then .ok (assignAll (pairUp (ws.map atomOf)) res) else .eof := by
  intro k
  induction k using Nat.strong_induction_on with
  | _ k ih =>
    intro ws hk hw pre res fuel hf
    obtain ⟨f, rfl⟩ : ∃ f, fuel = f + 1 := ⟨fuel - 1, by omega⟩
    cases ws with
    | nil =>
      rw [readHashLoop]
      simp only [List.append_nil]
      rw [Peek_readerAt]
      simp [assignAll, pairUp]
    | cons a ws1 =>
      have ha := hw a (List.mem_cons_self _ _)
      have hane : a ≠ "\x7d" := (word_ne_special ha).2.2.2.2.2.1
      have hp0 : Peek (readerAt (pre ++ a :: ws1 ++ "\x7d" :: post) pre.length) = .ok a := by
        have := Peek_readerAt pre a (ws1 ++ "\x7d" :: post)
        simpa using this
      rw [readHashLoop, hp0]
      simp only [if_neg hane]
      rw [readHashBody, readForm_word hp0 ha, Advance_readerAt]
      simp only
      cases ws1 with
      | nil =>
        have hp1 : Peek (readerAt (pre ++ [a] ++ "\x7d" :: post) (pre.length + 1)) =
            .ok "\x7d" := by
          have := Peek_readerAt (pre ++ [a]) "\x7d" post
          simpa using this
        rw [hp1]
        simp
      | cons b ws2 =>
        have hb := hw b (List.mem_cons_of_mem _ (List.mem_cons_self _ _))
        have hbne : b ≠ "\x7d" := (word_ne_special hb).2.2.2.2.2.1
        have hp1 : Peek (readerAt (pre ++ a :: b :: ws2 ++ "\x7d" :: post) (pre.length + 1)) =
            .ok b := by
          have := Peek_readerAt (pre ++ [a]) b (ws2 ++ "\x7d" :: post)
          simpa using this
        rw [hp1]
        simp only [if_neg hbne]
        rw [readForm_word hp1 hb, Advance_readerAt]
        simp only [hashInsert, hashable_atomOf, if_true]
        have hp2 : ∃ t, Peek (readerAt (pre ++ a :: b :: ws2 ++ "\x7d" :: post)
            (pre.length + 1 + 1)) = .ok t := by
          cases ws2 with
          | nil =>
            refine ⟨"\x7d", ?_⟩
            have := Peek_readerAt (pre ++ [a, b]) "\x7d" post
            simpa using this
          | cons c ws3 =>
            refine ⟨c, ?_⟩
            have := Peek_readerAt (pre ++ [a, b]) c (ws3 ++ "\x7d" :: post)
            simpa using this
        obtain ⟨t, hp2⟩ := hp2
        rw [hp2]
        simp only
        have hrec := ih ws2.length (by simp at hk ⊢; omega) ws2 (le_refl _)
          (fun w hw' => hw w (List.mem_cons_of_mem _ (List.mem_cons_of_mem _ hw')))
          (pre ++ [a, b]) (hashSet (atomOf a) (atomOf b) res) f (by simp at hf ⊢; omega)
        have e : pre ++ [a, b] ++ ws2 ++ "\x7d" :: post = pre ++ a :: b :: ws2 ++ "\x7d" :: post := by
          simp
        have e2 : (pre ++ [a, b]).length = pre.length + 1 + 1 := by simp
        rw [e, e2] at hrec
        rw [hrec]
        simp only [List.length_cons, List.map_cons, pairUp, assignAll, List.foldl_cons]
        have : (ws2.length + 1 + 1) % 2 = ws2.length % 2 := by omega
        rw [this]

/-! ## Mappings of atoms -/

theorem ReadStr_mappingText (atoms : List (List Char)) (h : ∀ w ∈ atoms, IsWord w) :
    ReadStr (mappingText atoms) =
      if atoms.length % 2 = 0 then
        .ok (.MalHash (assignAll (pairUp (atoms.map (fun w => atomOf (String.mk w)))) []))
      else .eof := by
  unfold ReadStr
  rw [tokenize_mappingText atoms h, List.cons_append, parseTokens_cons]
  have hb : branchOf "\x7b" = .hash := rfl
  rw [hb]
  simp only [runBranch, readHash]
  have hr : Advance (mkReader ("\x7b" :: (atoms.map String.mk ++ ["\x7d"]))) =
      readerAt (["\x7b"] ++ atoms.map String.mk ++ "\x7d" :: []) ["\x7b"].length := by
    rw [mkReader_eq_readerAt, Advance_readerAt]
    simp
  rw [hr]
  have hl := readHashLoop_atoms ((atoms.map String.mk ++ ["\x7d"]).length + 1) []
    (atoms.map String.mk).length (atoms.map String.mk) (le_refl _)
    (by
      intro w hw
      obtain ⟨a, ha, rfl⟩ := List.mem_map.1 hw
      exact h a ha)
    ["\x7b"] [] ((atoms.map String.mk ++ ["\x7d"]).length + 2)
    (by simp only [List.length_append, List.length_map, List.length_singleton]; omega)
  rcases hloop : readHashLoop (readForm ((atoms.map String.mk ++ ["\x7d"]).length + 1 + 1))
    ((atoms.map String.mk ++ ["\x7d"]).length + 2) []
    (readerAt (["\x7b"] ++ atoms.map String.mk ++ "\x7d" :: []) ["\x7b"].length) with ⟨o, r1⟩
  rw [hloop] at hl
  simp only [List.length_map, List.map_map, Function.comp_def] at hl
  rw [hl]
  split <;> rfl

/-- C3: for atom tokens `a1 .. an` (bare words: numbers or symbols), `ReadStr`
of the text `{a1 a2 ... an}` returns a Mapping when `n` is even and the
end-of-stream failure when `n` is odd; `{1 2}` gives the single pair 1 -> 2
and `{1}` fails. -/
theorem ReadStr_mapping_arity (atoms : List (List Char)) (h : ∀ w ∈ atoms, IsWord w) :
    (atoms.length % 2 = 0 → ∃ m, ReadStr (mappingText atoms) = .ok (.MalHash m)) ∧
    (atoms.length % 2 = 1 → ReadStr (mappingText atoms) = .eof) := by
  rw [ReadStr_mappingText atoms h]
  constructor
  · intro he
    rw [if_pos he]
    exact ⟨_, rfl⟩
  · intro ho
    rw [if_neg (by omega)]

theorem ReadStr_mapping_arity_witness :
    (∀ w ∈ [['1'], ['2']], IsWord w) ∧ mappingText [['1'], ['2']] = "\x7b1 2\x7d" ∧
    ReadStr "\x7b1 2\x7d" = .ok (.MalHash [(.MalNumber 1, .MalNumber 2)]) ∧
    ReadStr "\x7b1\x7d" = .eof ∧
    ((([['1'], ['2']] : List (List Char)).length % 2 = 0 →
        ∃ m, ReadStr (mappingText [['1'], ['2']]) = .ok (.MalHash m)) ∧
      (([['1'], ['2']] : List (List Char)).length % 2 = 1 →
        ReadStr (mappingText [['1'], ['2']]) = .eof)) :=
  ⟨by decide, rfl, rfl, rfl, ReadStr_mapping_arity [['1'], ['2']] (by decide)⟩

/-- C5: a mapping whose key is a list, a vector, a mapping or a quoted form
makes `ReadStr` fault: the map assignment `res[tmp1] = tmp2` panics, because a
slice or a map cannot be hashed. -/
theorem ReadStr_unhashable_key :
    ReadStr "\x7b(a) 1\x7d" = .fault ∧ ReadStr "\x7b[a] 1\x7d" = .fault ∧
    ReadStr "\x7b\x7ba 1\x7d 2\x7d" = .fault ∧ ReadStr "\x7b'a 1\x7d" = .fault ∧
    ReadStr "\x7ba 1\x7d" = .ok (.MalHash [(.MalSymbol "a", .MalNumber 1)]) :=
  ⟨rfl, rfl, rfl, rfl, rfl⟩

/-! ## Later assignments overwrite earlier ones -/

theorem keyEq_eq {a b : MalType} (h : keyEq a b = true) : a = b := by
  cases a <;> cases b <;> simp_all [keyEq]

theorem keyEq_self {a : MalType} (h : hashable a = true) : keyEq a a = true := by
  cases a <;> simp_all [keyEq, hashable]

theorem mem_keys_hashSet (k v k' : MalType) (m : List (MalType × MalType)) :
    k' ∈ (hashSet k v m).map Prod.fst ↔ k' ∈ m.map Prod.fst ∨ k' = k := by
  induction m with
  | nil => simp [hashSet]
  | cons p rest ih =>
    obtain ⟨pk, pv⟩ := p
    unfold hashSet
    by_cases he : keyEq pk k = true
    · have := keyEq_eq he
      subst this
      simp only [he, if_true, List.map_cons, List.mem_cons]
      tauto
    · simp only [he, if_false, List.map_cons, List.mem_cons, ih, Bool.false_eq_true]
      tauto

theorem nodup_keys_hashSet {k : MalType} (hk : hashable k = true) (v : MalType)
    (m : List (MalType × MalType)) (hm : (m.map Prod.fst).Nodup) :
    ((hashSet k v m).map Prod.fst).Nodup := by
  induction m with
  | nil => simp [hashSet]
  | cons p rest ih =>
    obtain ⟨pk, pv⟩ := p
    simp only [List.map_cons, List.nodup_cons] at hm
    unfold hashSet
    by_cases he : keyEq pk k = true
    · simp only [he, if_true, List.map_cons, List.nodup_cons]
      exact hm
    · simp only [he, if_false, List.map_cons, List.nodup_cons, Bool.false_eq_true]
      refine ⟨?_, ih hm.2⟩
      rw [mem_keys_hashSet]
      rintro (h | h)
      · exact hm.1 h
      · subst h
        exact he (keyEq_self hk)

theorem hashLookup_hashSet_self {k : MalType} (hk : hashable k = true) (v : MalType)
    (m : List (MalType × MalType)) : hashLookup k (hashSet k v m) = some v := by
  induction m with
  | nil => simp [hashSet, hashLookup, keyEq_self hk]
  | cons p rest ih =>
    obtain ⟨pk, pv⟩ := p
    unfold hashSet
    by_cases he : keyEq pk k = true
    · simp only [he, if_true, hashLookup]
    · simp only [he, if_false, hashLookup, Bool.false_eq_true]
      exact ih

theorem hashLookup_hashSet_other {k k' : MalType} (hne : k ≠ k') (v : MalType)
    (m : List (MalType × MalType)) : hashLookup k' (hashSet k v m) = hashLookup k' m := by
  have hkk : keyEq k k' = false := by
    cases h : keyEq k k' with
    | false => rfl
    | true => exact absurd (keyEq_eq h) hne
  induction m with
  | nil => simp [hashSet, hashLookup, hkk]
  | cons p rest ih =>
    obtain ⟨pk, pv⟩ := p
    unfold hashSet
    by_cases he : keyEq pk k = true
    · have := keyEq_eq he
      subst this
      simp only [he, if_true, hashLookup, hkk, Bool.false_eq_true, if_false]
    · simp only [he, if_false, hashLookup, Bool.false_eq_true]
      rw [ih]

theorem mem_keys_assignAll (k : MalType) : ∀ (pairs m : List (MalType × MalType)),
    k ∈ (assignAll pairs m).map Prod.fst ↔ k ∈ m.map Prod.fst ∨ k ∈ pairs.map Prod.fst := by
  intro pairs
  induction pairs with
  | nil => intro m; simp [assignAll]
  | cons p rest ih =>
    intro m
    have := ih (hashSet p.1 p.2 m)
    simp only [assignAll, List.foldl_cons] at this ⊢
    rw [this, mem_keys_hashSet]
    simp only [List.map_cons, List.mem_cons]
    tauto

theorem nodup_keys_assignAll : ∀ (pairs m : List (MalType × MalType)),
    (∀ p ∈ pairs, hashable p.1 = true) → (m.map Prod.fst).Nodup →
    ((assignAll pairs m).map Prod.fst).Nodup := by
  intro pairs
  induction pairs with
  | nil => intro m _ hm; exact hm
  | cons p rest ih =>
    intro m hp hm
    have := ih (hashSet p.1 p.2 m) (fun q hq => hp q (List.mem_cons_of_mem _ hq))
      (nodup_keys_hashSet (hp p (List.mem_cons_self _ _)) p.2 m hm)
    simpa only [assignAll, List.foldl_cons] using this

theorem hashLookup_assignAll_other (k : MalType) : ∀ (pairs m : List (MalType × MalType)),
    (∀ p ∈ pairs, p.1 ≠ k) → hashLookup k (assignAll pairs m) = hashLookup k m := by
  intro pairs
  induction pairs with
  | nil => intro m _; rfl
  | cons p rest ih =>
    intro m hp
    have := ih (hashSet p.1 p.2 m) (fun q hq => hp q (List.mem_cons_of_mem _ hq))
    simp only [assignAll, List.foldl_cons] at this ⊢
    rw [this, hashLookup_hashSet_other (hp p (List.mem_cons_self _ _))]

theorem hashLookup_assignAll_last : ∀ (pairs m : List (MalType × MalType)),
    (∀ p ∈ pairs, hashable p.1 = true) →
    ∀ (i : Nat) (hi : i < pairs.length),
      (∀ (j : Nat) (hj : j < pairs.length), i < j → pairs[j].1 ≠ pairs[i].1) →
      hashLookup pairs[i].1 (assignAll pairs m) = some pairs[i].2 := by
  intro pairs
  induction pairs with
  | nil => intro m _ i hi; simp at hi
  | cons p rest ih =>
    intro m hp i hi hlast
    cases i with
    | zero =>
      simp only [List.getElem_cons_zero, assignAll, List.foldl_cons]
      have h1 := hashLookup_assignAll_other p.1 rest (hashSet p.1 p.2 m) (by
        intro q hq
        obtain ⟨j, hj, rfl⟩ := List.getElem_of_mem hq
        have := hlast (j + 1) (by simp; omega) (by omega)
        simpa using this)
      simp only [assignAll] at h1
      rw [h1, hashLookup_hashSet_self (hp p (List.mem_cons_self _ _))]
    | succ i' =>
      simp only [List.getElem_cons_succ, assignAll, List.foldl_cons]
      have := ih (hashSet p.1 p.2 m) (fun q hq => hp q (List.mem_cons_of_mem _ hq)) i'
        (by simp at hi; omega) (by
          intro j hj hij
          have := hlast (j + 1) (by simp; omega) (by omega)
          simpa using this)
      simpa only [assignAll] using this

theorem pairUp_keys_hashable : ∀ (n : Nat) (ws : List String), ws.length ≤ n →
    ∀ p ∈ pairUp (ws.map atomOf), hashable p.1 = true := by
  intro n
  induction n using Nat.strong_induction_on with
  | _ n ih =>
    intro ws hn p hp
    cases ws with
    | nil => simp [pairUp] at hp
    | cons a ws1 =>
      cases ws1 with
      | nil => simp [pairUp] at hp
      | cons b ws2 =>
        simp only [List.map_cons, pairUp, List.mem_cons] at hp
        rcases hp with rfl | hp
        · exact hashable_atomOf a
        · exact ih ws2.length (by simp at hn; omega) ws2 (le_refl _) p hp

theorem ReadStr_word {w : List Char} (hw : IsWord w) :
    ReadStr (String.mk w) = .ok (atomOf (String.mk w)) := by
  unfold ReadStr
  rw [tokenize_of_Lexes (Lexes_word hw)]
  unfold parseTokens
  rw [readForm_word (mkReader_peek_cons _ _) hw]

/-- C4: for an even number of atom tokens, the Mapping that `ReadStr` returns
for `{k1 v1 ... kn vn}` has as keys exactly the atoms read from `k1 .. kn`,
each once, and under each key the atom read from the value that follows the
last occurrence of that key. -/
theorem ReadStr_mapping_last_wins (atoms : List (List Char)) (h : ∀ w ∈ atoms, IsWord w)
    (he : atoms.length % 2 = 0) :
    (∀ w ∈ atoms, ReadStr (String.mk w) = .ok (atomOf (String.mk w))) ∧
    ∃ m, ReadStr (mappingText atoms) = .ok (.MalHash m) ∧
      (∀ k, k ∈ m.map Prod.fst ↔
        k ∈ (pairUp (atoms.map (fun w => atomOf (String.mk w)))).map Prod.fst) ∧
      (m.map Prod.fst).Nodup ∧
      ∀ (i : Nat) (hi : i < (pairUp (atoms.map (fun w => atomOf (String.mk w)))).length),
        (∀ (j : Nat) (hj : j < (pairUp (atoms.map (fun w => atomOf (String.mk w)))).length),
          i < j →
          (pairUp (atoms.map (fun w => atomOf (String.mk w))))[j].1 ≠
            (pairUp (atoms.map (fun w => atomOf (String.mk w))))[i].1) →
        hashLookup (pairUp (atoms.map (fun w => atomOf (String.mk w))))[i].1 m =
          some (pairUp (atoms.map (fun w => atomOf (String.mk w))))[i].2 := by
  refine ⟨fun w hw => ReadStr_word (h w hw), ?_⟩
  have hhash : ∀ p ∈ pairUp (atoms.map (fun w => atomOf (String.mk w))),
      hashable p.1 = true := by
    have := pairUp_keys_hashable (atoms.map String.mk).length (atoms.map String.mk) (le_refl _)
    simpa only [List.map_map, Function.comp_def] using this
  refine ⟨_, by rw [ReadStr_mappingText atoms h, if_pos he], ?_, ?_, ?_⟩
  · intro k
    rw [mem_keys_assignAll]
    simp
  · exact nodup_keys_assignAll _ [] hhash (by simp)
  · intro i hi hlast
    exact hashLookup_assignAll_last _ [] hhash i hi hlast

theorem ReadStr_mapping_last_wins_witness :
    (∀ w ∈ [['a'], ['1'], ['b'], ['2'], ['a'], ['3']], IsWord w) ∧
    mappingText [['a'], ['1'], ['b'], ['2'], ['a'], ['3']] = "\x7ba 1 b 2 a 3\x7d" ∧
    ReadStr "\x7ba 1 b 2 a 3\x7d" =
      .ok (.MalHash [(.MalSymbol "a", .MalNumber 3), (.MalSymbol "b", .MalNumber 2)]) ∧
    ∃ m, ReadStr (mappingText [['a'], ['1'], ['b'], ['2'], ['a'], ['3']]) = .ok (.MalHash m) :=
  ⟨by decide, rfl, rfl,
    (ReadStr_mapping_last_wins [['a'], ['1'], ['b'], ['2'], ['a'], ['3']] (by decide) rfl).2.imp
      (fun _ hm => hm.1)⟩

/-! ## Rendering and reading back integers -/

theorem digit_char_facts : ∀ k : Nat, k < 10 →
    isDigit (Char.ofNat (48 + k)) = true ∧ isWordChar (Char.ofNat (48 + k)) = true ∧
    (Char.ofNat (48 + k)).toNat - 48 = k ∧ Char.ofNat (48 + k) ≠ '~' ∧
    Char.ofNat (48 + k) ≠ '^' ∧ Char.ofNat (48 + k) ≠ '@' ∧ Char.ofNat (48 + k) ≠ '-' ∧
    Char.ofNat (48 + k) ≠ '+' := by
  decide

theorem digitsValue_append (l : List Char) (c : Char) :
    digitsValue (l ++ [c]) = digitsValue l * 10 + (c.toNat - 48) := by
  simp [digitsValue, List.foldl_append]

theorem natDigits_spec : ∀ (fuel n : Nat), n < fuel →
    natDigits fuel n ≠ [] ∧ (∀ c ∈ natDigits fuel n, isDigit c = true) ∧
    digitsValue (natDigits fuel n) = n := by
  intro fuel
  induction fuel with
  | zero => intro n h; omega
  | succ fuel ih =>
    intro n hn
    unfold natDigits
    by_cases h10 : n < 10
    · have hd := digit_char_facts n h10
      simp only [h10, if_true]
      refine ⟨by simp, ?_, ?_⟩
      · intro c hc
        simp only [List.mem_singleton] at hc
        subst hc
        exact hd.1
      · simp only [digitsValue, List.foldl_cons, List.foldl_nil, zero_mul, zero_add]
        exact hd.2.2.1
    · simp only [h10, if_false]
      obtain ⟨h1, h2, h3⟩ := ih (n / 10) (by omega)
      have hd := digit_char_facts (n % 10) (by omega)
      refine ⟨by simp, ?_, ?_⟩
      · intro c hc
        rcases List.mem_append.1 hc with hc | hc
        · exact h2 c hc
        · simp only [List.mem_singleton] at hc
          subst hc
          exact hd.1
      · rw [digitsValue_append, h3, hd.2.2.1]
        omega

theorem isDigit_isWordChar {c : Char} (h : isDigit c = true) : isWordChar c = true := by
  have hc : c = Char.ofNat (48 + (c.toNat - 48)) := by
    simp only [isDigit, Bool.and_eq_true, decide_eq_true_eq] at h
    have : 48 + (c.toNat - 48) = c.toNat := by omega
    rw [this, Char.ofNat_toNat]
  simp only [isDigit, Bool.and_eq_true, decide_eq_true_eq] at h
  rw [hc]
  exact (digit_char_facts (c.toNat - 48) (by omega)).2.1

theorem isDigit_head_facts {c : Char} (h : isDigit c = true) :
    c ≠ '~' ∧ c ≠ '^' ∧ c ≠ '@' ∧ c ≠ '-' ∧ c ≠ '+' := by
  refine ⟨?_, ?_, ?_, ?_, ?_⟩ <;> rintro rfl <;> exact absurd h (by decide)

theorem IsWord_digits {ds : List Char} (hne : ds ≠ []) (hd : ∀ c ∈ ds, isDigit c = true) :
    IsWord ds := by
  cases ds with
  | nil => exact absurd rfl hne
  | cons c rest =>
    have hc := isDigit_head_facts (hd c (List.mem_cons_self _ _))
    refine ⟨by simp, fun x hx => isDigit_isWordChar (hd x hx), ?_, ?_, ?_⟩
    · simpa using hc.1
    · simpa using hc.2.1
    · simpa using hc.2.2.1

theorem IsWord_minus_digits {ds : List Char} (hd : ∀ c ∈ ds, isDigit c = true) :
    IsWord ('-' :: ds) := by
  refine ⟨by simp, ?_, by simp, by simp, by simp⟩
  intro x hx
  rcases List.mem_cons.1 hx with rfl | hx
  · decide
  · exact isDigit_isWordChar (hd x hx)

theorem IsWord_Itoa (n : Int) : IsWord (Itoa n) := by
  obtain ⟨h1, h2, -⟩ := natDigits_spec (n.natAbs + 1) n.natAbs (by omega)
  unfold Itoa
  split
  · exact IsWord_minus_digits h2
  · exact IsWord_digits h1 h2

theorem Atoi_Itoa {n : Int} (hlo : -(2 ^ 63 : Int) ≤ n) (hhi : n < 2 ^ 63) :
    Atoi (Itoa n) = some n := by
  obtain ⟨h1, h2, h3⟩ := natDigits_spec (n.natAbs + 1) n.natAbs (by omega)
  unfold Itoa
  by_cases hneg : n < 0
  · simp only [hneg, if_true]
    rw [Atoi_cons, if_pos rfl, atoiCore_eq_some_iff]
    refine ⟨h1, h2, ?_, hlo, hhi⟩
    rw [h3]
    simp only [if_true]
    omega
  · simp only [hneg, if_false]
    cases hds : natDigits (n.natAbs + 1) n.natAbs with
    | nil => exact absurd hds h1
    | cons c rest =>
      rw [hds] at h2 h3
      have hc := isDigit_head_facts (h2 c (List.mem_cons_self _ _))
      rw [Atoi_cons, if_neg hc.2.2.2.1, if_neg hc.2.2.2.2, atoiCore_eq_some_iff]
      refine ⟨by simp, h2, ?_, hlo, hhi⟩
      rw [h3]
      simp only [Bool.false_eq_true, if_false, one_mul]
      omega

/-! ## Rendering and reading back values -/

theorem renderAll_eq_map (xs : List MalType) :
    renderAll xs = (xs.map (fun x => (x.render, x.toks))).map Prod.fst := by
  induction xs with
  | nil => rfl
  | cons x xs ih => simp only [renderAll, List.map_cons, ih]

theorem toksAll_eq_flatten (xs : List MalType) :
    toksAll xs = ((xs.map (fun x => (x.render, x.toks))).map Prod.snd).flatten := by
  induction xs with
  | nil => rfl
  | cons x xs ih => simp only [toksAll, List.map_cons, List.flatten_cons, ih]

mutual
theorem Lexes_render : ∀ v : MalType, v.Plain → Lexes v.render v.toks
  | .MalList elems, h => by
    have hb := Lexes_bracketed (o := '(') (c := ')') (by decide) (by decide)
      (elems.map (fun x => (x.render, x.toks))) (Lexes_renderAll elems h)
    rw [← renderAll_eq_map, ← toksAll_eq_flatten] at hb
    exact hb
  | .MalVec elems, h => by
    have hb := Lexes_bracketed (o := '[') (c := ']') (by decide) (by decide)
      (elems.map (fun x => (x.render, x.toks))) (Lexes_renderAll elems h)
    rw [← renderAll_eq_map, ← toksAll_eq_flatten] at hb
    exact hb
  | .MalHash _, h => by
    simp only [MalType.Plain] at h
  | .MalNumber n, _ => by
    simp only [MalType.render, MalType.toks]
    exact Lexes_word (IsWord_Itoa n)
  | .MalString _, h => by
    simp only [MalType.Plain] at h
  | .MalSymbol name, h => by
    simp only [MalType.Plain] at h
    simp only [MalType.render, MalType.toks]
    exact Lexes_word h.1
theorem Lexes_renderAll : ∀ xs : List MalType, allPlain xs →
    ∀ p ∈ xs.map (fun x => (x.render, x.toks)), Lexes p.1 p.2
  | [], _ => by
    intro p hp
    simp at hp
  | x :: xs, h => by
    intro p hp
    simp only [allPlain] at h
    simp only [List.map_cons, List.mem_cons] at hp
    rcases hp with rfl | hp
    · exact Lexes_render x h.1
    · exact Lexes_renderAll xs h.2 p hp
end

theorem toks_head : ∀ v : MalType, v.Plain →
    ∃ t rest, v.toks = t :: rest ∧ t ≠ ")" ∧ t ≠ "]"
  | .MalList elems, _ => ⟨"(", toksAll elems ++ [")"], rfl, by decide, by decide⟩
  | .MalVec elems, _ => ⟨"[", toksAll elems ++ ["]"], rfl, by decide, by decide⟩
  | .MalHash _, h => by simp only [MalType.Plain] at h
  | .MalNumber n, _ =>
    have hw : IsWord (String.mk (Itoa n)).data := IsWord_Itoa n
    ⟨String.mk (Itoa n), [], rfl, (word_ne_special hw).2.1, (word_ne_special hw).2.2.2.1⟩
  | .MalString _, h => by simp only [MalType.Plain] at h
  | .MalSymbol name, h => by
    simp only [MalType.Plain] at h
    exact ⟨name, [], rfl, (word_ne_special h.1).2.1, (word_ne_special h.1).2.2.2.1⟩

theorem length_le_toksAll : ∀ xs : List MalType, allPlain xs → xs.length ≤ (toksAll xs).length
  | [], _ => Nat.zero_le _
  | x :: xs, h => by
    simp only [allPlain] at h
    obtain ⟨t, rest, ht, -⟩ := toks_head x h.1
    have := length_le_toksAll xs h.2
    simp only [toksAll, List.length_cons, List.length_append, ht]
    omega

mutual
theorem readForm_toks : ∀ v : MalType, v.Plain →
    ∀ (pre post : List String) (n : Nat), v.toks.length ≤ n →
      readForm n (readerAt (pre ++ v.toks ++ post) pre.length) =
        (.ok v, readerAt (pre ++ v.toks ++ post) (pre.length + v.toks.length))
  | .MalList elems, h => by
    intro pre post n hn
    simp only [MalType.Plain] at h
    simp only [MalType.toks, List.length_cons, List.length_append, List.length_singleton] at hn ⊢
    obtain ⟨k, rfl⟩ : ∃ k, n = k + 1 := ⟨n - 1, by omega⟩
    have e : pre ++ ("(" :: toksAll elems ++ [")"]) ++ post =
        pre ++ "(" :: (toksAll elems ++ ")" :: post) := by simp
    have e2 : pre ++ "(" :: (toksAll elems ++ ")" :: post) =
        (pre ++ ["("]) ++ toksAll elems ++ ")" :: post := by simp
    rw [e, readForm_of_peek (Peek_readerAt pre "(" _), readFormSwitch_eq]
    have hb : branchOf "(" = .list := rfl
    rw [hb]
    simp only [runBranch, readList]
    rw [Advance_readerAt, e2]
    have hl := readListLoop_toks elems h ")" (Or.inl rfl) (pre ++ ["("]) post [] k k
      (by have := length_le_toksAll elems h; omega) (by omega)
    simp only [List.length_append, List.length_singleton, List.nil_append] at hl
    rw [hl]
    simp only [asValue, Prod.mk.injEq, true_and]
    congr 1
    simp only [List.length_append, List.length_cons, List.length_nil]
    omega
  | .MalVec elems, h => by
    intro pre post n hn
    simp only [MalType.Plain] at h
    simp only [MalType.toks, List.length_cons, List.length_append, List.length_singleton] at hn ⊢
    obtain ⟨k, rfl⟩ : ∃ k, n = k + 1 := ⟨n - 1, by omega⟩
    have e : pre ++ ("[" :: toksAll elems ++ ["]"]) ++ post =
        pre ++ "[" :: (toksAll elems ++ "]" :: post) := by simp
    have e2 : pre ++ "[" :: (toksAll elems ++ "]" :: post) =
        (pre ++ ["["]) ++ toksAll elems ++ "]" :: post := by simp
    rw [e, readForm_of_peek (Peek_readerAt pre "[" _), readFormSwitch_eq]
    have hb : branchOf "[" = .vec := rfl
    rw [hb]
    simp only [runBranch, readList]
    rw [Advance_readerAt, e2]
    have hl := readListLoop_toks elems h "]" (Or.inr rfl) (pre ++ ["["]) post [] k k
      (by have := length_le_toksAll elems h; omega) (by omega)
    simp only [List.length_append, List.length_singleton, List.nil_append] at hl
    rw [hl]
    simp only [asValue, Prod.mk.injEq, true_and]
    congr 1
    simp only [List.length_append, List.length_cons, List.length_nil]
    omega
  | .MalHash _, h => by simp only [MalType.Plain] at h
  | .MalNumber i, h => by
    intro pre post n hn
    simp only [MalType.Plain] at h
    simp only [MalType.toks, List.length_singleton] at hn ⊢
    obtain ⟨k, rfl⟩ : ∃ k, n = k + 1 := ⟨n - 1, by omega⟩
    have e : pre ++ [String.mk (Itoa i)] ++ post = pre ++ String.mk (Itoa i) :: post := by simp
    have hw : IsWord (String.mk (Itoa i)).data := IsWord_Itoa i
    rw [e, readForm_word (Peek_readerAt pre (String.mk (Itoa i)) post) hw, Advance_readerAt]
    have ha : Atoi (String.mk (Itoa i)).data = some i := Atoi_Itoa h.1 h.2
    simp only [atomOf, ha]
  | .MalString _, h => by simp only [MalType.Plain] at h
  | .MalSymbol name, h => by
    intro pre post n hn
    simp only [MalType.Plain] at h
    simp only [MalType.toks, List.length_singleton] at hn ⊢
    obtain ⟨k, rfl⟩ : ∃ k, n = k + 1 := ⟨n - 1, by omega⟩
    have e : pre ++ [name] ++ post = pre ++ name :: post := by simp
    rw [e, readForm_word (Peek_readerAt pre _ post) h.1, Advance_readerAt]
    simp only [atomOf, h.2]
theorem readListLoop_toks : ∀ xs : List MalType, allPlain xs →
    ∀ (closing : String), closing = ")" ∨ closing = "]" →
    ∀ (pre post : List String) (res : List MalType) (fuel n : Nat), xs.length < fuel →
      (toksAll xs).length ≤ n →
      readListLoop (readForm n) closing fuel res
          (readerAt (pre ++ toksAll xs ++ closing :: post) pre.length) =
        (.ok (res ++ xs),
          readerAt (pre ++ toksAll xs ++ closing :: post)
            (pre.length + (toksAll xs).length + 1))
  | [], _ => by
    intro closing _ pre post res fuel n hf _
    obtain ⟨f, rfl⟩ : ∃ f, fuel = f + 1 := ⟨fuel - 1, by omega⟩
    simp only [toksAll, List.append_nil, List.length_nil, add_zero]
    rw [readListLoop, Peek_readerAt]
    simp only [if_true, Advance_readerAt]
  | x :: xs, h => by
    intro closing hc pre post res fuel n hf hn
    simp only [allPlain] at h
    obtain ⟨f, rfl⟩ : ∃ f, fuel = f + 1 := ⟨fuel - 1, by omega⟩
    obtain ⟨t, rest, ht, ht1, ht2⟩ := toks_head x h.1
    have htc : t ≠ closing := by
      rcases hc with rfl | rfl
      · exact ht1
      · exact ht2
    simp only [toksAll, List.length_append, List.length_cons] at hn hf ⊢
    have e1 : pre ++ (x.toks ++ toksAll xs) ++ closing :: post =
        pre ++ t :: (rest ++ toksAll xs ++ closing :: post) := by
      rw [ht]; simp
    have e2 : pre ++ t :: (rest ++ toksAll xs ++ closing :: post) =
        pre ++ x.toks ++ (toksAll xs ++ closing :: post) := by
      rw [ht]; simp
    have e3 : pre ++ x.toks ++ (toksAll xs ++ closing :: post) =
        (pre ++ x.toks) ++ toksAll xs ++ closing :: post := by simp
    rw [e1, readListLoop, Peek_readerAt]
    simp only [if_neg htc]
    rw [e2, readForm_toks x h.1 pre (toksAll xs ++ closing :: post) n (by omega)]
    simp only
    rw [e3]
    have hl := readListLoop_toks xs h.2 closing hc (pre ++ x.toks) post (res ++ [x]) f n
      (by omega) (by omega)
    simp only [List.length_append] at hl
    rw [hl]
    simp only [List.append_assoc, List.singleton_append, Prod.mk.injEq, true_and]
    congr 1
    omega
end

/-- C1: rendering a value built only from List, Vector, Number and Symbol
nodes (Numbers in the 64-bit range, Symbol names bare words that are not
integer literals) and reading the text back gives exactly that value, and so
rendering the result reproduces the text. -/
theorem ReadStr_render (v : MalType) (h : v.Plain) :
    ReadStr v.String = .ok v ∧
    ∀ v', ReadStr v.String = .ok v' → v'.String = v.String := by
  have hr : ReadStr v.String = .ok v := by
    unfold ReadStr MalType.String
    rw [tokenize_of_Lexes (Lexes_render v h)]
    unfold parseTokens
    have := readForm_toks v h [] [] (v.toks.length + 2) (by omega)
    simp only [List.nil_append, List.append_nil, List.length_nil] at this
    rw [mkReader_eq_readerAt, this]
  refine ⟨hr, ?_⟩
  intro v' hv'
  rw [hr] at hv'
  cases hv'
  rfl

theorem ReadStr_render_witness :
    (MalType.MalList [.MalSymbol "awef"]).Plain ∧
    (MalType.MalList [.MalSymbol "awef"]).String = "(awef)" ∧
    ReadStr "(awef)" = .ok (.MalList [.MalSymbol "awef"]) ∧
    (ReadStr (MalType.MalList [.MalSymbol "awef"]).String = .ok (.MalList [.MalSymbol "awef"]) ∧
      ∀ v', ReadStr (MalType.MalList [.MalSymbol "awef"]).String = .ok v' →
        v'.String = (MalType.MalList [.MalSymbol "awef"]).String) :=
  ⟨⟨⟨by decide, by decide⟩, trivial⟩, rfl, rfl,
    ReadStr_render (.MalList [.MalSymbol "awef"]) ⟨⟨by decide, by decide⟩, trivial⟩⟩

/-! ## The cursor, termination and progress -/

/-- A Reader whose position is negative, or whose end mark lies past its token
slice, makes `Peek` fault although the position is before the end mark, where
a token or the end-of-stream error is promised for every position. -/
theorem Peek_faults_outside_slice :
    Peek { Tokens := ["a"], Position := -1, EOF := 1 } = .fault ∧
    Next { Tokens := ["a"], Position := -1, EOF := 1 } =
      (.fault, { Tokens := ["a"], Position := -1, EOF := 1 }) ∧
    Peek { Tokens := ["a"], Position := 1, EOF := 2 } = .fault := by
  refine ⟨rfl, rfl, rfl⟩

/-- C15 (amended): for every Reader whose position is not negative and whose
end mark is the length of its token slice (a length that fits Go's `int`, as
that of every slice does), `Peek` returns the token at the position when the
position is before the end and the end-of-stream error when it is at or past
the end; `Next` returns the same and moves the position by one exactly on
success, to a position that still fits an `int`; `Advance` adds one to a
position below the largest `int`, `2^63 - 1`, and changes nothing else (at
`2^63 - 1` the increment of a Go `int` wraps, so nothing is stated there). -/
theorem cursor_contract (r : Reader) (h0 : 0 ≤ r.Position)
    (he : r.EOF = r.Tokens.length) (hlen : (r.Tokens.length : Int) ≤ 2 ^ 63 - 1) :
    (r.Position < r.Tokens.length →
      ∃ t, r.Tokens[r.Position.toNat]? = some t ∧ Peek r = .ok t ∧
        Next r = (.ok t, { r with Position := r.Position + 1 }) ∧
        r.Position + 1 ≤ 2 ^ 63 - 1) ∧
    ((r.Tokens.length : Int) ≤ r.Position → Peek r = .eof ∧ Next r = (.eof, r)) ∧
    (r.Position < 2 ^ 63 - 1 →
      Advance r = { r with Position := r.Position + 1 } ∧
        (Advance r).Position ≤ 2 ^ 63 - 1) := by
  refine ⟨?_, ?_, ?_⟩
  · intro hlt
    have hi : r.Position.toNat < r.Tokens.length := by omega
    have hp : Peek r = .ok r.Tokens[r.Position.toNat] := by
      rw [Peek_ok_iff]
      exact ⟨h0, by omega, List.getElem?_eq_getElem hi⟩
    exact ⟨r.Tokens[r.Position.toNat], List.getElem?_eq_getElem hi, hp, Peek_Next hp,
      by omega⟩
  · intro hge
    have hp : Peek r = .eof := by
      rw [Peek_eof_iff]
      omega
    refine ⟨hp, ?_⟩
    simp only [Next, hp]
  · intro hmax
    refine ⟨rfl, ?_⟩
    simp only [Advance_Position]
    omega

theorem cursor_contract_witness :
    Peek (mkReader ["a", "b", "c"]) = .ok "a" ∧
    (Advance { Tokens := ["a", "b", "c"], Position := 0, EOF := 3 }).Position = 1 ∧
    (0 ≤ (mkReader ["a", "b", "c"]).Position ∧
      (mkReader ["a", "b", "c"]).EOF = (mkReader ["a", "b", "c"]).Tokens.length ∧
      (mkReader ["a", "b", "c"]).Position < 2 ^ 63 - 1) ∧
    Advance (mkReader ["a", "b", "c"]) =
      { mkReader ["a", "b", "c"] with Position := (mkReader ["a", "b", "c"]).Position + 1 } ∧
    Next (mkReader ["a", "b", "c"]) =
      (.ok "a", { Tokens := ["a", "b", "c"], Position := 1, EOF := 3 }) ∧
    Next { Tokens := ["a", "b", "c"], Position := 3, EOF := 3 } =
      (.eof, { Tokens := ["a", "b", "c"], Position := 3, EOF := 3 }) :=
  ⟨rfl, rfl, ⟨le_refl _, rfl, by decide⟩,
    ((cursor_contract (mkReader ["a", "b", "c"]) (le_refl _) rfl (by decide)).2.2
      (by decide)).1,
    rfl, rfl⟩

/-- No run of the form parser goes on for ever: with fuel two more than the
number of tokens left the run ends with a value, the end-of-stream error or a
fault, and more fuel gives the same run; every successful call has moved the
cursor forward.  The loop of the tokenizer needs no more iterations than
`tokenize` allows, and `ReadStr` never runs out of fuel. -/
theorem readForm_terminates :
    (∀ r : Reader, (readForm (remaining r + 2) r).1 ≠ .outOfFuel ∧
      ∀ n, remaining r + 2 ≤ n → readForm n r = readForm (remaining r + 2) r) ∧
    (∀ (n : Nat) (r r' : Reader) (v : MalType), readForm n r = (.ok v, r') →
      r.Position < r'.Position) ∧
    (∀ (s : String) (n : Nat), s.length < n → tokenizeLoop n s.data false = tokenize s) ∧
    (∀ s : String, ReadStr s ≠ .outOfFuel) := by
  refine ⟨?_, ?_, ?_, ?_⟩
  · intro r
    have ht := readForm_total (remaining r + 2) r (le_refl _)
    exact ⟨ht, fun n hn => readForm_mono hn r ht⟩
  · intro n r r' v h
    have hs := readForm_steady n r
    rw [h] at hs
    exact (hs.2.2.2 v rfl).1
  · intro s n hn
    exact tokenizeLoop_fuel n (s.length + 1) s.data false hn (Nat.lt_succ_self _)
  · intro s
    exact parseTokens_ne_outOfFuel (tokenize s)

/-- C18: the parse of `(x {(a) 1})` ends, but in a run-time panic and not in
a value or a returned error: the key `(a)` is read as a List, and the map
assignment of `readHash` panics on it with the cursor at position 7 of 9.  The
outcome is the same with every amount of fuel from eleven up, so `ReadStr`
does not return on this input, and it is false that `ReadStr` returns a value
or an error for every input string. -/
theorem ReadStr_ends_in_panic :
    tokenize "(x \x7b(a) 1\x7d)" = ["(", "x", "\x7b", "(", "a", ")", "1", "\x7d", ")"] ∧
    (∀ n, 11 ≤ n →
      readForm n (mkReader ["(", "x", "\x7b", "(", "a", ")", "1", "\x7d", ")"]) =
        (.fault,
          { Tokens := ["(", "x", "\x7b", "(", "a", ")", "1", "\x7d", ")"],
            Position := 7, EOF := 9 })) ∧
    ReadStr "(x \x7b(a) 1\x7d)" = .fault ∧
    ¬ ∀ s : String, (∃ v, ReadStr s = .ok v) ∨ ReadStr s = .eof := by
  refine ⟨by decide, ?_, rfl, ?_⟩
  · intro n hn
    have h11 : readForm 11 (mkReader ["(", "x", "\x7b", "(", "a", ")", "1", "\x7d", ")"]) =
        (.fault,
          { Tokens := ["(", "x", "\x7b", "(", "a", ")", "1", "\x7d", ")"],
            Position := 7, EOF := 9 }) := rfl
    have hm := readForm_mono hn (mkReader ["(", "x", "\x7b", "(", "a", ")", "1", "\x7d", ")"])
      (by rw [h11]; exact fun e => Outcome.noConfusion e)
    rw [hm, h11]
  · intro h
    have hf : ReadStr "(x \x7b(a) 1\x7d)" = .fault := rfl
    rcases h "(x \x7b(a) 1\x7d)" with ⟨v, hv⟩ | he
    · rw [hf] at hv
      exact Outcome.noConfusion hv
    · rw [hf] at he
      exact Outcome.noConfusion he

/-- C19: on a Reader whose end mark is the length of its token slice and
whose position `p` is not negative, a successful `readForm` ends at a position
`p'` with `p < p' ≤ EOF` and leaves the tokens and the end mark as they
were. -/
theorem readForm_progress (n : Nat) (r r' : Reader) (v : MalType)
    (he : r.EOF = r.Tokens.length) (h0 : 0 ≤ r.Position)
    (h : readForm n r = (.ok v, r')) :
    r.Position < r'.Position ∧ r'.Position ≤ r.EOF ∧ r'.Tokens = r.Tokens ∧
      r'.EOF = r.EOF ∧ r'.EOF = r'.Tokens.length ∧ 0 ≤ r'.Position := by
  have hs := readForm_steady n r
  rw [h] at hs
  obtain ⟨h1, h2, h3, h4⟩ := hs
  have h5 := h4 v rfl
  simp only at h1 h2 h3 h5
  exact ⟨h5.1, h5.2, h1, h2, by rw [h2, h1, he], by omega⟩

theorem readForm_progress_witness :
    parseTokens ["(", "a", ")", "b"] =
      (.ok (.MalList [.MalSymbol "a"]),
        { Tokens := ["(", "a", ")", "b"], Position := 3, EOF := 4 }) ∧
    parseTokens ["^"] = (.eof, { Tokens := ["^"], Position := 2, EOF := 1 }) ∧
    ((mkReader ["(", "a", ")", "b"]).Position <
        (Reader.mk ["(", "a", ")", "b"] 3 4).Position ∧
      (Reader.mk ["(", "a", ")", "b"] 3 4).Position ≤ (mkReader ["(", "a", ")", "b"]).EOF ∧
      (Reader.mk ["(", "a", ")", "b"] 3 4).Tokens = (mkReader ["(", "a", ")", "b"]).Tokens ∧
      (Reader.mk ["(", "a", ")", "b"] 3 4).EOF = (mkReader ["(", "a", ")", "b"]).EOF ∧
      (Reader.mk ["(", "a", ")", "b"] 3 4).EOF =
        (Reader.mk ["(", "a", ")", "b"] 3 4).Tokens.length ∧
      0 ≤ (Reader.mk ["(", "a", ")", "b"] 3 4).Position) :=
  ⟨rfl, rfl, readForm_progress 6 (mkReader ["(", "a", ")", "b"])
    (Reader.mk ["(", "a", ")", "b"] 3 4) (.MalList [.MalSymbol "a"]) rfl (le_refl _) rfl⟩

/-! ## Inputs on which the code departs from its tests and its dispatch -/

/-- C14: on the input ` this is "another set of"wae (tests)` the tokenizer
returns seven tokens, not the eight that the test expects: the closed string
and the bare run `wae` after it are one token each. -/
theorem tokenize_string_then_bare :
    tokenize " this is \"another set of\"wae (tests)" =
      ["this", "is", "\"another set of\"", "wae", "(", "tests", ")"] ∧
    (tokenize " this is \"another set of\"wae (tests)").length = 7 := by
  decide

/-- C16: a closing bracket that no opening bracket matches is read as a
Symbol: `)` alone gives the Symbol named `)`, and `(])` gives a List holding
the Symbol named `]`.  The `switch` of `readForm` has no case for the closing
tokens, so they reach `readAtom`. -/
theorem ReadStr_closing_bracket_symbol :
    ReadStr ")" = .ok (.MalSymbol ")") ∧ ReadStr "]" = .ok (.MalSymbol "]") ∧
    ReadStr "\x7d" = .ok (.MalSymbol "\x7d") ∧
    ReadStr "(])" = .ok (.MalList [.MalSymbol "]"]) :=
  ⟨rfl, rfl, rfl, rfl⟩

/-- C17: the form parser succeeds on `^a b c} x` although the token after `^`
is `a`: `readMetaData` calls `readHash` without looking at that token, and
`readHash` steps over it as if it were the opening brace. -/
theorem readMetaData_skips_any_token :
    tokenize "^a b c\x7d x" = ["^", "a", "b", "c", "\x7d", "x"] ∧
    ReadStr "^a b c\x7d x" =
      .ok (.MalList [.MalSymbol "with-meta", .MalSymbol "x",
        .MalHash [(.MalSymbol "b", .MalSymbol "c")]]) ∧
    (parseTokens ["^", "a", "b", "c", "\x7d", "x"]).2.Position = 6 :=
  ⟨by decide, rfl, rfl⟩

/-! ## Tokenization loses nothing but separators -/

theorem isBare_of_not_others {c : Char} (h1 : isSep c = false) (h2 : isSpecial c = false)
    (h3 : c ≠ '"') (h4 : c ≠ ';') : isBare c = true := by
  simp only [isSep, Bool.or_eq_false_iff, decide_eq_false_iff_not] at h1
  simp only [isSpecial, Bool.or_eq_false_iff, decide_eq_false_iff_not] at h2
  simp only [isBare, h1.1, Bool.false_or, Bool.not_eq_true', Bool.or_eq_false_iff,
    decide_eq_false_iff_not]
  tauto

theorem matchCapture_ne_nil {c : Char} (rest : List Char) (hc : isSep c = false) :
    (matchCapture (c :: rest)).1 ≠ [] := by
  unfold matchCapture
  split
  · simp
  · rename_i c' rest' _ heq
    simp only [List.cons.injEq] at heq
    obtain ⟨rfl, rfl⟩ := heq
    by_cases h2 : isSpecial c = true
    · simp [h2]
    · by_cases h3 : c = '"'
      · subst h3
        simp only [h2, if_false, if_true]
        simp
      · by_cases h4 : c = ';'
        · subst h4
          simp only [h2, h3, if_false, if_true]
          simp
        · have hb := isBare_of_not_others hc (by simpa using h2) h3 h4
          simp [h2, h3, h4, List.takeWhile, hb]
  · rename_i heq
    cases heq

theorem matchToken_ne_nil {s : List Char} (hs : s ≠ []) : (matchToken s).1 ≠ [] := by
  cases s with
  | nil => exact absurd rfl hs
  | cons c rest =>
    unfold matchToken
    by_cases hc : isSep c = true
    · simp [List.takeWhile, hc]
    · have hc' : isSep c = false := by simpa using hc
      simp only [List.takeWhile, List.dropWhile, hc', List.nil_append]
      exact matchCapture_ne_nil rest hc'

theorem tokenizeLoop_lossless : ∀ (fuel : Nat) (s : List Char) (b : Bool), s.length < fuel →
    ∃ gs : List (List Char), gs.length = (tokenizeLoop fuel s b).length ∧
      (∀ g ∈ gs, ∀ c ∈ g, isSpace c = true ∨ c = ',') ∧
      s = (List.zipWith (fun g t => g ++ t.data) gs (tokenizeLoop fuel s b)).flatten := by
  intro fuel
  induction fuel with
  | zero => intro s b h; omega
  | succ fuel ih =>
    intro s b hf
    have happ := matchToken_append s
    have hlen : (matchToken s).1.length + (matchToken s).2.length = s.length := by
      rw [← List.length_append, happ]
    rw [tokenizeLoop]
    rcases hm : matchToken s with ⟨m, rest⟩
    rw [hm] at happ hlen
    simp only at happ hlen
    cases m with
    | nil =>
      have hs : s = [] := by
        by_contra hne
        have := matchToken_ne_nil hne
        rw [hm] at this
        exact this rfl
      subst hs
      have hr : rest = [] := by simpa using happ
      subst hr
      simp only
      cases b with
      | true => exact ⟨[], rfl, by simp, by simp⟩
      | false => exact ⟨[[]], rfl, by simp, by simp [trimLeft]⟩
    | cons c m' =>
      simp only [List.length_cons] at hlen
      obtain ⟨gs, h1, h2, h3⟩ := ih rest true (by omega)
      refine ⟨(c :: m').takeWhile (fun x => isSpace x || decide (x = ',')) :: gs, ?_, ?_, ?_⟩
      · simp only [List.length_cons, h1]
      · intro g hg x hx
        rcases List.mem_cons.1 hg with rfl | hg
        · have := List.mem_takeWhile_imp hx
          simpa using this
        · exact h2 g hg x hx
      · simp only [List.zipWith_cons_cons, List.flatten_cons, trimLeft,
          List.takeWhile_append_dropWhile]
        rw [← h3, happ]

/-- C20: the tokens of an input are consecutive pieces of it: there are gaps
`g1 .. gn`, one before each token and made only of whitespace characters and
commas, with `s = g1 ++ t1 ++ ... ++ gn ++ tn`. -/
theorem tokenize_lossless (s : String) :
    ∃ gs : List (List Char), gs.length = (tokenize s).length ∧
      (∀ g ∈ gs, ∀ c ∈ g, isSpace c = true ∨ c = ',') ∧
      s.data = (List.zipWith (fun g t => g ++ t.data) gs (tokenize s)).flatten :=
  tokenizeLoop_lossless (s.length + 1) s.data false (Nat.lt_succ_self _)

/-! ## Closed quoted strings -/

theorem isLexItem_cases {it : List Char} (h : isLexItem it = true) :
    (∃ c, c ≠ '\n' ∧ it = ['\\', c]) ∨ (∃ c, it = [c] ∧ c ≠ '"' ∧ c ≠ '\\') := by
  match it, h with
  | [a, c], h =>
    simp only [isLexItem, Bool.and_eq_true, decide_eq_true_eq] at h
    exact Or.inl ⟨c, h.2, by rw [h.1]⟩
  | [c], h =>
    simp only [isLexItem, Bool.and_eq_true, decide_eq_true_eq] at h
    exact Or.inr ⟨c, rfl, h.1, h.2⟩
  | [], h => simp [isLexItem] at h
  | _ :: _ :: _ :: _, h => simp [isLexItem] at h

theorem scanString_items : ∀ (items : List (List Char)), (∀ it ∈ items, isLexItem it = true) →
    ∀ rest : List Char,
      scanString (items.flatten ++ '"' :: rest) = (items.flatten ++ ['"'], rest) := by
  intro items
  induction items with
  | nil =>
    intro _ rest
    simp only [List.flatten_nil, List.nil_append]
    rw [scanString_plain (by decide)]
    simp
  | cons it its ih =>
    intro h rest
    have hrec := ih (fun x hx => h x (List.mem_cons_of_mem _ hx)) rest
    rcases isLexItem_cases (h it (List.mem_cons_self _ _)) with ⟨c, hc, rfl⟩ | ⟨c, rfl, h1, h2⟩
    · simp only [List.flatten_cons, List.cons_append, List.nil_append]
      rw [scanString_escape, if_neg hc, hrec]
    · simp only [List.flatten_cons, List.cons_append, List.nil_append]
      rw [scanString_plain h2, if_neg h1, hrec]

theorem IsClosedString_literal {s : List Char} (h : IsClosedString s) : IsQuotedLiteral s := by
  obtain ⟨items, hi, rfl⟩ := h
  refine ⟨items, ?_, rfl⟩
  intro it hit
  rcases isLexItem_cases (hi it hit) with ⟨c, -, rfl⟩ | ⟨c, rfl, h1, h2⟩
  · exact Or.inl ⟨c, rfl⟩
  · exact Or.inr ⟨c, rfl, h1, h2⟩

theorem matchCapture_string {s : List Char} (h : IsClosedString s) (rest : List Char) :
    matchCapture (s ++ rest) = (s, rest) := by
  obtain ⟨items, hi, rfl⟩ := h
  have e : ('"' :: items.flatten ++ ['"']) ++ rest = '"' :: (items.flatten ++ '"' :: rest) := by
    simp
  rw [e]
  unfold matchCapture
  split
  · rename_i heq
    simp only [List.cons.injEq] at heq
    exact absurd heq.1 (by decide)
  · rename_i c' rest' _ heq
    simp only [List.cons.injEq] at heq
    obtain ⟨rfl, rfl⟩ := heq
    have hsp : isSpecial '"' = false := by decide
    simp only [hsp, Bool.false_eq_true, if_false, if_true]
    rw [scanString_items items hi rest]
    simp
  · rename_i heq
    cases heq

theorem LexesAny_string {s : List Char} (h : IsClosedString s) : LexesAny s [String.mk s] := by
  intro sep rest b hsep
  have hhd : ∃ tl, s = '"' :: tl := by
    obtain ⟨items, -, rfl⟩ := h
    exact ⟨_, rfl⟩
  obtain ⟨tl, htl⟩ := hhd
  have htd := @takeWhile_sep_append isSep sep (s ++ rest) hsep (by
    intro c hc
    rw [htl] at hc
    simp only [List.cons_append, List.head?_cons, Option.some.injEq] at hc
    subst hc
    decide)
  have hm : matchToken (sep ++ s ++ rest) = (sep ++ s, rest) := by
    unfold matchToken
    rw [List.append_assoc, htd.1, htd.2, matchCapture_string h]
  have htrim : trimLeft (sep ++ s) = s := by
    apply trimLeft_sep_append hsep
    intro c hc
    rw [htl] at hc
    simp only [List.head?_cons, Option.some.injEq] at hc
    subst hc
    decide
  rw [tokensOf_step b hm (by rw [htl]; simp), htrim]
  rfl

theorem LexesAny_bracket {c : Char} (hc : isBracket c = true) : LexesAny [c] [String.mk [c]] := by
  intro sep rest b hsep
  have := tokensOf_bracket hc hsep rest b
  simpa using this

/-! ## Inputs made of items -/

theorem isSep_not_bare {c : Char} (h : isSep c = true) : isBare c = false := by
  simp only [isSep, Bool.or_eq_true, decide_eq_true_eq] at h
  simp only [isBare, Bool.not_eq_false', Bool.or_eq_true, decide_eq_true_eq]
  tauto

theorem Item_text_head {it : Item} (h : it.Valid) :
    ∃ c tl, it.text = c :: tl ∧ (it.isWord = false → isBare c = false) := by
  cases it with
  | word w =>
    obtain ⟨hne, -⟩ := h
    cases w with
    | nil => exact absurd rfl hne
    | cons c tl => exact ⟨c, tl, rfl, by simp [Item.isWord]⟩
  | str s =>
    obtain ⟨items, -, rfl⟩ := h
    exact ⟨'"', _, rfl, fun _ => by decide⟩
  | bracket c =>
    exact ⟨c, [], rfl, fun _ => (isBracket_facts h).2.2.1⟩

theorem Delimited_layout : ∀ (it : Item) (pieces : List (List Char × Item)),
    (∀ p ∈ pieces, (∀ c ∈ p.1, isSep c = true) ∧ p.2.Valid) →
    (∀ sep b rest, pieces = (sep, b) :: rest → it.isWord = true → b.isWord = true → sep ≠ []) →
    it.isWord = true → Delimited (layout pieces) := by
  intro it pieces hv hsepd hw
  cases pieces with
  | nil => exact Delimited_nil
  | cons p rest =>
    obtain ⟨sep, b⟩ := p
    have hp := hv (sep, b) (List.mem_cons_self _ _)
    obtain ⟨c, tl, htxt, hhead⟩ := Item_text_head hp.2
    intro x hx
    cases sep with
    | nil =>
      have hb : b.isWord = false := by
        cases hbw : b.isWord with
        | false => rfl
        | true => exact absurd rfl (hsepd [] b rest rfl hw hbw)
      simp only [layout, List.nil_append, htxt, List.cons_append, List.head?_cons,
        Option.some.injEq] at hx
      subst hx
      exact hhead hb
    | cons s0 sep' =>
      simp only [layout, List.cons_append, List.head?_cons, Option.some.injEq] at hx
      subst hx
      exact isSep_not_bare (hp.1 _ (List.mem_cons_self _ _))

theorem tokensOf_item {sep : List Char} {it : Item} (hsep : ∀ c ∈ sep, isSep c = true)
    (hv : it.Valid) (rest : List Char) (hd : it.isWord = true → Delimited rest) (b : Bool) :
    tokensOf (sep ++ it.text ++ rest) b = String.mk it.text :: tokensOf rest true := by
  cases it with
  | word w => exact Lexes_word hv sep rest b hsep (hd rfl)
  | str s => exact LexesAny_string hv sep rest b hsep
  | bracket c => exact LexesAny_bracket hv sep rest b hsep

theorem tokensOf_layout : ∀ (pieces : List (List Char × Item)), pieces ≠ [] →
    (∀ p ∈ pieces, (∀ c ∈ p.1, isSep c = true) ∧ p.2.Valid) → Separated pieces →
    ∀ b : Bool, tokensOf (layout pieces) b = pieces.map (fun p => String.mk p.2.text) := by
  intro pieces
  induction pieces with
  | nil => intro h; exact absurd rfl h
  | cons p rest ih =>
    intro _ hv hs b
    obtain ⟨sep, it⟩ := p
    have hp := hv (sep, it) (List.mem_cons_self _ _)
    have hvr : ∀ q ∈ rest, (∀ c ∈ q.1, isSep c = true) ∧ q.2.Valid :=
      fun q hq => hv q (List.mem_cons_of_mem _ hq)
    have hd : it.isWord = true → Delimited (layout rest) := by
      intro hw
      apply Delimited_layout it rest hvr _ hw
      intro sep' b' rest' hrest hw1 hw2
      subst hrest
      simp only [Separated] at hs
      exact hs.1 hw1 hw2
    have hstep := tokensOf_item hp.1 hp.2 (layout rest) hd b
    simp only [layout, List.map_cons]
    rw [hstep]
    cases rest with
    | nil => simp [layout, tokensOf_nil]
    | cons q more =>
      have hs' : Separated (q :: more) := by
        obtain ⟨sq, bq⟩ := q
        simp only [Separated] at hs
        exact hs.2
      rw [ih (by simp) hvr hs' true]

/-- C13: an input made of bare words, closed quoted strings and brackets, each
after a run of separators, with at least one separator between two adjacent
bare words and no separator at the end, is cut into exactly its items, in
order. -/
theorem tokenize_items (pieces : List (List Char × Item)) (hne : pieces ≠ [])
    (hv : ∀ p ∈ pieces, (∀ c ∈ p.1, isSep c = true) ∧ p.2.Valid) (hs : Separated pieces) :
    tokenize (String.mk (layout pieces)) = pieces.map (fun p => String.mk p.2.text) := by
  rw [tokenize_eq]
  exact tokensOf_layout pieces hne hv hs false

theorem IsClosedString_plain (body : List Char)
    (h : ∀ c ∈ body, c ≠ '"' ∧ c ≠ '\\') : IsClosedString ('"' :: body ++ ['"']) := by
  refine ⟨body.map (fun c => [c]), ?_, ?_⟩
  · intro it hit
    obtain ⟨c, hc, rfl⟩ := List.mem_map.1 hit
    have := h c hc
    simp [isLexItem, this.1, this.2]
  · have : (body.map (fun c => [c])).flatten = body := by
      induction body with
      | nil => rfl
      | cons c cs ih =>
        simp only [List.map_cons, List.flatten_cons, List.singleton_append, List.cons.injEq,
          true_and]
        exact ih (fun x hx => h x (List.mem_cons_of_mem _ hx))
    rw [this]

theorem tokenize_items_witness :
    layout [([], .word "this".data), ([' '], .word "is".data),
        ([' '], .str "\"another set of\"".data), ([' '], .bracket '('),
        ([], .word "tests".data), ([], .bracket ')')] =
      "this is \"another set of\" (tests)".data ∧
    tokenize "this is \"another set of\" tests" = ["this", "is", "\"another set of\"", "tests"] ∧
    tokenize " this is \"another set of\" (tests)" =
      ["this", "is", "\"another set of\"", "(", "tests", ")"] ∧
    tokenize " this     is  \"another set of\"   (    tests)" =
      ["this", "is", "\"another set of\"", "(", "tests", ")"] ∧
    tokenize (String.mk (layout [([], .word "this".data), ([' '], .word "is".data),
        ([' '], .str "\"another set of\"".data), ([' '], .bracket '('),
        ([], .word "tests".data), ([], .bracket ')')])) =
      ["this", "is", "\"another set of\"", "(", "tests", ")"] :=
  ⟨rfl, by decide, by decide, by decide,
    tokenize_items _ (by simp)
      (by
        intro p hp
        simp only [List.mem_cons, List.mem_singleton, List.not_mem_nil, or_false] at hp
        rcases hp with rfl | rfl | rfl | rfl | rfl | rfl
        · exact ⟨by decide, (by decide : IsWord "this".data)⟩
        · exact ⟨by decide, (by decide : IsWord "is".data)⟩
        · exact ⟨by decide, IsClosedString_plain "another set of".data (by decide)⟩
        · exact ⟨by decide, (by decide : isBracket '(' = true)⟩
        · exact ⟨by decide, (by decide : IsWord "tests".data)⟩
        · exact ⟨by decide, (by decide : isBracket ')' = true)⟩)
      ⟨fun _ _ => by simp, fun _ _ => by simp, fun h _ => by simp [Item.isWord] at h,
        fun h _ => by simp [Item.isWord] at h, fun _ h => by simp [Item.isWord] at h, trivial⟩⟩

/-! ## String literals -/

theorem branchOf_quoted {t : String} {tl : List Char} (h : t.data = '"' :: tl) :
    branchOf t = .atom := by
  have hne : ∀ u : String, u.data.head? ≠ some '"' → t ≠ u := by
    intro u hu e
    rw [← e, h] at hu
    exact hu rfl
  unfold branchOf
  rw [if_neg (hne "(" (by decide)), if_neg (hne "[" (by decide)),
    if_neg (hne "\x7b" (by decide)), if_neg (hne "'" (by decide)),
    if_neg (hne "`" (by decide)), if_neg (hne "~" (by decide)), if_neg (hne "~@" (by decide)),
    if_neg (hne "@" (by decide)), if_neg (hne "^" (by decide))]

theorem Atoi_quoted (tl : List Char) : Atoi ('"' :: tl) = none := by
  rw [Atoi_cons, if_neg (by decide), if_neg (by decide)]
  cases h : atoiCore false ('"' :: tl) with
  | none => rfl
  | some n =>
    have := (atoiCore_eq_some_iff _ _ _).1 h
    exact absurd (this.2.1 '"' (List.mem_cons_self _ _)) (by decide)

/-- C11: the string literal made of a quote, `a`, a backslash, a newline, `b`
and a quote is valid (`properlyQuotedString` accepts it) but is not read as
one String: the tokenizer cuts it at the backslash into four tokens and
`ReadStr` fails with the end-of-stream error.  The same literal without the
backslash, a raw newline between the quotes, is one token and is read as the
String holding it. -/
theorem string_with_escaped_newline_split :
    properlyQuotedString "\"a\\\nb\"" = true ∧
    tokenize "\"a\\\nb\"" = ["\"a", "\\", "b", "\""] ∧
    ReadStr "\"a\\\nb\"" = .eof ∧
    tokenize "\"a\nb\"" = ["\"a\nb\""] ∧
    ReadStr "\"a\nb\"" = .ok (.MalString "\"a\nb\"") := by
  refine ⟨by decide, by decide, rfl, by decide, rfl⟩

/-- Every string literal in which no backslash is followed by a newline (a
quote, then escaped pairs whose second character is not a newline and
characters other than the quote and the backslash, then a closing quote) is a
single token, passes `properlyQuotedString`, and is read by `ReadStr` as the
String holding it unchanged. -/
theorem ReadStr_string_literal (s : String) (h : IsClosedString s.data) :
    tokenize s = [s] ∧ properlyQuotedString s = true ∧ ReadStr s = .ok (.MalString s) := by
  have htok : tokenize s = [s] := by
    have := LexesAny_string h [] [] false (by simp)
    simp only [List.nil_append, List.append_nil, tokensOf_nil] at this
    rw [tokenize_eq]
    exact this
  have hpq : properlyQuotedString s = true :=
    (properlyQuotedString_iff_literal s).2 (IsClosedString_literal h)
  refine ⟨htok, hpq, ?_⟩
  obtain ⟨tl, htl⟩ : ∃ tl, s.data = '"' :: tl := by
    obtain ⟨items, -, e⟩ := h
    exact ⟨_, e⟩
  unfold ReadStr
  rw [htok]
  unfold parseTokens
  rw [readForm_of_peek (mkReader_peek_cons s []), readFormSwitch_eq, branchOf_quoted htl]
  simp only [runBranch, readAtom]
  rw [Peek_Next (mkReader_peek_cons s [])]
  simp only [htl, Atoi_quoted, List.head?_cons, if_true]
  rw [hpq]
  rfl

theorem ReadStr_string_literal_witness :
    IsClosedString "\"Testing\\\"\"".data ∧
    (tokenize "\"Testing\\\"\"" = ["\"Testing\\\"\""] ∧
      properlyQuotedString "\"Testing\\\"\"" = true ∧
      ReadStr "\"Testing\\\"\"" = .ok (.MalString "\"Testing\\\"\"")) :=
  ⟨⟨[['T'], ['e'], ['s'], ['t'], ['i'], ['n'], ['g'], ['\\', '"']], by decide, rfl⟩,
    ReadStr_string_literal "\"Testing\\\"\""
      ⟨[['T'], ['e'], ['s'], ['t'], ['i'], ['n'], ['g'], ['\\', '"']], by decide, rfl⟩⟩

/-! ## Token count and run count -/

theorem isSeparator_of_isSep {c : Char} (h : isSep c = true) : isSeparator c = true :=
  isSep_trim h

theorem isSeparator_of_isWordChar {c : Char} (h : isWordChar c = true) :
    isSeparator c = false :=
  isWordChar_not_trim h

theorem countRuns_seps {sep : List Char} (hsep : ∀ c ∈ sep, isSep c = true) (l : List Char) :
    countRuns false (sep ++ l) = countRuns false l := by
  induction sep with
  | nil => rfl
  | cons c sep ih =>
    have hc := isSeparator_of_isSep (hsep c (List.mem_cons_self _ _))
    simp only [List.cons_append, countRuns, hc, if_true]
    exact ih (fun x hx => hsep x (List.mem_cons_of_mem _ hx))

theorem countRuns_after_word {rest : List Char}
    (hr : rest = [] ∨ ∃ c rest', rest = c :: rest' ∧ isSep c = true) :
    countRuns true rest = countRuns false rest := by
  rcases hr with rfl | ⟨c, rest', rfl, hc⟩
  · rfl
  · simp only [countRuns, isSeparator_of_isSep hc, if_true]

theorem countRuns_in_word {w : List Char} (hw : ∀ c ∈ w, isWordChar c = true)
    (rest : List Char) : countRuns true (w ++ rest) = countRuns true rest := by
  induction w with
  | nil => rfl
  | cons c w ih =>
    have hc := isSeparator_of_isWordChar (hw c (List.mem_cons_self _ _))
    simp only [List.cons_append, countRuns, hc, Bool.false_eq_true, if_false, if_true, zero_add]
    exact ih (fun x hx => hw x (List.mem_cons_of_mem _ hx))

theorem countRuns_block {sep w rest : List Char} (hsep : ∀ c ∈ sep, isSep c = true)
    (hne : w ≠ []) (hw : ∀ c ∈ w, isWordChar c = true)
    (hr : rest = [] ∨ ∃ c rest', rest = c :: rest' ∧ isSep c = true) :
    countRuns false (sep ++ w ++ rest) = 1 + countRuns false rest := by
  rw [List.append_assoc, countRuns_seps hsep]
  cases w with
  | nil => exact absurd rfl hne
  | cons c w' =>
    have hc := isSeparator_of_isWordChar (hw c (List.mem_cons_self _ _))
    simp only [List.cons_append, countRuns, hc, Bool.false_eq_true, if_false, List.append_eq]
    rw [countRuns_in_word (fun x hx => hw x (List.mem_cons_of_mem _ hx)),
      countRuns_after_word hr]

theorem noSigilStart_seps {sep : List Char} (hsep : ∀ c ∈ sep, isSep c = true)
    (l : List Char) : noSigilStart false (sep ++ l) = noSigilStart false l := by
  induction sep with
  | nil => rfl
  | cons c sep ih =>
    have hc := isSeparator_of_isSep (hsep c (List.mem_cons_self _ _))
    simp only [List.cons_append, noSigilStart, hc, if_true]
    exact ih (fun x hx => hsep x (List.mem_cons_of_mem _ hx))

theorem noSigilStart_in_word {w : List Char} (hw : ∀ c ∈ w, isWordChar c = true)
    (rest : List Char) : noSigilStart true (w ++ rest) = noSigilStart true rest := by
  induction w with
  | nil => rfl
  | cons c w ih =>
    have hc := isSeparator_of_isWordChar (hw c (List.mem_cons_self _ _))
    simp only [List.cons_append, noSigilStart, hc, Bool.false_eq_true, if_false,
      Bool.true_or, Bool.true_and]
    exact ih (fun x hx => hw x (List.mem_cons_of_mem _ hx))

theorem noSigilStart_after_word {rest : List Char}
    (hr : rest = [] ∨ ∃ c rest', rest = c :: rest' ∧ isSep c = true) :
    noSigilStart true rest = noSigilStart false rest := by
  rcases hr with rfl | ⟨c, rest', rfl, hc⟩
  · rfl
  · simp only [noSigilStart, isSeparator_of_isSep hc, if_true]

theorem noSigilStart_block {sep w rest : List Char} (hsep : ∀ c ∈ sep, isSep c = true)
    (hne : w ≠ []) (hw : ∀ c ∈ w, isWordChar c = true)
    (hr : rest = [] ∨ ∃ c rest', rest = c :: rest' ∧ isSep c = true)
    (h : noSigilStart false (sep ++ w ++ rest) = true) :
    (w.head? ≠ some '~' ∧ w.head? ≠ some '^' ∧ w.head? ≠ some '@') ∧
      noSigilStart false rest = true := by
  rw [List.append_assoc, noSigilStart_seps hsep] at h
  cases w with
  | nil => exact absurd rfl hne
  | cons c w' =>
    have hc := isSeparator_of_isWordChar (hw c (List.mem_cons_self _ _))
    simp only [List.cons_append, noSigilStart, hc, Bool.false_eq_true, if_false,
      Bool.false_or, Bool.and_eq_true, Bool.not_eq_true', Bool.or_eq_false_iff,
      decide_eq_false_iff_not, List.append_eq] at h
    rw [noSigilStart_in_word (fun x hx => hw x (List.mem_cons_of_mem _ hx)),
      noSigilStart_after_word hr] at h
    refine ⟨?_, h.2⟩
    simp only [List.head?_cons, ne_eq, Option.some.injEq]
    exact ⟨h.1.1.1, h.1.1.2, h.1.2⟩

theorem split_first_run {s : List Char}
    (hcl : ∀ c ∈ s, isSep c = true ∨ isWordChar c = true) (hne : s ≠ [])
    (hlast : ∀ c, s.getLast? = some c → isSep c = false) :
    ∃ sep w rest, s = sep ++ w ++ rest ∧ (∀ c ∈ sep, isSep c = true) ∧ w ≠ [] ∧
      (∀ c ∈ w, isWordChar c = true) ∧
      (rest = [] ∨ ∃ c rest', rest = c :: rest' ∧ isSep c = true) := by
  have hnot : ∀ c ∈ s, isSep c = false → isWordChar c = true := by
    intro c hc hs
    rcases hcl c hc with h | h
    · rw [h] at hs; cases hs
    · exact h
  have hs1 : s.dropWhile isSep ≠ [] := by
    intro h
    rw [List.dropWhile_eq_nil_iff] at h
    obtain ⟨c, hc⟩ : ∃ c, s.getLast? = some c := by
      cases hl : s.getLast? with
      | none => exact absurd (List.getLast?_eq_none_iff.1 hl) hne
      | some c => exact ⟨c, rfl⟩
    have := hlast c hc
    rw [h c (List.mem_of_mem_getLast? hc)] at this
    cases this
  have hsub : ∀ c ∈ s.dropWhile isSep, c ∈ s := by
    intro c hc
    rw [← List.takeWhile_append_dropWhile isSep s]
    exact List.mem_append_right _ hc
  refine ⟨s.takeWhile isSep, (s.dropWhile isSep).takeWhile (fun c => !isSep c),
    (s.dropWhile isSep).dropWhile (fun c => !isSep c), ?_, ?_, ?_, ?_, ?_⟩
  · rw [List.append_assoc, List.takeWhile_append_dropWhile, List.takeWhile_append_dropWhile]
  · intro c hc
    exact List.mem_takeWhile_imp hc
  · have hh := List.head?_dropWhile_not isSep s
    cases hd : s.dropWhile isSep with
    | nil => exact absurd hd hs1
    | cons c tl =>
      rw [hd] at hh
      simp only [List.head?_cons] at hh
      simp [List.takeWhile, hh]
  · intro c hc
    have h1 := List.mem_takeWhile_imp hc
    have h2 : c ∈ s.dropWhile isSep := by
      rw [← List.takeWhile_append_dropWhile (fun c => !isSep c) (s.dropWhile isSep)]
      exact List.mem_append_left _ hc
    exact hnot c (hsub c h2) (by simpa using h1)
  · have hh := List.head?_dropWhile_not (fun c => !isSep c) (s.dropWhile isSep)
    cases hd : (s.dropWhile isSep).dropWhile (fun c => !isSep c) with
    | nil => exact Or.inl rfl
    | cons c tl =>
      rw [hd] at hh
      simp only [List.head?_cons, Bool.not_eq_false'] at hh
      exact Or.inr ⟨c, tl, rfl, hh⟩

theorem tokensOf_count_runs : ∀ (n : Nat) (s : List Char), s.length ≤ n →
    (∀ c ∈ s, isSep c = true ∨ isWordChar c = true) → s ≠ [] →
    (∀ c, s.getLast? = some c → isSep c = false) → noSigilStart false s = true →
    ∀ b : Bool, (tokensOf s b).length = countRuns false s := by
  intro n
  induction n using Nat.strong_induction_on with
  | _ n ih =>
    intro s hn hcl hne hlast hsig b
    obtain ⟨sep, w, rest, rfl, hsep, hwne, hw, hr⟩ := split_first_run hcl hne hlast
    obtain ⟨hhead, hsig'⟩ := noSigilStart_block hsep hwne hw hr hsig
    have hword : IsWord w := ⟨hwne, hw, hhead.1, hhead.2.1, hhead.2.2⟩
    have hdel : Delimited rest := by
      rcases hr with rfl | ⟨c, rest', rfl, hc⟩
      · exact Delimited_nil
      · exact Delimited_cons (isSep_not_bare hc) rest'
    rw [Lexes_word hword sep rest b hsep hdel, countRuns_block hsep hwne hw hr]
    simp only [List.singleton_append, List.length_cons]
    rcases hr with rfl | ⟨c, rest', rfl, hc⟩
    · simp [tokensOf_nil, countRuns]
    · have hrl : (c :: rest').length < (sep ++ w ++ c :: rest').length := by
        cases w with
        | nil => exact absurd rfl hwne
        | cons x w' => simp only [List.length_append, List.length_cons]; omega
      have := ih (c :: rest').length (by omega) (c :: rest') (le_refl _)
        (fun x hx => hcl x (List.mem_append_right _ hx)) (by simp)
        (by
          intro x hx
          apply hlast x
          rw [List.getLast?_append_of_ne_nil _ (by simp)]
          exact hx)
        hsig' true
      rw [this]
      omega

/-- The token count differs from the run count on inputs made only of
separators and bare characters: a run that begins with a sigil is cut after
the sigil, a separator at the end (and the empty input) adds an empty token,
and a vertical tab is whitespace that the tokenizer does not treat as a
separator. -/
theorem token_count_differs :
    ((∀ c ∈ "~a".data, isSeparator c = true ∨ isWordChar c = true) ∧
      (tokenize "~a").length = 2 ∧ countRuns false "~a".data = 1) ∧
    ((∀ c ∈ "a ".data, isSeparator c = true ∨ isWordChar c = true) ∧
      tokenize "a " = ["a", ""] ∧ countRuns false "a ".data = 1) ∧
    (tokenize "" = [""] ∧ countRuns false "".data = 0) ∧
    ((∀ c ∈ "a\x0bb".data, isSeparator c = true ∨ isWordChar c = true) ∧
      (tokenize "a\x0bb").length = 1 ∧ countRuns false "a\x0bb".data = 2) := by
  decide

/-- C12 (amended): for every non-empty string made only of the separators of
the tokenizer (space, tab, newline, form feed, carriage return, comma) and of
bare symbol characters, in which no run begins with `~`, `^` or `@` and which
does not end with a separator, the number of tokens equals the number of
maximal runs of non-separator characters. -/
theorem tokenize_count_runs (s : String)
    (hcl : ∀ c ∈ s.data, isSep c = true ∨ isWordChar c = true) (hne : s.data ≠ [])
    (hlast : ∀ c, s.data.getLast? = some c → isSep c = false)
    (hsig : noSigilStart false s.data = true) :
    (tokenize s).length = countRuns false s.data := by
  rw [tokenize_eq]
  exact tokensOf_count_runs s.data.length s.data (le_refl _) hcl hne hlast hsig false

theorem tokenize_count_runs_witness :
    tokenize "this is a test" = ["this", "is", "a", "test"] ∧
    countRuns false "this is a test".data = 4 ∧
    (tokenize "this is a test").length = countRuns false "this is a test".data :=
  ⟨by decide, by decide,
    tokenize_count_runs "this is a test" (by decide) (by decide) (by decide) (by decide)⟩

end MalReader
